import Mathlib

set_option maxHeartbeats 1000000

/- Verification of the folder-synchronization program `src/main.py`.

The program mirrors a `source` directory tree into a `replica` directory
tree.  One pass of `replicate_source` (lines 57-97) has two phases:

  * propagate (lines 57-75): `os.walk(source)` top-down; for every walked
    source directory ensure the corresponding replica directory exists
    (`os.makedirs`, lines 59-62), then for every file either copy it when the
    replica file is missing (lines 68-71) or overwrite it when the source
    modification time is strictly greater (lines 72-75); `shutil.copy2`
    preserves the modification time.
  * prune (lines 78-97): `os.walk(replica, topdown=False)` bottom-up; every
    replica file (lines 82-88) and directory (lines 91-97) whose path does not
    exist under source is removed.

The filesystem is modelled as a finite tree: a regular file carries a
modification time and a content, a directory carries an ordered list of
named children (the listing order of `os.scandir`, which `os.walk` splits
into its `dirs` and `files` lists preserving relative order).  Paths are
lists of name components, relative to a tree root.  Machine integers do not
arise; modification times are natural numbers.

Python raises (and the program has no handler, so the pass dies) when a copy
or `os.makedirs` target has a regular file on its parent chain; the model
returns an error value for those states.  Two behaviours depend on
wall-clock directory modification times: `shutil.copy2` onto a path that is
an existing *directory* in the replica, and the `os.path.getmtime`
comparison of line 72 when the replica path is a directory.  The untimed
model marks those states with an error value and no theorem about it
reaches them; a second, timed model (`FsEntryT`, `replicate_sourceT`)
carries a modification time on every directory and an explicit pass clock
and models them faithfully: line 72 compares against the directory's
modification time and `shutil.copy2` copies INTO the directory.  The
`time.sleep`/self-recursion tail of `replicate_source`
(lines 99-103) is the inter-pass driver loop and is outside the single-pass
model, as is `argparse`; the path-validation logic of `main` (lines 128-141)
is modelled separately. -/

namespace FolderSync

/-- A filesystem tree entry: a regular file (modification time, content) or a
directory with an ordered list of named children. -/
inductive FsEntry : Type where
  | file (mtime : Nat) (content : String) : FsEntry
  | dir (children : List (String × FsEntry)) : FsEntry

/-- Find the entry of a given name in a directory listing. -/
def findChild (cs : List (String × FsEntry)) (n : String) : Option FsEntry :=
  match cs with
  | [] => none
  | (m, e) :: rest => if m = n then some e else findChild rest n

/-- Replace the binding of a name in a directory listing, or append it. -/
def setChild (cs : List (String × FsEntry)) (n : String) (e : FsEntry) :
    List (String × FsEntry) :=
  match cs with
  | [] => [(n, e)]
  | (m, e0) :: rest =>
    if m = n then (n, e) :: rest else (m, e0) :: setChild rest n e

/-- Look up the entry at a relative path (`os.path.exists`/`os.path.getmtime`
resolve paths this way: a `none` result is a missing path, which includes
every path that passes through a regular file). -/
def lookup (e : FsEntry) (p : List String) : Option FsEntry :=
  match p with
  | [] => some e
  | n :: rest =>
    match e with
    | .file _ _ => none
    | .dir cs =>
      match findChild cs n with
      | some c => lookup c rest
      | none => none

/-- Path lookup below an optional subtree (`none` = the path is absent). -/
def lookupO (o : Option FsEntry) (p : List String) : Option FsEntry :=
  match o with
  | none => none
  | some e => lookup e p

/-- One synchronization action, as logged by the program (lines 61-62, 70-71,
74-75, 87-88, 96-97), with the path relative to the walked root. -/
inductive Action : Type where
  | createdDir (p : List String) : Action
  | createdFile (p : List String) : Action
  | updatedFile (p : List String) : Action
  | deletedFile (p : List String) : Action
  | deletedDir (p : List String) : Action
  deriving DecidableEq, Repr

/-- The error states of a pass: `notADirectory` is Python's
`NotADirectoryError` from `shutil.copy2`/`os.makedirs` when a regular file
sits on the target's parent chain.  In the untimed model `dirTarget` marks
the states whose behaviour depends on wall-clock directory mtimes (copy
onto an existing replica directory, line 72's mtime comparison against a
directory), which that model does not cover; in the timed model it is
Python's `IsADirectoryError`, raised only when `shutil.copy2` into a
replica directory finds yet another directory at the inner destination. -/
inductive FsError : Type where
  | notADirectory : FsError
  | dirTarget : FsError
  deriving DecidableEq, Repr

/-- Outcome of a (phase of a) pass: the updated value plus the actions
performed so far, or an uncaught exception together with the actions that
were already performed (and logged) before the exception was raised. -/
inductive Res (α : Type) : Type where
  | ok (val : α) (acts : List Action) : Res α
  | err (e : FsError) (acts : List Action) : Res α

/-- The actions a run performed, whether or not it completed. -/
def Res.actions {α : Type} : Res α → List Action
  | .ok _ acts => acts
  | .err _ acts => acts

/-- The file entries of a directory listing, in listing order (the `files`
list of an `os.walk` triple). -/
def filesOf (cs : List (String × FsEntry)) : List (String × Nat × String) :=
  cs.filterMap fun x =>
    match x.2 with
    | .file m c => some (x.1, m, c)
    | .dir _ => none

/-- The loop body of `for file in files` (lines 63-75) for a single source
file `n` with mtime `sm` and content `sc`, acting on the listing `rcs` of the
replica directory for the walked root `p`: copy if the replica file does not
exist, overwrite if the source mtime is strictly greater, otherwise do
nothing. -/
def syncFile (p : List String) (n : String) (sm : Nat) (sc : String)
    (rcs : List (String × FsEntry)) :
    Except FsError (List (String × FsEntry) × List Action) :=
  match findChild rcs n with
  | none =>
    .ok (setChild rcs n (.file sm sc), [Action.createdFile (p ++ [n])])
  | some (.file rm _) =>
    if sm > rm then
      .ok (setChild rcs n (.file sm sc), [Action.updatedFile (p ++ [n])])
    else
      .ok (rcs, [])
  | some (.dir _) => .error .dirTarget

/-- The `for file in files` loop (lines 63-75) over the walked root's file
list, threading the replica listing and the accumulated actions; the first
uncaught exception aborts the loop (and the pass). -/
def syncFiles (p : List String) (fs : List (String × Nat × String))
    (rcs : List (String × FsEntry)) (acc : List Action) :
    Res (List (String × FsEntry)) :=
  match fs with
  | [] => .ok rcs acc
  | (n, sm, sc) :: rest =>
    match syncFile p n sm sc rcs with
    | .ok (rcs2, as) => syncFiles p rest rcs2 (acc ++ as)
    | .error e => .err e acc

mutual

/-- Processing of one `os.walk(source)` root (lines 57-75) at relative path
`p` with source listing `cs`, where `ro` is the replica entry at `p` (or
`none`): lines 59-62 create the replica directory when the path does not
exist, lines 63-75 sync the files, then the walk descends into the
subdirectories in listing order. -/
def propagateDir (p : List String) (cs : List (String × FsEntry))
    (ro : Option FsEntry) : Res FsEntry :=
  match ro with
  | none =>
    match syncFiles p (filesOf cs) [] [Action.createdDir p] with
    | .ok rcs1 acts1 => propagateSubs p cs (.dir rcs1) acts1
    | .err e acts1 => .err e acts1
  | some (.file m c) =>
    match filesOf cs with
    | [] => propagateSubs p cs (.file m c) []
    | _ :: _ => .err .notADirectory []
  | some (.dir rcs) =>
    match syncFiles p (filesOf cs) rcs [] with
    | .ok rcs1 acts1 => propagateSubs p cs (.dir rcs1) acts1
    | .err e acts1 => .err e acts1
termination_by (sizeOf cs, 1)

/-- Descent of `os.walk(source)` into the subdirectories of the walked root
`p`, in listing order, threading the replica entry at `p` and the
accumulated actions. -/
def propagateSubs (p : List String) (cs : List (String × FsEntry))
    (r : FsEntry) (acc : List Action) : Res FsEntry :=
  match cs with
  | [] => .ok r acc
  | (_, .file _ _) :: rest => propagateSubs p rest r acc
  | (n, .dir cs2) :: rest =>
    match r with
    | .file _ _ => .err .notADirectory acc
    | .dir rcs =>
      match propagateDir (p ++ [n]) cs2 (findChild rcs n) with
      | .ok sub acts2 => propagateSubs p rest (.dir (setChild rcs n sub)) (acc ++ acts2)
      | .err e acts2 => .err e (acc ++ acts2)
termination_by (sizeOf cs, 0)

end

mutual

/-- Processing of one `os.walk(replica, topdown=False)` root (lines 78-97) at
relative path `p` with replica listing `rcs`: the walk first yields the
subtrees of the subdirectories bottom-up (in listing order), then at this
root deletes the files (lines 82-88) and then the directories (lines 91-97)
whose paths do not exist under the source tree `s`.  Returns the new listing
and the actions in emission order. -/
def pruneTree (s : FsEntry) (p : List String)
    (rcs : List (String × FsEntry)) : List (String × FsEntry) × List Action :=
  match pruneSubs s p rcs with
  | (rcs1, subActs) =>
    (rcs1.filter fun x => (lookup s (p ++ [x.1])).isSome,
     subActs
       ++ (rcs.filterMap fun x =>
            match x.2 with
            | .file _ _ =>
              if (lookup s (p ++ [x.1])).isSome then none
              else some (Action.deletedFile (p ++ [x.1]))
            | .dir _ => none)
       ++ (rcs.filterMap fun x =>
            match x.2 with
            | .dir _ =>
              if (lookup s (p ++ [x.1])).isSome then none
              else some (Action.deletedDir (p ++ [x.1]))
            | .file _ _ => none))
termination_by (sizeOf rcs, 1)

/-- The bottom-up descent of the prune walk into the subdirectories of the
walked root, in listing order. -/
def pruneSubs (s : FsEntry) (p : List String)
    (rcs : List (String × FsEntry)) : List (String × FsEntry) × List Action :=
  match rcs with
  | [] => ([], [])
  | (n, .dir cs2) :: rest =>
    match pruneTree s (p ++ [n]) cs2 with
    | (cs3, a1) =>
      match pruneSubs s p rest with
      | (rest2, a2) => ((n, .dir cs3) :: rest2, a1 ++ a2)
  | (n, .file m c) :: rest =>
    match pruneSubs s p rest with
    | (rest2, a2) => ((n, .file m c) :: rest2, a2)
termination_by (sizeOf rcs, 0)

end

/-- The propagate phase (lines 57-75).  `os.walk` over a non-directory yields
nothing; the replica root itself exists (it is validated at startup and
never deleted), so the walk of the source root finds it. -/
def propagatePhase (source replica : FsEntry) : Res FsEntry :=
  match source with
  | .file _ _ => .ok replica []
  | .dir cs => propagateDir [] cs (some replica)

/-- The prune phase (lines 78-97).  `os.walk` over a non-directory yields
nothing, and the walked root itself is never a deletion candidate. -/
def prunePhase (source replica : FsEntry) : FsEntry × List Action :=
  match replica with
  | .file m c => (.file m c, [])
  | .dir rcs =>
    match pruneTree source [] rcs with
    | (rcs2, acts) => (.dir rcs2, acts)

/-- One complete pass of `replicate_source` (lines 57-97): the propagate
phase followed, if no exception was raised, by the prune phase.  The
`time.sleep`/recursion tail (lines 99-103) that schedules the next pass is
the driver loop, outside the single-pass model. -/
def replicate_source (source replica : FsEntry) : Res FsEntry :=
  match propagatePhase source replica with
  | .ok r1 acts1 =>
    match prunePhase source r1 with
    | (r2, acts2) => .ok r2 (acts1 ++ acts2)
  | .err e acts1 => .err e acts1

/-- Filesystem tree entry with directory modification times.  Directories
really carry modification times (`os.path.getmtime` succeeds on them), and
line 72's comparison can run against a replica *directory* of the walked
file's name; the timed model tracks this.  A directory's modification time
is restamped with the current clock whenever an entry is created in or
removed from it. -/
inductive FsEntryT : Type where
  | file (mtime : Nat) (content : String) : FsEntryT
  | dir (mtime : Nat) (children : List (String × FsEntryT)) : FsEntryT

/-- `findChild` over timed listings. -/
def findChildT (cs : List (String × FsEntryT)) (n : String) : Option FsEntryT :=
  match cs with
  | [] => none
  | (m, e) :: rest => if m = n then some e else findChildT rest n

/-- `setChild` over timed listings: replace the binding when the name
exists, append otherwise. -/
def setChildT (cs : List (String × FsEntryT)) (n : String) (e : FsEntryT) :
    List (String × FsEntryT) :=
  match cs with
  | [] => [(n, e)]
  | (m, e0) :: rest =>
    if m = n then (m, e) :: rest else (m, e0) :: setChildT rest n e

/-- Path lookup over timed trees (`os.path.exists` on the joined path,
kind-blind). -/
def lookupT (e : FsEntryT) (p : List String) : Option FsEntryT :=
  match p with
  | [] => some e
  | n :: rest =>
    match e with
    | .file _ _ => none
    | .dir _ cs =>
      match findChildT cs n with
      | none => none
      | some c => lookupT c rest

/-- The `files` list of an `os.walk` triple, timed model. -/
def filesOfT (cs : List (String × FsEntryT)) : List (String × Nat × String) :=
  cs.filterMap fun x =>
    match x.2 with
    | .file m c => some (x.1, m, c)
    | .dir _ _ => none

/-- Timed body of the `for file in files` loop (lines 63-75), faithful on a
replica *directory* of the walked name: `os.path.exists` is true, line 72
compares the source file's mtime against the directory's
(`os.path.getmtime` works on directories), and on a strictly newer source
`shutil.copy2` copies INTO the directory — destination `dir/<name>` —
overwriting a regular file of that name, or creating it (which restamps the
directory's modification time with the pass clock `now`); only a further
directory at that inner destination raises (`IsADirectoryError`, the timed
reading of `dirTarget`).  The program prints and logs `Updated file` in
that branch exactly as for a plain overwrite (lines 73-75). -/
def syncFileT (now : Nat) (p : List String) (n : String) (sm : Nat)
    (sc : String) (rcs : List (String × FsEntryT)) :
    Except FsError (List (String × FsEntryT) × List Action) :=
  match findChildT rcs n with
  | none =>
    .ok (setChildT rcs n (.file sm sc), [Action.createdFile (p ++ [n])])
  | some (.file rm _) =>
    if sm > rm then
      .ok (setChildT rcs n (.file sm sc), [Action.updatedFile (p ++ [n])])
    else
      .ok (rcs, [])
  | some (.dir dm ds) =>
    if sm > dm then
      match findChildT ds n with
      | some (.dir _ _) => .error .dirTarget
      | some (.file _ _) =>
        .ok (setChildT rcs n (.dir dm (setChildT ds n (.file sm sc))),
             [Action.updatedFile (p ++ [n])])
      | none =>
        .ok (setChildT rcs n (.dir now (setChildT ds n (.file sm sc))),
             [Action.updatedFile (p ++ [n])])
    else
      .ok (rcs, [])

/-- Timed `for file in files` loop (lines 63-75). -/
def syncFilesT (now : Nat) (p : List String)
    (fs : List (String × Nat × String)) (rcs : List (String × FsEntryT))
    (acc : List Action) : Res (List (String × FsEntryT)) :=
  match fs with
  | [] => .ok rcs acc
  | (n, sm, sc) :: rest =>
    match syncFileT now p n sm sc rcs with
    | .ok (rcs2, as) => syncFilesT now p rest rcs2 (acc ++ as)
    | .error e => .err e acc

mutual

/-- Timed processing of one `os.walk(source)` root, as `propagateDir` with
directory modification times tracked: `os.makedirs` creates the replica
directory stamped with the pass clock, and creating a new entry in an
existing replica directory (a file by the loop of lines 63-75, a
subdirectory by a deeper `os.makedirs`) restamps that directory's
modification time. -/
def propagateDirT (now : Nat) (p : List String)
    (cs : List (String × FsEntryT)) (ro : Option FsEntryT) : Res FsEntryT :=
  match ro with
  | none =>
    match syncFilesT now p (filesOfT cs) [] [Action.createdDir p] with
    | .ok rcs1 acts1 => propagateSubsT now p cs (.dir now rcs1) acts1
    | .err e acts1 => .err e acts1
  | some (.file m c) =>
    match filesOfT cs with
    | [] => propagateSubsT now p cs (.file m c) []
    | _ :: _ => .err .notADirectory []
  | some (.dir dm rcs) =>
    match syncFilesT now p (filesOfT cs) rcs [] with
    | .ok rcs1 acts1 =>
      propagateSubsT now p cs
        (.dir (if rcs1.length = rcs.length then dm else now) rcs1) acts1
    | .err e acts1 => .err e acts1
termination_by (sizeOf cs, 1)

/-- Timed descent of `os.walk(source)` into the subdirectories of the
walked root. -/
def propagateSubsT (now : Nat) (p : List String)
    (cs : List (String × FsEntryT)) (r : FsEntryT) (acc : List Action) :
    Res FsEntryT :=
  match cs with
  | [] => .ok r acc
  | (_, .file _ _) :: rest => propagateSubsT now p rest r acc
  | (n, .dir _ cs2) :: rest =>
    match r with
    | .file _ _ => .err .notADirectory acc
    | .dir dm rcs =>
      match propagateDirT now (p ++ [n]) cs2 (findChildT rcs n) with
      | .ok sub acts2 =>
        propagateSubsT now p rest
          (.dir (if (findChildT rcs n).isSome then dm else now)
            (setChildT rcs n sub)) (acc ++ acts2)
      | .err e acts2 => .err e (acc ++ acts2)
termination_by (sizeOf cs, 0)

end

mutual

/-- Timed prune of one `os.walk(replica, topdown=False)` root, as
`pruneTree` with directory modification times restamped when entries are
removed from a directory. -/
def pruneTreeT (now : Nat) (s : FsEntryT) (p : List String)
    (rcs : List (String × FsEntryT)) :
    List (String × FsEntryT) × List Action :=
  match pruneSubsT now s p rcs with
  | (rcs1, subActs) =>
    (rcs1.filter fun x => (lookupT s (p ++ [x.1])).isSome,
     subActs
       ++ (rcs.filterMap fun x =>
            match x.2 with
            | .file _ _ =>
              if (lookupT s (p ++ [x.1])).isSome then none
              else some (Action.deletedFile (p ++ [x.1]))
            | .dir _ _ => none)
       ++ (rcs.filterMap fun x =>
            match x.2 with
            | .dir _ _ =>
              if (lookupT s (p ++ [x.1])).isSome then none
              else some (Action.deletedDir (p ++ [x.1]))
            | .file _ _ => none))
termination_by (sizeOf rcs, 1)

/-- Timed bottom-up descent of the prune walk. -/
def pruneSubsT (now : Nat) (s : FsEntryT) (p : List String)
    (rcs : List (String × FsEntryT)) :
    List (String × FsEntryT) × List Action :=
  match rcs with
  | [] => ([], [])
  | (n, .dir dm cs2) :: rest =>
    match pruneTreeT now s (p ++ [n]) cs2 with
    | (cs3, a1) =>
      match pruneSubsT now s p rest with
      | (rest2, a2) =>
        ((n, .dir (if cs3.length = cs2.length then dm else now) cs3) :: rest2,
         a1 ++ a2)
  | (n, .file m c) :: rest =>
    match pruneSubsT now s p rest with
    | (rest2, a2) => ((n, .file m c) :: rest2, a2)
termination_by (sizeOf rcs, 0)

end

/-- Timed propagate phase (lines 57-75). -/
def propagatePhaseT (now : Nat) (source replica : FsEntryT) : Res FsEntryT :=
  match source with
  | .file _ _ => .ok replica []
  | .dir _ cs => propagateDirT now [] cs (some replica)

/-- Timed prune phase (lines 78-97). -/
def prunePhaseT (now : Nat) (source replica : FsEntryT) :
    FsEntryT × List Action :=
  match replica with
  | .file m c => (.file m c, [])
  | .dir dm rcs =>
    match pruneTreeT now source [] rcs with
    | (rcs2, acts) =>
      (.dir (if rcs2.length = rcs.length then dm else now) rcs2, acts)

/-- One timed pass of `replicate_source` (lines 57-97): the untimed pass
with directory modification times tracked, `now` being the pass's wall
clock. -/
def replicate_sourceT (now : Nat) (source replica : FsEntryT) : Res FsEntryT :=
  match propagatePhaseT now source replica with
  | .ok r1 acts1 =>
    match prunePhaseT now source r1 with
    | (r2, acts2) => .ok r2 (acts1 ++ acts2)
  | .err e acts1 => .err e acts1

/-- `true` when `n` does not occur among the names of the listing. -/
def namesFresh (n : String) (cs : List (String × FsEntry)) : Bool :=
  match cs with
  | [] => true
  | (m, _) :: rest => if m = n then false else namesFresh n rest

mutual

/-- Well-formedness of a tree as a filesystem state: sibling names are
distinct at every level (a real directory cannot list one name twice). -/
def wfNames (e : FsEntry) : Bool :=
  match e with
  | .file _ _ => true
  | .dir cs => wfNamesL cs
termination_by (sizeOf e, 1)

/-- Well-formedness of a directory listing (see `wfNames`). -/
def wfNamesL (cs : List (String × FsEntry)) : Bool :=
  match cs with
  | [] => true
  | (n, e) :: rest => namesFresh n rest && wfNames e && wfNamesL rest
termination_by (sizeOf cs, 0)

end

mutual

/-- `true` when no path carries a directory in one tree and a regular file
in the other (the kind-conflict states on which the program misbehaves or
raises). -/
def compat (a b : FsEntry) : Bool :=
  match a, b with
  | .file _ _, .file _ _ => true
  | .dir cs, .dir rs => compatL cs rs
  | _, _ => false
termination_by (sizeOf a, 1)

/-- Kind-compatibility of a source listing against a replica listing:
a missing replica child is compatible (it will be created). -/
def compatL (cs rs : List (String × FsEntry)) : Bool :=
  match cs with
  | [] => true
  | (n, e) :: rest =>
    (match findChild rs n with
     | none => true
     | some e2 => compat e e2) && compatL rest rs
termination_by (sizeOf cs, 0)

end

mutual

/-- `true` when every file present in both trees whose replica copy is not
strictly older than the source already has the source's content.  The
program's mtime test (line 72) copies only strictly newer source files, so
this is exactly the set of states from which the contents can converge. -/
def staleOk (a b : FsEntry) : Bool :=
  match a, b with
  | .file sm sc, .file rm rc => if sm ≤ rm then sc == rc else true
  | .dir cs, .dir rs => staleOkL cs rs
  | _, _ => true
termination_by (sizeOf a, 1)

/-- `staleOk` over a source listing against a replica listing. -/
def staleOkL (cs rs : List (String × FsEntry)) : Bool :=
  match cs with
  | [] => true
  | (n, e) :: rest =>
    (match findChild rs n with
     | none => true
     | some e2 => staleOk e e2) && staleOkL rest rs
termination_by (sizeOf cs, 0)

end

/-- A plausible filename: non-empty and without a path separator.  Every
name `os.walk`/`os.scandir` can yield satisfies this. -/
def validName (n : String) : Bool :=
  !(n.data.isEmpty) && !(n.data.contains '/')

mutual

/-- Every name in the tree is a plausible filename (see `validName`). -/
def validNames (e : FsEntry) : Bool :=
  match e with
  | .file _ _ => true
  | .dir cs => validNamesL cs
termination_by (sizeOf e, 1)

/-- `validNames` over a directory listing. -/
def validNamesL (cs : List (String × FsEntry)) : Bool :=
  match cs with
  | [] => true
  | (n, e) :: rest => validName n && validNames e && validNamesL rest
termination_by (sizeOf cs, 0)

end

/-- Every component of a relative path is a plausible filename. -/
def pathValid (p : List String) : Bool :=
  p.all validName

/-- `validNames` over an optional entry. -/
def validO (o : Option FsEntry) : Bool :=
  match o with
  | none => true
  | some e => validNames e

/-- The spec's correspondence requirement at one path: both absent, or both
directories, or both regular files with equal content. -/
def matchesSpec (a b : Option FsEntry) : Prop :=
  match a, b with
  | none, none => True
  | some (.file _ c), some (.file _ c2) => c2 = c
  | some (.dir _), some (.dir _) => True
  | _, _ => False

/-- The spec's correspondence invariant: at every relative path, source and
replica hold entries of the same kind, with equal file contents. -/
def Corresponds (s r : FsEntry) : Prop :=
  ∀ q : List String, matchesSpec (lookup s q) (lookup r q)

/-- The relative path of an action. -/
def actPath (a : Action) : List String :=
  match a with
  | .createdDir p => p
  | .createdFile p => p
  | .updatedFile p => p
  | .deletedFile p => p
  | .deletedDir p => p

/-- `true` on the propagate-phase file writes (`Created file`/`Updated
file`). -/
def isFileWrite (a : Action) : Bool :=
  match a with
  | .createdFile _ => true
  | .updatedFile _ => true
  | _ => false

/-- `true` on the prune-phase deletions. -/
def isDelete (a : Action) : Bool :=
  match a with
  | .deletedFile _ => true
  | .deletedDir _ => true
  | _ => false

/- The string level.  Paths on disk are strings; the program maps a walked
source path to its replica counterpart with `root.replace(source, replica,
1)` (lines 58 and 79) and joins names with `os.path.join` (which, for a
directory path and a plain name, appends `/` and the name).  Strings are
modelled as `List Char`. -/

/-- Python's `s.replace(old, new, 1)`: replace the leftmost occurrence of
`old` in `s` by `new` (no occurrence: return `s` unchanged; an empty `old`
matches at position 0). -/
def replaceFirst (s old new : List Char) : List Char :=
  if old.isPrefixOf s then new ++ s.drop old.length
  else
    match s with
    | [] => []
    | c :: rest => c :: replaceFirst rest old new

/-- The characters a relative path contributes after a separator-free root:
`/` and the name, for each component. -/
def relChars (p : List String) : List Char :=
  match p with
  | [] => []
  | n :: rest => '/' :: n.data ++ relChars rest

/-- `root` ends with a path separator. -/
def lastIsSlash (root : List Char) : Bool :=
  root.getLast? == some '/'

/-- One step of `os.path.join` on POSIX parts without leading separators:
a separator is inserted only when the left part is non-empty and does not
already end with one (`os.path.join("/s/", "d") = "/s/d"`, not
`"/s//d"`). -/
def pjoin (root n : List Char) : List Char :=
  if root.isEmpty then n
  else if lastIsSlash root then root ++ n
  else root ++ '/' :: n

/-- The walked path string of the entry at relative path `p` under the root
string `root`: `os.path.join` applied along the components, exactly how
`os.walk` builds its `root` values. -/
def absJoin (root : List Char) (p : List String) : List Char :=
  match p with
  | [] => root
  | n :: rest => absJoin (pjoin root n.data) rest

/-- The root-relative part of a relative path in its textual POSIX form:
the components separated by `/`, with no leading separator. -/
def relPart (p : List String) : List Char :=
  match p with
  | [] => []
  | [n] => n.data
  | n :: rest => n.data ++ '/' :: relPart rest

/-- The absolute path string that the program's action targets, given the
source and replica root strings.  Propagate targets go through line 58's
`root.replace(source, replica, 1)` on the walked source path (for file
actions, `os.path.join(replica_path, file)` on top); prune targets are
`os.path.join` below the walked replica path (lines 83, 92). -/
def actAbsPath (srcRoot repRoot : List Char) (a : Action) : List Char :=
  match a with
  | .createdDir p => replaceFirst (absJoin srcRoot p) srcRoot repRoot
  | .createdFile p =>
    pjoin (replaceFirst (absJoin srcRoot p.dropLast) srcRoot repRoot)
      (p.getLastD "").data
  | .updatedFile p =>
    pjoin (replaceFirst (absJoin srcRoot p.dropLast) srcRoot repRoot)
      (p.getLastD "").data
  | .deletedFile p => absJoin repRoot p
  | .deletedDir p => absJoin repRoot p

/-- `root` with its trailing separators removed: two root strings denote
the same directory up to trailing separators. -/
def stripSlashes (root : List Char) : List Char :=
  (root.reverse.dropWhile fun c => c == '/').reverse

/-- `q` lies strictly inside the directory denoted by `root`: after
normalizing trailing separators, `q` extends `root` past a separator. -/
def underRoot (root q : List Char) : Bool :=
  (stripSlashes root ++ ['/']).isPrefixOf q

/-- The five action texts of the log/console records (lines 61-62, 70-71,
74-75, 87-88, 96-97). -/
def actionVerb (a : Action) : List Char :=
  match a with
  | .createdDir _ => ("Created directory: ").data
  | .createdFile _ => ("Created file: ").data
  | .updatedFile _ => ("Updated file: ").data
  | .deletedFile _ => ("Deleted file: ").data
  | .deletedDir _ => ("Deleted directory: ").data

/-- The five action texts, as a list. -/
def specVerbs : List (List Char) :=
  [("Created directory: ").data, ("Created file: ").data,
   ("Updated file: ").data, ("Deleted file: ").data,
   ("Deleted directory: ").data]

/-- The `%(message)s` part of a log record: the program passes
`"[%s] <verb>: %s" % (datetime.now(), path)` to `logging.info`, so the
message itself begins with a bracketed timestamp. -/
def logMessage (ts path : List Char) (a : Action) : List Char :=
  '[' :: ts ++ ']' :: ' ' :: actionVerb a ++ path

/-- One log record, per the `basicConfig` format
`%(asctime)s - %(levelname)s - %(message)s` (line 139) at level INFO. -/
def logRecord (asctime ts path : List Char) (a : Action) : List Char :=
  asctime ++ (" - INFO - ").data ++ logMessage ts path a

/-- One console line (the `print` calls): `[<ts>] <verb>: <path>`, except
that line 62's f-string `[{datetime.now()}]]` prints a second `]` after the
timestamp of a `Created directory` line. -/
def consoleLine (ts path : List Char) (a : Action) : List Char :=
  match a with
  | .createdDir _ => '[' :: ts ++ ']' :: ']' :: ' ' :: actionVerb a ++ path
  | _ => '[' :: ts ++ ']' :: ' ' :: actionVerb a ++ path

/-- The bracketed-timestamp closing of a console line: line 62 prints `]]`
for directory creations, every other line prints `]`. -/
def consoleBracket (a : Action) : List Char :=
  match a with
  | .createdDir _ => ("]] ").data
  | _ => ("] ").data

/-- `small` occurs as a contiguous substring of `big`. -/
def containsSub (big small : List Char) : Bool :=
  small.isPrefixOf big ||
    (match big with
     | [] => false
     | _ :: rest => containsSub rest small)

/-- Outcome of the startup validation in `main` (lines 128-141): the console
messages printed, whether `logging.basicConfig` ran (creating the log
file), and whether the synchronization engine was started. -/
structure StartResult : Type where
  messages : List String
  logFileCreated : Bool
  engineStarted : Bool
  deriving DecidableEq, Repr

/-- The path-validation logic of `main` (lines 128-141), as a function of
whether each configured path exists: the first missing path prints its
message and returns; only when all three exist does `main` configure the
log file and invoke `replicate_source`. -/
def main (sourceExists replicaExists logFileExists : Bool) : StartResult :=
  if !sourceExists then
    ⟨["The source directory path does not exist"], false, false⟩
  else if !replicaExists then
    ⟨["The replica directory path does not exist"], false, false⟩
  else if !logFileExists then
    ⟨["The log file path does not exist"], false, false⟩
  else
    ⟨[], true, true⟩

/-- The log-record format asserted by the spec: `<timestamp> - INFO -
<action text>` where the action text is exactly one of the five
`<verb>: <path>` forms (so the record is the timestamp, the separator, a
verb, then the path and nothing else in between). -/
def SpecLogLine (asctime line : List Char) : Prop :=
  ∃ v ∈ specVerbs,
    ((asctime ++ (" - INFO - ").data ++ v).isPrefixOf line) = true

/-- The console format asserted by the spec: the same action text prefixed
with a bracketed timestamp. -/
def SpecConsoleLine (ts line : List Char) : Prop :=
  ∃ v ∈ specVerbs,
    (('[' :: ts ++ ']' :: ' ' :: v).isPrefixOf line) = true

/- Initial-segment order on lists (used for path containment both on
component paths and on path strings). -/

/-- `p` is an initial segment of `q`. -/
def below {α : Type} (p q : List α) : Prop :=
  ∃ t, q = p ++ t

/-- `q` extends `p` by at least one further element. -/
def strictlyBelow {α : Type} (p q : List α) : Prop :=
  ∃ n t, q = p ++ n :: t

/-- The replica entry below an optional subtree is well-formed. -/
def wfO (o : Option FsEntry) : Bool :=
  match o with
  | none => true
  | some e => wfNames e

/-- The directory entries of a listing, in listing order (the `dirs` list of
an `os.walk` triple). -/
def dirsOf (cs : List (String × FsEntry)) :
    List (String × List (String × FsEntry)) :=
  cs.filterMap fun x =>
    match x.2 with
    | .dir d => some (x.1, d)
    | .file _ _ => none

/-- The effect of the prune walk on a single replica child entry: a regular
file is left as is (only its parent's yield may delete it), a directory's
own subtree is pruned by the recursive walk. -/
def pruneChildEntry (s : FsEntry) (pp : List String) (e : FsEntry) : FsEntry :=
  match e with
  | .dir cs2 => .dir (pruneTree s pp cs2).1
  | .file m c => .file m c

/-- The effect of the prune walk on a named replica child. -/
def pruneChild (s : FsEntry) (p : List String) (x : String × FsEntry) :
    String × FsEntry :=
  (x.1, pruneChildEntry s (p ++ [x.1]) x.2)

/-- The actions of the bottom-up walks of the subdirectory subtrees, in
listing order. -/
def pruneSubsActs (s : FsEntry) (p : List String) :
    List (String × List (String × FsEntry)) → List Action
  | [] => []
  | x :: rest =>
    (pruneTree s (p ++ [x.1]) x.2).2 ++ pruneSubsActs s p rest

/-- The per-pair ordering discipline claimed for the action stream, read as
a constraint on every earlier action `a` and later action `b` of one pass:
no file is created or updated strictly under a directory path before that
directory's creation action; nothing is deleted strictly under a directory
path after that directory's deletion action; and no directory is created
after a directory strictly below it (so nested directories are created
top-down, e.g. `p`, then `p/q`, then `p/q/r`). -/
def orderedPair (a b : Action) : Prop :=
  (∀ p, b = .createdDir p →
    ¬ (isFileWrite a = true ∧ strictlyBelow p (actPath a)))
  ∧ (∀ p, a = .deletedDir p →
      ¬ (isDelete b = true ∧ strictlyBelow p (actPath b)))
  ∧ (∀ p q, a = .createdDir q → b = .createdDir p → ¬ strictlyBelow p q)

/-- Pathwise postcondition of one propagate step on the replica subtree for
a walked source directory listing `cs` against the prior replica entry `ro`:
every source directory path now has a replica entry (a directory whenever
the source directory is nonempty, and otherwise the old entry or a
directory); every source file path has the source's file (copied, mtime and
content) or the old replica file when that was not strictly older. -/
def propDirPost (cs : List (String × FsEntry)) (ro : Option FsEntry)
    (r1 : FsEntry) : Prop :=
  wfNames r1 = true
  ∧ (∀ q cs2, lookup (.dir cs) q = some (.dir cs2) →
      (lookup r1 q).isSome = true
      ∧ (cs2 ≠ [] → ∃ ds, lookup r1 q = some (.dir ds))
      ∧ (lookup r1 q = lookupO ro q ∨ ∃ ds, lookup r1 q = some (.dir ds)))
  ∧ (∀ q sm sc, lookup (.dir cs) q = some (.file sm sc) →
      lookup r1 q = some (.file sm sc)
      ∨ ∃ rm rc, lookup r1 q = some (.file rm rc) ∧ sm ≤ rm
          ∧ lookupO ro q = some (.file rm rc))

/-- Postcondition of the subdirectory descent at one walked source root: a
replica regular file survives untouched (and then the source listing has no
subdirectories, else the descent would have raised), and a replica
directory's listing is rewritten exactly at the source's subdirectory
names, each by the exposed recursive propagate call. -/
def propSubsPost (p : List String) (cs : List (String × FsEntry))
    (r r1 : FsEntry) : Prop :=
  wfNames r1 = true
  ∧ ((∃ m c, r = .file m c ∧ r1 = r ∧ (∀ n ds, (n, FsEntry.dir ds) ∉ cs))
     ∨ (∃ rcs rcs2, r = .dir rcs ∧ r1 = .dir rcs2
         ∧ (∀ n, (∀ ds, findChild cs n ≠ some (.dir ds)) →
             findChild rcs2 n = findChild rcs n)
         ∧ (∀ n ds2, findChild cs n = some (.dir ds2) →
             ∃ sub acts2,
               propagateDir (p ++ [n]) ds2 (findChild rcs n) = .ok sub acts2
               ∧ findChild rcs2 n = some sub)))

/-- The entry relation that the prune phase preserves at source-backed
paths: both absent, the same regular file, or both directories. -/
def pruneMatch (a b : Option FsEntry) : Prop :=
  match a, b with
  | none, none => True
  | some (.file m c), some (.file m2 c2) => m2 = m ∧ c2 = c
  | some (.dir _), some (.dir _) => True
  | _, _ => False

/-- The fragility asserted by the spec's design note: for some walked source
path (the source root joined with a relative part) whose relative part
contains the source root string, `root.replace(source, replica, 1)` yields
something other than the replica root joined with the relative part. -/
def ClaimC9 : Prop :=
  ∃ (src rep : List Char) (rel : List String),
    containsSub (relPart rel) src = true ∧
    replaceFirst (absJoin src rel) src rep ≠ absJoin rep rel

/-- The spec's no-source-mutation guarantee, read as the claim states it:
for EVERY configuration (any root strings, any trees), no action of a pass
ever targets an absolute path lying under the source root.  This is refuted
when the replica root is nested inside the source root. -/
def ClaimC5 : Prop :=
  ∀ (srcRoot repRoot : List Char) (s r r1 : FsEntry) (acts : List Action),
    replicate_source s r = .ok r1 acts →
    ∀ a ∈ acts, underRoot srcRoot (actAbsPath srcRoot repRoot a) = false

theorem below_refl {α : Type} (p : List α) : below p p :=
  ⟨[], by simp⟩

theorem below_append {α : Type} (p t : List α) : below p (p ++ t) :=
  ⟨t, rfl⟩

theorem below_length {α : Type} {p q : List α} (h : below p q) :
    p.length ≤ q.length := by
  obtain ⟨t, rfl⟩ := h
  simp

theorem strictlyBelow_below {α : Type} {p q : List α}
    (h : strictlyBelow p q) : below p q := by
  obtain ⟨n, t, rfl⟩ := h
  exact ⟨n :: t, rfl⟩

theorem strictlyBelow_length {α : Type} {p q : List α}
    (h : strictlyBelow p q) : p.length < q.length := by
  obtain ⟨n, t, rfl⟩ := h
  simp

theorem below_of_below_of_length {α : Type} {x y z : List α}
    (hx : below x z) (hy : below y z) (h : x.length ≤ y.length) :
    below x y := by
  obtain ⟨t, rfl⟩ := hx
  obtain ⟨u, hu⟩ := hy
  refine ⟨y.drop x.length, ?_⟩
  have hxy : y.take x.length = x := by
    have : (x ++ t).take x.length = x := by simp
    rw [hu] at this
    rwa [List.take_append_of_le_length h] at this
  calc y = y.take x.length ++ y.drop x.length := by simp
    _ = x ++ y.drop x.length := by rw [hxy]

theorem below_same_length {α : Type} {x y z : List α}
    (hx : below x z) (hy : below y z) (h : x.length = y.length) :
    x = y := by
  have hb := below_of_below_of_length hx hy h.le
  obtain ⟨t, rfl⟩ := hb
  have h2 : x.length = x.length + t.length := by simpa using h
  have ht : t = [] := List.eq_nil_of_length_eq_zero (by omega)
  simp [ht]

theorem below_comparable {α : Type} {x y z : List α}
    (hx : below x z) (hy : below y z) : below x y ∨ below y x := by
  rcases Nat.le_total x.length y.length with h | h
  · exact Or.inl (below_of_below_of_length hx hy h)
  · exact Or.inr (below_of_below_of_length hy hx h)

theorem isPrefixOf_iff_below {α : Type} [BEq α] [LawfulBEq α]
    {p q : List α} : (p.isPrefixOf q) = true ↔ below p q := by
  induction p generalizing q with
  | nil => simp [List.isPrefixOf, below]
  | cons a as ih =>
    cases q with
    | nil =>
      simp only [List.isPrefixOf, below]
      constructor
      · intro h; cases h
      · rintro ⟨t, h⟩; cases h
    | cons b bs =>
      simp only [List.isPrefixOf, Bool.and_eq_true, beq_iff_eq, ih, below]
      constructor
      · rintro ⟨rfl, t, rfl⟩; exact ⟨t, rfl⟩
      · rintro ⟨t, h⟩
        injection h with h1 h2
        exact ⟨h1.symm, t, h2⟩

theorem isPrefixOf_self_append (l t : List Char) :
    (l.isPrefixOf (l ++ t)) = true :=
  isPrefixOf_iff_below.mpr (below_append l t)

/-- Replacing the leftmost occurrence of `src` in a string that starts with
`src` rewrites exactly that leading occurrence — this is why line 58's
`root.replace(source, replica, 1)` is prefix substitution on every walked
path. -/
theorem replaceFirst_append (src t rep : List Char) :
    replaceFirst (src ++ t) src rep = rep ++ t := by
  rw [replaceFirst.eq_def]
  simp [isPrefixOf_self_append]

theorem relChars_append (p : List String) (n : String) :
    relChars (p ++ [n]) = relChars p ++ '/' :: n.data := by
  induction p with
  | nil => simp [relChars]
  | cons m rest ih => simp [relChars, ih]

/-- C6 counterexample: a copy failure local to the single entry `d/f`
(`shutil.copy2` raises `NotADirectoryError` because the replica holds a
regular file at `d`) aborts the whole pass — nothing is skipped and no
further entry (such as `d/g`) is processed; the pass result is the uncaught
exception, not a completed pass. -/
theorem c6_counterexample :
    replicate_source
        (.dir [("d", .dir [("f", .file 1 "x"), ("g", .file 1 "y")])])
        (.dir [("d", .file 0 "z")])
      = .err .notADirectory [] := by
  simp [replicate_source, propagatePhase, propagateDir, propagateSubs,
    syncFiles, syncFile, filesOf, findChild, setChild]

/-- C6 amended: `replicate_source` has no per-entry error handling: the
first entry whose copy raises aborts the file loop (and with it the pass)
immediately — no action is emitted for the failing entry and the remaining
entries of the listing are not processed. -/
theorem c6_no_per_entry_recovery (p : List String) (n : String) (sm : Nat)
    (sc : String) (rest : List (String × Nat × String))
    (rcs : List (String × FsEntry)) (acc : List Action) (e : FsError)
    (h : syncFile p n sm sc rcs = .error e) :
    syncFiles p ((n, sm, sc) :: rest) rcs acc = .err e acc := by
  simp [syncFiles, h]

/-- C6 amended witness: the failing first entry `f` aborts the loop; the
remaining entry `g` is never synchronized. -/
theorem c6_witness :
    syncFiles [] [("f", 1, "x"), ("g", 1, "y")] [("f", FsEntry.dir [])] []
      = .err .dirTarget [] :=
  c6_no_per_entry_recovery [] "f" 1 "x" [("g", 1, "y")]
    [("f", FsEntry.dir [])] [] .dirTarget rfl

/-- C7: when a configured path is missing, `main` (lines 128-141) prints
exactly the specific message for the first missing path and returns with no
log file created and the engine never started; the engine starts (and the
log file is created by `basicConfig`) exactly when all three paths exist. -/
theorem c7_validation (se re le : Bool) :
    main false re le
        = ⟨["The source directory path does not exist"], false, false⟩
    ∧ main true false le
        = ⟨["The replica directory path does not exist"], false, false⟩
    ∧ main true true false
        = ⟨["The log file path does not exist"], false, false⟩
    ∧ (main se re le).engineStarted = (se && re && le)
    ∧ (main se re le).logFileCreated = (se && re && le) := by
  cases se <;> cases re <;> cases le <;> simp [main]

/-- C8 counterexample: the directory-creation record written for a concrete
timestamp and path matches neither claimed format.  The log record is
`<asctime> - INFO - [<ts>] Created directory: <path>` — the message itself
begins with a second bracketed timestamp, so the text after `INFO - ` is
not one of the five bare action texts; and line 62's console f-string
prints `]]` after the timestamp, so the console line is not the action text
prefixed by a bracketed timestamp. -/
theorem c8_counterexample :
    ¬ SpecLogLine ("2024-01-01 00:00:00").data
        (logRecord ("2024-01-01 00:00:00").data ("2024-01-01 00:00:01").data
          ("/replica/a").data (.createdDir ["a"]))
    ∧ ¬ SpecConsoleLine ("2024-01-01 00:00:01").data
        (consoleLine ("2024-01-01 00:00:01").data ("/replica/a").data
          (.createdDir ["a"])) := by
  constructor
  · show ¬ ∃ v ∈ specVerbs,
      (((("2024-01-01 00:00:00").data ++ (" - INFO - ").data ++ v)).isPrefixOf
        (logRecord ("2024-01-01 00:00:00").data ("2024-01-01 00:00:01").data
          ("/replica/a").data (.createdDir ["a"]))) = true
    decide
  · show ¬ ∃ v ∈ specVerbs,
      (('[' :: ("2024-01-01 00:00:01").data ++ ']' :: ' ' :: v).isPrefixOf
        (consoleLine ("2024-01-01 00:00:01").data ("/replica/a").data
          (.createdDir ["a"]))) = true
    decide

/-- C8 amended: every action yields exactly one log record of the form
`<asctime> - INFO - [<ts>] <action text>` (the message embeds its own
bracketed timestamp before the action text) and one console line
`[<ts>]<bracket close> <action text>`, where the closing bracket is the
doubled `]]` of line 62 for directory creations and a single `]` otherwise,
and the action text is one of the five `<verb>: <path>` forms. -/
theorem c8_formats (asctime ts path : List Char) (a : Action) :
    logRecord asctime ts path a
      = asctime ++ (" - INFO - ").data
          ++ '[' :: ts ++ ']' :: ' ' :: (actionVerb a ++ path)
    ∧ actionVerb a ∈ specVerbs
    ∧ consoleLine ts path a
      = '[' :: ts ++ consoleBracket a ++ actionVerb a ++ path := by
  cases a <;>
    refine ⟨by simp [logRecord, logMessage], by simp [actionVerb, specVerbs],
      by simp [consoleLine, consoleBracket]⟩

theorem lookup_nil (e : FsEntry) : lookup e [] = some e := rfl

theorem lookup_file (m : Nat) (c : String) (n : String) (q : List String) :
    lookup (.file m c) (n :: q) = none := rfl

theorem lookup_dir_found {cs : List (String × FsEntry)} {n : String}
    {e : FsEntry} (h : findChild cs n = some e) (q : List String) :
    lookup (.dir cs) (n :: q) = lookup e q := by
  simp [lookup, h]

theorem lookup_dir_none {cs : List (String × FsEntry)} {n : String}
    (h : findChild cs n = none) (q : List String) :
    lookup (.dir cs) (n :: q) = none := by
  simp [lookup, h]

theorem namesFresh_spec {n : String} {cs : List (String × FsEntry)} :
    namesFresh n cs = true ↔ ∀ x ∈ cs, x.1 ≠ n := by
  induction cs with
  | nil => simp [namesFresh]
  | cons x rest ih =>
    cases x with
    | mk m e =>
      by_cases h : m = n <;> simp [namesFresh, h, ih]

theorem findChild_eq_none_iff {cs : List (String × FsEntry)} {n : String} :
    findChild cs n = none ↔ ∀ x ∈ cs, x.1 ≠ n := by
  induction cs with
  | nil => simp [findChild]
  | cons x rest ih =>
    cases x with
    | mk m e =>
      by_cases h : m = n <;> simp [findChild, h, ih]

theorem findChild_mem {cs : List (String × FsEntry)} {n : String}
    {e : FsEntry} (h : findChild cs n = some e) : (n, e) ∈ cs := by
  induction cs with
  | nil => simp [findChild] at h
  | cons x rest ih =>
    cases x with
    | mk m e0 =>
      by_cases hm : m = n
      · subst hm
        simp [findChild] at h
        simp [h]
      · simp [findChild, hm] at h
        exact List.mem_cons_of_mem _ (ih h)

theorem wfL_cons {n : String} {e : FsEntry} {rest : List (String × FsEntry)} :
    wfNamesL ((n, e) :: rest) = true ↔
      namesFresh n rest = true ∧ wfNames e = true ∧ wfNamesL rest = true := by
  rw [wfNamesL]
  simp [Bool.and_eq_true, and_assoc]

theorem findChild_of_mem_wf {cs : List (String × FsEntry)} {n : String}
    {e : FsEntry} (hwf : wfNamesL cs = true) (h : (n, e) ∈ cs) :
    findChild cs n = some e := by
  induction cs with
  | nil => simp at h
  | cons x rest ih =>
    cases x with
    | mk m e0 =>
      rw [wfL_cons] at hwf
      rcases List.mem_cons.mp h with h1 | h1
      · injection h1 with h1a h1b
        subst h1a
        simp [findChild, h1b.symm]
      · have hne : ¬ m = n := by
          intro hnm
          subst hnm
          exact (namesFresh_spec.mp hwf.1 _ h1) rfl
        rw [findChild, if_neg hne]
        exact ih hwf.2.2 h1

theorem wf_of_mem {cs : List (String × FsEntry)} {n : String} {e : FsEntry}
    (hwf : wfNamesL cs = true) (h : (n, e) ∈ cs) : wfNames e = true := by
  induction cs with
  | nil => simp at h
  | cons x rest ih =>
    cases x with
    | mk m e0 =>
      rw [wfL_cons] at hwf
      rcases List.mem_cons.mp h with h1 | h1
      · injection h1 with h1a h1b
        subst h1b
        exact hwf.2.1
      · exact ih hwf.2.2 h1

theorem findChild_setChild_self (cs : List (String × FsEntry)) (n : String)
    (e : FsEntry) : findChild (setChild cs n e) n = some e := by
  induction cs with
  | nil => simp [setChild, findChild]
  | cons x rest ih =>
    cases x with
    | mk m e0 =>
      by_cases h : m = n <;> simp [setChild, findChild, h, ih]

theorem findChild_setChild_ne (cs : List (String × FsEntry)) {n m : String}
    (e : FsEntry) (h : m ≠ n) :
    findChild (setChild cs n e) m = findChild cs m := by
  have hnm : ¬ n = m := fun hh => h hh.symm
  induction cs with
  | nil => simp [setChild, findChild, hnm]
  | cons x rest ih =>
    cases x with
    | mk k e0 =>
      by_cases hk : k = n
      · subst hk
        simp [setChild, findChild, hnm]
      · simp [setChild, findChild, hk, ih]

theorem mem_setChild {cs : List (String × FsEntry)} {n : String}
    {e : FsEntry} {x : String × FsEntry} (h : x ∈ setChild cs n e) :
    x ∈ cs ∨ x = (n, e) := by
  induction cs with
  | nil =>
    simp [setChild] at h
    exact Or.inr h
  | cons y rest ih =>
    cases y with
    | mk m e0 =>
      by_cases hm : m = n
      · subst hm
        simp [setChild] at h
        rcases h with h | h
        · exact Or.inr (by simp [h])
        · exact Or.inl (List.mem_cons_of_mem _ h)
      · simp [setChild, hm] at h
        rcases h with h | h
        · exact Or.inl (by simp [h])
        · rcases ih h with h1 | h1
          · exact Or.inl (List.mem_cons_of_mem _ h1)
          · exact Or.inr h1

theorem namesFresh_setChild {n m : String} {cs : List (String × FsEntry)}
    (e : FsEntry) (hf : namesFresh m cs = true) (hne : n ≠ m) :
    namesFresh m (setChild cs n e) = true := by
  rw [namesFresh_spec] at hf ⊢
  intro x hx
  rcases mem_setChild hx with h1 | h1
  · exact hf x h1
  · subst h1
    exact hne

theorem wfL_setChild {cs : List (String × FsEntry)} {n : String}
    {e : FsEntry} (hwf : wfNamesL cs = true) (he : wfNames e = true) :
    wfNamesL (setChild cs n e) = true := by
  induction cs with
  | nil =>
    simp [setChild]
    rw [wfL_cons]
    simp [namesFresh, he]
    exact hwf
  | cons x rest ih =>
    cases x with
    | mk m e0 =>
      rw [wfL_cons] at hwf
      by_cases h : m = n
      · subst h
        simp [setChild]
        rw [wfL_cons]
        exact ⟨hwf.1, he, hwf.2.2⟩
      · simp [setChild, h]
        rw [wfL_cons]
        refine ⟨?_, hwf.2.1, ih hwf.2.2⟩
        exact namesFresh_setChild e hwf.1 (fun hh => h hh.symm)


theorem wfNames_file (m : Nat) (c : String) : wfNames (.file m c) = true := by
  rw [wfNames]

theorem syncFiles_acc (p : List String) (fs : List (String × Nat × String))
    (rcs : List (String × FsEntry)) (acc : List Action) :
    syncFiles p fs rcs acc =
      match syncFiles p fs rcs [] with
      | .ok x a => .ok x (acc ++ a)
      | .err e a => .err e (acc ++ a) := by
  induction fs generalizing rcs acc with
  | nil => simp [syncFiles]
  | cons f rest ih =>
    obtain ⟨n, sm, sc⟩ := f
    cases hsf : syncFile p n sm sc rcs with
    | error e => simp [syncFiles, hsf]
    | ok v =>
      obtain ⟨rcs2, as⟩ := v
      simp only [syncFiles, hsf, List.nil_append]
      rw [ih rcs2 (acc ++ as), ih rcs2 as]
      cases syncFiles p rest rcs2 [] with
      | ok x a => simp
      | err e a => simp

theorem syncFiles_ok_spec {p : List String} {fs : List (String × Nat × String)}
    {rcs rcs1 : List (String × FsEntry)} {acts : List Action}
    (hnd : List.Pairwise (fun a b : String × Nat × String => a.1 ≠ b.1) fs)
    (h : syncFiles p fs rcs [] = .ok rcs1 acts) :
    (∀ n, (∀ x ∈ fs, x.1 ≠ n) → findChild rcs1 n = findChild rcs n)
    ∧ (∀ n sm sc, (n, sm, sc) ∈ fs →
        (findChild rcs n = none ∧ findChild rcs1 n = some (.file sm sc))
        ∨ (∃ rm rc, findChild rcs n = some (.file rm rc) ∧
            ((rm < sm ∧ findChild rcs1 n = some (.file sm sc))
             ∨ (sm ≤ rm ∧ findChild rcs1 n = some (.file rm rc)))))
    ∧ (wfNamesL rcs = true → wfNamesL rcs1 = true)
    ∧ (∀ a ∈ acts, isFileWrite a = true
        ∧ ∃ n sm sc, (n, sm, sc) ∈ fs ∧ actPath a = p ++ [n]) := by
  induction fs generalizing rcs acts with
  | nil =>
    rw [syncFiles] at h
    injection h with h1 h2
    subst h1; subst h2
    refine ⟨fun n _ => rfl, by simp, fun hw => hw, by simp⟩
  | cons f rest ih =>
    obtain ⟨n0, sm0, sc0⟩ := f
    cases hsf : syncFile p n0 sm0 sc0 rcs with
    | error e => simp only [syncFiles, hsf] at h; cases h
    | ok v =>
      obtain ⟨rcs2, as⟩ := v
      simp only [syncFiles, hsf, List.nil_append] at h
      rw [syncFiles_acc] at h
      cases hrest : syncFiles p rest rcs2 [] with
      | err e a => rw [hrest] at h; cases h
      | ok x a =>
        rw [hrest] at h
        simp only at h
        injection h with h1 h2
        subst h1
        have hfresh : ∀ x ∈ rest, x.1 ≠ n0 :=
          fun x hx => ((List.pairwise_cons.mp hnd).1 x hx).symm
        have ihsp := ih (List.pairwise_cons.mp hnd).2 hrest
        have hstep :
            ((findChild rcs n0 = none ∧ rcs2 = setChild rcs n0 (.file sm0 sc0)
                ∧ as = [Action.createdFile (p ++ [n0])])
             ∨ (∃ rm rc, findChild rcs n0 = some (.file rm rc) ∧
                 ((rm < sm0 ∧ rcs2 = setChild rcs n0 (.file sm0 sc0)
                     ∧ as = [Action.updatedFile (p ++ [n0])])
                  ∨ (sm0 ≤ rm ∧ rcs2 = rcs ∧ as = [])))) := by
          cases hfc : findChild rcs n0 with
          | none =>
            simp only [syncFile, hfc] at hsf
            injection hsf with hv
            injection hv with hva hvb
            exact Or.inl ⟨rfl, hva.symm, hvb.symm⟩
          | some e =>
            cases e with
            | file rm rc =>
              simp only [syncFile, hfc] at hsf
              by_cases hlt : sm0 > rm
              · rw [if_pos hlt] at hsf
                injection hsf with hv
                injection hv with hva hvb
                exact Or.inr ⟨rm, rc, rfl, Or.inl ⟨hlt, hva.symm, hvb.symm⟩⟩
              · rw [if_neg hlt] at hsf
                injection hsf with hv
                injection hv with hva hvb
                exact Or.inr ⟨rm, rc, rfl,
                  Or.inr ⟨Nat.le_of_not_lt hlt, hva.symm, hvb.symm⟩⟩
            | dir ds =>
              simp only [syncFile, hfc] at hsf
              cases hsf
        have hch2 : ∀ m, m ≠ n0 → findChild rcs2 m = findChild rcs m := by
          intro m hm
          rcases hstep with ⟨_, hr, _⟩ | ⟨rm, rc, _, ⟨_, hr, _⟩ | ⟨_, hr, _⟩⟩ <;>
            rw [hr]
          · exact findChild_setChild_ne rcs _ hm
          · exact findChild_setChild_ne rcs _ hm
        refine ⟨?_, ?_, ?_, ?_⟩
        · intro m hm
          have hm0 : m ≠ n0 := by
            intro hh
            exact hm (n0, sm0, sc0) (List.mem_cons_self _ _) hh.symm
          have := ihsp.1 m (fun x hx => hm x (List.mem_cons_of_mem _ hx))
          rw [this, hch2 m hm0]
        · intro n sm sc hmem
          cases hmem with
          | head =>
            have h1eq := ihsp.1 n0 hfresh
            rcases hstep with ⟨hn, hr, -⟩ | ⟨rm, rc, hfc, ⟨hlt, hr, -⟩ | ⟨hle, hr, -⟩⟩
            · refine Or.inl ⟨hn, ?_⟩
              rw [h1eq, hr]
              exact findChild_setChild_self rcs n0 _
            · refine Or.inr ⟨rm, rc, hfc, Or.inl ⟨hlt, ?_⟩⟩
              rw [h1eq, hr]
              exact findChild_setChild_self rcs n0 _
            · refine Or.inr ⟨rm, rc, hfc, Or.inr ⟨hle, ?_⟩⟩
              rw [h1eq, hr]
              exact hfc
          | tail b hr =>
            have hne : n ≠ n0 :=
              fun hh => ((List.pairwise_cons.mp hnd).1 _ hr) hh.symm
            have := ihsp.2.1 n sm sc hr
            rwa [hch2 n hne] at this
        · intro hw
          refine ihsp.2.2.1 ?_
          rcases hstep with ⟨_, hr, _⟩ | ⟨rm, rc, _, ⟨_, hr, _⟩ | ⟨_, hr, _⟩⟩ <;>
            rw [hr]
          · exact wfL_setChild hw (wfNames_file _ _)
          · exact wfL_setChild hw (wfNames_file _ _)
          · exact hw
        · intro a ha
          subst h2
          rcases List.mem_append.mp ha with ha1 | ha2
          · rcases hstep with ⟨_, _, has⟩ | ⟨rm, rc, _, ⟨_, _, has⟩ | ⟨_, _, has⟩⟩ <;>
              rw [has] at ha1 <;> simp at ha1
            · subst ha1
              exact ⟨rfl, n0, sm0, sc0, List.mem_cons_self _ _, rfl⟩
            · subst ha1
              exact ⟨rfl, n0, sm0, sc0, List.mem_cons_self _ _, rfl⟩
          · obtain ⟨hfw, n, sm, sc, hmem, hpath⟩ := ihsp.2.2.2 a ha2
            exact ⟨hfw, n, sm, sc, List.mem_cons_of_mem _ hmem, hpath⟩

theorem syncFiles_total {p : List String} {fs : List (String × Nat × String)}
    {rcs : List (String × FsEntry)}
    (h : ∀ x ∈ fs, ∀ ds, findChild rcs x.1 ≠ some (.dir ds)) :
    ∃ rcs1 acts, syncFiles p fs rcs [] = .ok rcs1 acts := by
  induction fs generalizing rcs with
  | nil => exact ⟨rcs, [], by rw [syncFiles]⟩
  | cons f rest ih =>
    obtain ⟨n0, sm0, sc0⟩ := f
    have hstep : ∃ rcs2 as, syncFile p n0 sm0 sc0 rcs = .ok (rcs2, as)
        ∧ ∀ m, findChild rcs2 m = findChild rcs m
            ∨ findChild rcs2 m = some (.file sm0 sc0) := by
      cases hfc : findChild rcs n0 with
      | none =>
        simp only [syncFile, hfc]
        refine ⟨_, _, rfl, fun m => ?_⟩
        by_cases hm : m = n0
        · subst hm
          exact Or.inr (findChild_setChild_self rcs m _)
        · exact Or.inl (findChild_setChild_ne rcs _ hm)
      | some e =>
        cases e with
        | file rm rc =>
          simp only [syncFile, hfc]
          by_cases hlt : sm0 > rm
          · rw [if_pos hlt]
            refine ⟨_, _, rfl, fun m => ?_⟩
            by_cases hm : m = n0
            · subst hm
              exact Or.inr (findChild_setChild_self rcs m _)
            · exact Or.inl (findChild_setChild_ne rcs _ hm)
          · rw [if_neg hlt]
            exact ⟨_, _, rfl, fun m => Or.inl rfl⟩
        | dir ds =>
          exact absurd hfc (h (n0, sm0, sc0) (List.mem_cons_self _ _) ds)
    obtain ⟨rcs2, as, hsf, hpres⟩ := hstep
    have h2 : ∀ x ∈ rest, ∀ ds, findChild rcs2 x.1 ≠ some (.dir ds) := by
      intro x hx ds hcontra
      rcases hpres x.1 with hp | hp
      · rw [hp] at hcontra
        exact h x (List.mem_cons_of_mem _ hx) ds hcontra
      · rw [hp] at hcontra
        cases hcontra
    obtain ⟨rcs1, acts, hrest⟩ := ih h2
    refine ⟨rcs1, as ++ acts, ?_⟩
    simp only [syncFiles, hsf, List.nil_append]
    rw [syncFiles_acc, hrest]

theorem syncFiles_zero {p : List String} {fs : List (String × Nat × String)}
    {rcs : List (String × FsEntry)}
    (h : ∀ x ∈ fs, ∃ rm rc, findChild rcs x.1 = some (.file rm rc) ∧ x.2.1 ≤ rm) :
    syncFiles p fs rcs [] = .ok rcs [] := by
  induction fs with
  | nil => rw [syncFiles]
  | cons f rest ih =>
    obtain ⟨n0, sm0, sc0⟩ := f
    obtain ⟨rm, rc, hfc, hle⟩ := h (n0, sm0, sc0) (List.mem_cons_self _ _)
    have hsf : syncFile p n0 sm0 sc0 rcs = .ok (rcs, []) := by
      simp only [syncFile, hfc]
      rw [if_neg (Nat.not_lt_of_le hle)]
    simp only [syncFiles, hsf, List.nil_append]
    exact ih fun x hx => h x (List.mem_cons_of_mem _ hx)


theorem filesOf_mem {cs : List (String × FsEntry)} {n : String} {sm : Nat}
    {sc : String} : (n, sm, sc) ∈ filesOf cs ↔ (n, FsEntry.file sm sc) ∈ cs := by
  simp only [filesOf, List.mem_filterMap]
  constructor
  · rintro ⟨⟨m, e⟩, hmem, he⟩
    cases e with
    | file fm fc =>
      simp at he
      obtain ⟨h1, h2, h3⟩ := he
      subst h1; subst h2; subst h3
      exact hmem
    | dir ds => simp at he
  · intro hmem
    exact ⟨(n, FsEntry.file sm sc), hmem, rfl⟩

theorem dirsOf_mem {cs : List (String × FsEntry)} {n : String}
    {ds : List (String × FsEntry)} :
    (n, ds) ∈ dirsOf cs ↔ (n, FsEntry.dir ds) ∈ cs := by
  simp only [dirsOf, List.mem_filterMap]
  constructor
  · rintro ⟨⟨m, e⟩, hmem, he⟩
    cases e with
    | file fm fc => simp at he
    | dir ds2 =>
      simp at he
      obtain ⟨h1, h2⟩ := he
      subst h1; subst h2
      exact hmem
  · intro hmem
    exact ⟨(n, FsEntry.dir ds), hmem, rfl⟩

theorem unique_binding {cs : List (String × FsEntry)} {n : String}
    {e e2 : FsEntry} (hwf : wfNamesL cs = true) (h1 : (n, e) ∈ cs)
    (h2 : (n, e2) ∈ cs) : e = e2 := by
  have ha := findChild_of_mem_wf hwf h1
  have hb := findChild_of_mem_wf hwf h2
  rw [ha] at hb
  exact Option.some.inj hb

theorem pairwise_keys_filesOf {cs : List (String × FsEntry)}
    (hwf : wfNamesL cs = true) :
    List.Pairwise (fun a b : String × Nat × String => a.1 ≠ b.1) (filesOf cs) := by
  induction cs with
  | nil => simp [filesOf]
  | cons x rest ih =>
    obtain ⟨m, e⟩ := x
    rw [wfL_cons] at hwf
    have hrest := ih hwf.2.2
    cases e with
    | dir ds =>
      simpa [filesOf] using hrest
    | file fm fc =>
      simp only [filesOf, List.filterMap_cons]
      rw [List.pairwise_cons]
      refine ⟨?_, hrest⟩
      intro x hx
      have : (x.1, FsEntry.file x.2.1 x.2.2) ∈ rest := by
        have : x ∈ filesOf rest := hx
        rw [show x = (x.1, x.2.1, x.2.2) from rfl] at this
        exact filesOf_mem.mp this
      exact fun hh => (namesFresh_spec.mp hwf.1 _ this) (by simpa using hh.symm)

theorem propagateSubs_acc (p : List String) (cs : List (String × FsEntry))
    (r : FsEntry) (acc : List Action) :
    propagateSubs p cs r acc =
      match propagateSubs p cs r [] with
      | .ok x a => .ok x (acc ++ a)
      | .err e a => .err e (acc ++ a) := by
  induction cs generalizing r acc with
  | nil => simp [propagateSubs]
  | cons x rest ih =>
    obtain ⟨n, e⟩ := x
    cases e with
    | file m c =>
      simp only [propagateSubs]
      rw [ih r acc]
    | dir cs2 =>
      cases r with
      | file m c => simp [propagateSubs]
      | dir rcs =>
        simp only [propagateSubs]
        cases propagateDir (p ++ [n]) cs2 (findChild rcs n) with
        | ok sub acts2 =>
          simp only [List.nil_append]
          rw [ih _ (acc ++ acts2), ih _ acts2]
          cases propagateSubs p rest (.dir (setChild rcs n sub)) [] with
          | ok x a => simp
          | err e a => simp
        | err e acts2 => simp

theorem syncFiles_region (p : List String) (fs : List (String × Nat × String))
    (rcs : List (String × FsEntry)) :
    ∀ a ∈ (syncFiles p fs rcs []).actions,
      isFileWrite a = true ∧ ∃ n, (∃ sm sc, (n, sm, sc) ∈ fs) ∧ actPath a = p ++ [n] := by
  induction fs generalizing rcs with
  | nil => rw [syncFiles]; simp [Res.actions]
  | cons f rest ih =>
    obtain ⟨n0, sm0, sc0⟩ := f
    intro a ha
    cases hsf : syncFile p n0 sm0 sc0 rcs with
    | error e =>
      simp only [syncFiles, hsf, Res.actions] at ha
      simp at ha
    | ok v =>
      obtain ⟨rcs2, as⟩ := v
      simp only [syncFiles, hsf, List.nil_append] at ha
      rw [syncFiles_acc] at ha
      have has : as = [Action.createdFile (p ++ [n0])]
          ∨ as = [Action.updatedFile (p ++ [n0])] ∨ as = [] := by
        cases hfc : findChild rcs n0 with
        | none =>
          simp only [syncFile, hfc] at hsf
          injection hsf with hv
          injection hv with hva hvb
          exact Or.inl hvb.symm
        | some e2 =>
          cases e2 with
          | file rm rc =>
            simp only [syncFile, hfc] at hsf
            by_cases hlt : sm0 > rm
            · rw [if_pos hlt] at hsf
              injection hsf with hv
              injection hv with hva hvb
              exact Or.inr (Or.inl hvb.symm)
            · rw [if_neg hlt] at hsf
              injection hsf with hv
              injection hv with hva hvb
              exact Or.inr (Or.inr hvb.symm)
          | dir ds =>
            simp only [syncFile, hfc] at hsf
            cases hsf
      cases hr : syncFiles p rest rcs2 [] with
      | ok x acts3 =>
        rw [hr] at ha
        simp only [Res.actions] at ha
        rcases List.mem_append.mp ha with h1 | h2
        · rcases has with has | has | has <;> rw [has] at h1 <;> simp at h1 <;>
            subst h1
          · exact ⟨rfl, n0, ⟨sm0, sc0, List.mem_cons_self _ _⟩, rfl⟩
          · exact ⟨rfl, n0, ⟨sm0, sc0, List.mem_cons_self _ _⟩, rfl⟩
        · have := ih rcs2 a (by rw [hr]; exact h2)
          obtain ⟨hfw, n, ⟨sm, sc, hmem⟩, hpath⟩ := this
          exact ⟨hfw, n, ⟨sm, sc, List.mem_cons_of_mem _ hmem⟩, hpath⟩
      | err e acts3 =>
        rw [hr] at ha
        simp only [Res.actions] at ha
        rcases List.mem_append.mp ha with h1 | h2
        · rcases has with has | has | has <;> rw [has] at h1 <;> simp at h1 <;>
            subst h1
          · exact ⟨rfl, n0, ⟨sm0, sc0, List.mem_cons_self _ _⟩, rfl⟩
          · exact ⟨rfl, n0, ⟨sm0, sc0, List.mem_cons_self _ _⟩, rfl⟩
        · have := ih rcs2 a (by rw [hr]; exact h2)
          obtain ⟨hfw, n, ⟨sm, sc, hmem⟩, hpath⟩ := this
          exact ⟨hfw, n, ⟨sm, sc, List.mem_cons_of_mem _ hmem⟩, hpath⟩

theorem pairwise_of_mem {α : Type} {R : α → α → Prop} :
    ∀ l : List α, (∀ a ∈ l, ∀ b ∈ l, R a b) → List.Pairwise R l := by
  intro l h
  induction l with
  | nil => exact List.Pairwise.nil
  | cons x rest ih =>
    refine List.Pairwise.cons ?_ ?_
    · intro b hb
      exact h x (List.mem_cons_self _ _) b (List.mem_cons_of_mem _ hb)
    · exact ih fun a ha b hb =>
        h a (List.mem_cons_of_mem _ ha) b (List.mem_cons_of_mem _ hb)

theorem ne_createdDir_of_isFileWrite {b : Action} (h : isFileWrite b = true) :
    ∀ p, b ≠ .createdDir p := by
  intro p hp
  subst hp
  simp [isFileWrite] at h

theorem isFileWrite_createdDir (p : List String) :
    isFileWrite (.createdDir p) = false := rfl

theorem orderedPair_of_noDelete {a b : Action} (ha : isDelete a = false)
    (h1 : ∀ p, b = .createdDir p →
      ¬ (isFileWrite a = true ∧ strictlyBelow p (actPath a)))
    (h3 : ∀ p q, a = .createdDir q → b = .createdDir p → ¬ strictlyBelow p q) :
    orderedPair a b := by
  refine ⟨h1, ?_, h3⟩
  intro p hp
  subst hp
  simp [isDelete] at ha

theorem orderedPair_of_deletes {a b : Action} (hb : isDelete b = true)
    (h2 : ∀ p, a = .deletedDir p →
      ¬ (isDelete b = true ∧ strictlyBelow p (actPath b))) :
    orderedPair a b := by
  refine ⟨?_, h2, ?_⟩
  · intro p hp
    subst hp
    simp [isDelete] at hb
  · intro p q ha2 hb2
    subst hb2
    simp [isDelete] at hb

theorem orderedPair_cross {a b : Action} (ha : isDelete a = false)
    (hb : isDelete b = true) : orderedPair a b := by
  refine ⟨?_, ?_, ?_⟩
  · intro p hp
    subst hp
    simp [isDelete] at hb
  · intro p hp
    subst hp
    simp [isDelete] at ha
  · intro p q ha2 hb2
    subst hb2
    simp [isDelete] at hb


theorem wfNames_dir (cs : List (String × FsEntry)) :
    wfNames (.dir cs) = wfNamesL cs := by rw [wfNames]

theorem wfNamesL_nil : wfNamesL ([] : List (String × FsEntry)) = true := by
  rw [wfNamesL]

theorem wfO_findChild {rcs : List (String × FsEntry)} {n : String}
    (h : wfNamesL rcs = true) : wfO (findChild rcs n) = true := by
  cases hfc : findChild rcs n with
  | none => rfl
  | some e => exact wf_of_mem h (findChild_mem hfc)

theorem lookup_dir_eq_lookupO (rcs : List (String × FsEntry)) (n : String)
    (q : List String) :
    lookup (.dir rcs) (n :: q) = lookupO (findChild rcs n) q := by
  cases hfc : findChild rcs n with
  | none => simp [lookup, hfc, lookupO]
  | some e => simp [lookup, hfc, lookupO]

theorem lookup_file_inv {m : Nat} {c : String} {q : List String} {e : FsEntry}
    (h : lookup (.file m c) q = some e) : q = [] ∧ e = .file m c := by
  cases q with
  | nil =>
    rw [lookup] at h
    injection h with h
    exact ⟨rfl, h.symm⟩
  | cons n q' => rw [lookup] at h; cases h

theorem isDelete_of_isFileWrite {a : Action} (h : isFileWrite a = true) :
    isDelete a = false := by
  cases a <;> simp [isFileWrite, isDelete] at h ⊢

theorem append_singleton_ne {α : Type} (p : List α) (n : α) : p ++ [n] ≠ p := by
  intro h
  have := congrArg List.length h
  simp at this

theorem below_eq_of_length {α : Type} {x y : List α} (h : below x y)
    (hl : x.length = y.length) : x = y :=
  below_same_length h (below_refl y) hl

theorem append_last_inj {p : List String} {m n : String}
    (h : p ++ [m] = p ++ [n]) : m = n := by
  have := List.append_cancel_left h
  injection this

/-- Two actions confined to the subtrees of two distinct sibling
subdirectories cannot violate the creation-ordering discipline: a directory
path of the later block is never above a path of the earlier block. -/
theorem cross_sibling_contra {p pa pb : List String} {m n0 : String}
    (hne : m ≠ n0) (ha : below (p ++ [n0]) pa) (hb : below (p ++ [m]) pb)
    (hab : below pb pa) : False := by
  have hlb : (p ++ [m]).length ≤ pb.length := below_length hb
  have hlen : (p ++ [m]).length = (p ++ [n0]).length := by simp
  rcases below_comparable hab ha with hc | hc
  · -- pb is an initial segment of p ++ [n0]
    have : pb = p ++ [n0] := by
      refine below_eq_of_length hc ?_
      have := below_length hc
      omega
    subst this
    have : p ++ [m] = p ++ [n0] := below_eq_of_length hb (by omega)
    exact hne (append_last_inj this)
  · -- p ++ [n0] is an initial segment of pb
    obtain ⟨t, rfl⟩ := hb
    obtain ⟨u, rfl⟩ := hab
    have h1 : below (p ++ [m]) (p ++ [m] ++ t ++ u) := ⟨t ++ u, by simp⟩
    have : p ++ [m] = p ++ [n0] := below_same_length h1 ha hlen
    exact hne (append_last_inj this)

theorem filesOf_nil_no_dirs {cs : List (String × FsEntry)}
    (hf : filesOf cs = []) (hd : ∀ n ds, (n, FsEntry.dir ds) ∉ cs) :
    cs = [] := by
  cases cs with
  | nil => rfl
  | cons x rest =>
    obtain ⟨n, e⟩ := x
    cases e with
    | file m c => simp [filesOf] at hf
    | dir ds => exact absurd (List.mem_cons_self _ _) (hd n ds)

theorem dirName_not_fileKey {cs : List (String × FsEntry)} {n : String}
    {ds2 : List (String × FsEntry)} (hwf : wfNamesL cs = true)
    (h : findChild cs n = some (.dir ds2)) :
    ∀ x ∈ filesOf cs, x.1 ≠ n := by
  intro x hx hxn
  have h1 : (x.1, FsEntry.file x.2.1 x.2.2) ∈ cs := by
    refine filesOf_mem.mp ?_
    rw [show x = (x.1, x.2.1, x.2.2) from rfl] at hx
    exact hx
  rw [hxn] at h1
  have := unique_binding hwf h1 (findChild_mem h)
  cases this

/-- Pairwise action-ordering for one propagate node: the node's own
directory-creation action (if any), then its file writes (paths directly
under the node), then the subdirectory blocks (paths inside the
subdirectories, pairwise ordered among themselves). -/
theorem propagate_pairwise_build {p : List String}
    {acts0 a1 a2 : List Action}
    (h0 : acts0 = [] ∨ acts0 = [Action.createdDir p])
    (ha1 : ∀ a ∈ a1, isFileWrite a = true ∧ ∃ n, actPath a = p ++ [n])
    (ha2p : List.Pairwise orderedPair a2)
    (ha2r : ∀ a ∈ a2, isDelete a = false ∧ ∃ n, below (p ++ [n]) (actPath a)) :
    List.Pairwise orderedPair (acts0 ++ a1 ++ a2) := by
  rw [List.pairwise_append, List.pairwise_append]
  refine ⟨⟨?_, ?_, ?_⟩, ha2p, ?_⟩
  · -- acts0 internally
    rcases h0 with h0 | h0 <;> subst h0 <;> simp
  · -- a1 internally
    refine pairwise_of_mem a1 ?_
    intro a ha b hb
    refine orderedPair_of_noDelete (isDelete_of_isFileWrite (ha1 a ha).1) ?_ ?_
    · intro pb hpb
      exact absurd hpb (ne_createdDir_of_isFileWrite (ha1 b hb).1 pb)
    · intro pb q haq hbq
      exact absurd hbq (ne_createdDir_of_isFileWrite (ha1 b hb).1 pb)
  · -- acts0 before a1
    intro a ha b hb
    rcases h0 with h0 | h0
    · subst h0; simp at ha
    · subst h0
      simp at ha
      subst ha
      refine orderedPair_of_noDelete rfl ?_ ?_
      · intro pb hpb
        exact absurd hpb (ne_createdDir_of_isFileWrite (ha1 b hb).1 pb)
      · intro pb q haq hbq
        exact absurd hbq (ne_createdDir_of_isFileWrite (ha1 b hb).1 pb)
  · -- (acts0 ++ a1) before a2
    intro a ha b hb
    obtain ⟨hbd, nb, hbb⟩ := ha2r b hb
    rcases List.mem_append.mp ha with ha | ha
    · rcases h0 with h0 | h0
      · subst h0; simp at ha
      · subst h0
        simp at ha
        subst ha
        refine orderedPair_of_noDelete rfl ?_ ?_
        · intro pb hpb
          rintro ⟨hfw, -⟩
          rw [isFileWrite_createdDir] at hfw
          cases hfw
        · intro pb q haq hbq
          injection haq with haq
          subst haq
          subst hbq
          simp [actPath] at hbb
          intro hsb
          have h1 := below_length hbb
          have h2 := strictlyBelow_length hsb
          simp at h1
          omega
    · obtain ⟨hfw, nf, hpath⟩ := ha1 a ha
      refine orderedPair_of_noDelete (isDelete_of_isFileWrite hfw) ?_ ?_
      · intro pb hpb
        rintro ⟨-, hsb⟩
        subst hpb
        simp [actPath] at hbb
        rw [hpath] at hsb
        have h1 := below_length hbb
        have h2 := strictlyBelow_length hsb
        simp at h1 h2 ⊢
        omega
      · intro pb q haq hbq
        exact absurd haq (ne_createdDir_of_isFileWrite hfw q)


/-- Builds the pathwise propagate postcondition for one walked source root
with a directory replica listing, from the file-loop facts, the descent
facts, and the recursively obtained postconditions of the subdirectory
calls. -/
theorem propDirPost_build {p : List String} {cs rcs rcs1 : List (String × FsEntry)}
    {ro : Option FsEntry} {r1 : FsEntry}
    (hwfcs : wfNamesL cs = true)
    (hro : ∀ n q', lookupO ro (n :: q') = lookupO (findChild rcs n) q')
    (hsf1 : ∀ n, (∀ x ∈ filesOf cs, x.1 ≠ n) →
        findChild rcs1 n = findChild rcs n)
    (hsf2 : ∀ n sm sc, (n, sm, sc) ∈ filesOf cs →
        (findChild rcs n = none ∧ findChild rcs1 n = some (.file sm sc))
        ∨ (∃ rm rc, findChild rcs n = some (.file rm rc) ∧
            ((rm < sm ∧ findChild rcs1 n = some (.file sm sc))
             ∨ (sm ≤ rm ∧ findChild rcs1 n = some (.file rm rc)))))
    (hsubs : propSubsPost p cs (.dir rcs1) r1)
    (hchild : ∀ n ds2 sub acts2, findChild cs n = some (.dir ds2) →
        propagateDir (p ++ [n]) ds2 (findChild rcs1 n) = .ok sub acts2 →
        propDirPost ds2 (findChild rcs1 n) sub) :
    propDirPost cs ro r1 := by
  obtain ⟨hwfr1, hbr⟩ := hsubs
  rcases hbr with ⟨m, c, heq, -⟩ | ⟨rcs', rcs2, heq, hr1eq, S1, S2⟩
  · cases heq
  injection heq with heq
  subst heq
  subst hr1eq
  refine ⟨hwfr1, ?_, ?_⟩
  · -- directory paths
    intro q cs2 hlq
    cases q with
    | nil =>
      rw [lookup_nil] at hlq
      refine ⟨rfl, fun _ => ⟨rcs2, rfl⟩, Or.inr ⟨rcs2, rfl⟩⟩
    | cons n q' =>
      cases hfc : findChild cs n with
      | none => rw [lookup_dir_none hfc] at hlq; cases hlq
      | some e =>
        rw [lookup_dir_found hfc] at hlq
        cases e with
        | file fm fc =>
          have h2 := (lookup_file_inv hlq).2
          cases h2
        | dir ds2 =>
          obtain ⟨sub, acts2, hcall, hfc2⟩ := S2 n ds2 hfc
          have hpost := hchild n ds2 sub acts2 hfc hcall
          have hlk : lookup (.dir rcs2) (n :: q') = lookup sub q' :=
            lookup_dir_found hfc2 q'
          have hkey : findChild rcs1 n = findChild rcs n :=
            hsf1 n (dirName_not_fileKey hwfcs hfc)
          obtain ⟨-, hD, -⟩ := hpost
          obtain ⟨h1, h2, h3⟩ := hD q' cs2 hlq
          rw [hlk]
          refine ⟨h1, h2, ?_⟩
          rcases h3 with h3 | h3
          · left
            rw [h3, hro n q', hkey]
          · right
            exact h3
  · -- file paths
    intro q sm sc hlq
    cases q with
    | nil =>
      rw [lookup_nil] at hlq
      injection hlq with hlq
      cases hlq
    | cons n q' =>
      cases hfc : findChild cs n with
      | none => rw [lookup_dir_none hfc] at hlq; cases hlq
      | some e =>
        rw [lookup_dir_found hfc] at hlq
        cases e with
        | file fm fc =>
          obtain ⟨hq', he⟩ := lookup_file_inv hlq
          subst hq'
          injection he with he1 he2
          subst he1
          subst he2
          have hmem : (n, sm, sc) ∈ filesOf cs :=
            filesOf_mem.mpr (findChild_mem hfc)
          have hnd : ∀ ds, findChild cs n ≠ some (.dir ds) := by
            intro ds h
            rw [hfc] at h
            injection h with h
            cases h
          have hS1 : findChild rcs2 n = findChild rcs1 n := S1 n hnd
          have hlk : lookup (.dir rcs2) [n] = lookupO (findChild rcs2 n) [] :=
            lookup_dir_eq_lookupO rcs2 n []
          rcases hsf2 n sm sc hmem with ⟨hnone, hval⟩ |
            ⟨rm, rc, hfc0, ⟨hlt, hval⟩ | ⟨hle, hval⟩⟩
          · left
            rw [hlk, hS1, hval]
            rfl
          · left
            rw [hlk, hS1, hval]
            rfl
          · right
            refine ⟨rm, rc, ?_, hle, ?_⟩
            · rw [hlk, hS1, hval]
              rfl
            · rw [hro n [], hfc0]
              rfl
        | dir ds2 =>
          obtain ⟨sub, acts2, hcall, hfc2⟩ := S2 n ds2 hfc
          have hpost := hchild n ds2 sub acts2 hfc hcall
          have hlk : lookup (.dir rcs2) (n :: q') = lookup sub q' :=
            lookup_dir_found hfc2 q'
          have hkey : findChild rcs1 n = findChild rcs n :=
            hsf1 n (dirName_not_fileKey hwfcs hfc)
          obtain ⟨-, -, hF⟩ := hpost
          rcases hF q' sm sc hlq with h | ⟨rm, rc, hv, hle, hold⟩
          · left
            rw [hlk]
            exact h
          · right
            refine ⟨rm, rc, ?_, hle, ?_⟩
            · rw [hlk]
              exact hv
            · rw [hro n q', ← hkey]
              exact hold


theorem below_trans {α : Type} {x y z : List α} (h1 : below x y)
    (h2 : below y z) : below x z := by
  obtain ⟨t, rfl⟩ := h1
  obtain ⟨u, rfl⟩ := h2
  exact ⟨t ++ u, by simp⟩

theorem ne_of_below_append {p pa : List String} {n : String}
    (h : below (p ++ [n]) pa) : pa ≠ p := by
  intro hh
  subst hh
  have := below_length h
  simp at this


/-- Joint strong induction on the size of the walked source listing: region
and ordering facts about the actions of `propagateDir`/`propagateSubs`, and
the pathwise postconditions of completed runs. -/
theorem propagate_master : ∀ N : Nat,
    (∀ (cs : List (String × FsEntry)) (p : List String) (ro : Option FsEntry),
      sizeOf cs ≤ N →
      (∀ a ∈ (propagateDir p cs ro).actions,
        isDelete a = false ∧ below p (actPath a)
          ∧ (ro.isSome = true → actPath a ≠ p))
      ∧ (∀ r1 acts, propagateDir p cs ro = .ok r1 acts →
          wfNamesL cs = true → wfO ro = true →
          propDirPost cs ro r1 ∧ List.Pairwise orderedPair acts))
    ∧ (∀ (cs : List (String × FsEntry)) (p : List String) (r : FsEntry),
      sizeOf cs ≤ N →
      (∀ a ∈ (propagateSubs p cs r []).actions,
        isDelete a = false
          ∧ ∃ n ds, (n, FsEntry.dir ds) ∈ cs ∧ below (p ++ [n]) (actPath a))
      ∧ (∀ r1 acts, propagateSubs p cs r [] = .ok r1 acts →
          wfNamesL cs = true → wfNames r = true →
          propSubsPost p cs r r1 ∧ List.Pairwise orderedPair acts)) := by
  intro N
  induction N using Nat.strong_induction_on with
  | _ N IH =>
  have hsubs : ∀ (cs : List (String × FsEntry)) (p : List String) (r : FsEntry),
      sizeOf cs ≤ N →
      (∀ a ∈ (propagateSubs p cs r []).actions,
        isDelete a = false
          ∧ ∃ n ds, (n, FsEntry.dir ds) ∈ cs ∧ below (p ++ [n]) (actPath a))
      ∧ (∀ r1 acts, propagateSubs p cs r [] = .ok r1 acts →
          wfNamesL cs = true → wfNames r = true →
          propSubsPost p cs r r1 ∧ List.Pairwise orderedPair acts) := by
    intro cs
    induction cs with
    | nil =>
      intro p r hsz
      have heq : propagateSubs p [] r [] = .ok r [] := by
        simp [propagateSubs]
      constructor
      · intro a ha
        rw [heq] at ha
        simp [Res.actions] at ha
      · intro r1 acts hok hwfcs hwfr
        rw [heq] at hok
        injection hok with h1 h2
        subst h1
        subst h2
        refine ⟨⟨hwfr, ?_⟩, List.Pairwise.nil⟩
        cases r with
        | file m c => exact Or.inl ⟨m, c, rfl, rfl, by simp⟩
        | dir rcs =>
          refine Or.inr ⟨rcs, rcs, rfl, rfl, fun n _ => rfl, fun n ds2 h => ?_⟩
          rw [show findChild [] n = (none : Option FsEntry) from rfl] at h
          cases h
    | cons x rest ihrest =>
      intro p r hsz
      obtain ⟨n0, e0⟩ := x
      have hszrest : sizeOf rest ≤ N := by
        have h := List.cons.sizeOf_spec (n0, e0) rest
        omega
      cases e0 with
      | file m0 c0 =>
        have heq : propagateSubs p ((n0, FsEntry.file m0 c0) :: rest) r []
            = propagateSubs p rest r [] := by
          simp only [propagateSubs]
        constructor
        · intro a ha
          rw [heq] at ha
          obtain ⟨hd, n, ds, hmem, hb⟩ := (ihrest p r hszrest).1 a ha
          exact ⟨hd, n, ds, List.mem_cons_of_mem _ hmem, hb⟩
        · intro r1 acts hok hwfcs hwfr
          rw [heq] at hok
          rw [wfL_cons] at hwfcs
          obtain ⟨hpost, hpw⟩ := (ihrest p r hszrest).2 r1 acts hok hwfcs.2.2 hwfr
          refine ⟨⟨hpost.1, ?_⟩, hpw⟩
          rcases hpost.2 with ⟨m, c, h1, h2, h3⟩ | ⟨rcs, rcs2, h1, h2, S1, S2⟩
          · left
            refine ⟨m, c, h1, h2, ?_⟩
            intro n ds hmem
            rcases List.mem_cons.mp hmem with h | h
            · injection h with ha hb
              cases hb
            · exact h3 n ds h
          · right
            refine ⟨rcs, rcs2, h1, h2, ?_, ?_⟩
            · intro n hnd
              apply S1
              intro ds h
              by_cases hn : n0 = n
              · subst hn
                have hz : findChild rest n0 = none :=
                  findChild_eq_none_iff.mpr
                    (fun x hx => namesFresh_spec.mp hwfcs.1 x hx)
                rw [hz] at h
                cases h
              · refine hnd ds ?_
                rw [findChild, if_neg hn]
                exact h
            · intro n ds2 hfc
              by_cases hn : n0 = n
              · subst hn
                rw [findChild, if_pos rfl] at hfc
                injection hfc with hfc
                cases hfc
              · rw [findChild, if_neg hn] at hfc
                exact S2 n ds2 hfc
      | dir cs2 =>
        have hltcs2 : sizeOf cs2 < N := by
          have h1 := List.cons.sizeOf_spec (n0, FsEntry.dir cs2) rest
          have h2 := Prod.mk.sizeOf_spec n0 (FsEntry.dir cs2)
          have h3 : sizeOf (FsEntry.dir cs2) = 1 + sizeOf cs2 := by
            simp
          omega
        have IHd := (IH (sizeOf cs2) hltcs2).1 cs2
        cases r with
        | file m c =>
          have heq : propagateSubs p ((n0, FsEntry.dir cs2) :: rest)
              (.file m c) [] = .err .notADirectory [] := by
            simp only [propagateSubs]
          constructor
          · intro a ha
            rw [heq] at ha
            simp [Res.actions] at ha
          · intro r1 acts hok hwfcs hwfr
            rw [heq] at hok
            cases hok
        | dir rcs =>
          cases hcall : propagateDir (p ++ [n0]) cs2 (findChild rcs n0) with
          | err e acts2 =>
            have heq : propagateSubs p ((n0, FsEntry.dir cs2) :: rest)
                (.dir rcs) [] = .err e ([] ++ acts2) := by
              simp only [propagateSubs, hcall]
            constructor
            · intro a ha
              rw [heq] at ha
              simp only [Res.actions, List.nil_append] at ha
              have ha2 : a ∈ (propagateDir (p ++ [n0]) cs2 (findChild rcs n0)).actions := by
                rw [hcall]
                exact ha
              obtain ⟨hd, hb, -⟩ :=
                (IHd (p ++ [n0]) (findChild rcs n0) (le_refl _)).1 a ha2
              exact ⟨hd, n0, cs2, List.mem_cons_self _ _, hb⟩
            · intro r1 acts hok hwfcs hwfr
              rw [heq] at hok
              cases hok
          | ok sub acts2 =>
            have heq : propagateSubs p ((n0, FsEntry.dir cs2) :: rest)
                (.dir rcs) []
                = propagateSubs p rest (.dir (setChild rcs n0 sub)) acts2 := by
              simp only [propagateSubs, hcall, List.nil_append]
            have hreg2 : ∀ a ∈ acts2,
                isDelete a = false ∧ below (p ++ [n0]) (actPath a) := by
              intro a ha
              have ha2 : a ∈ (propagateDir (p ++ [n0]) cs2 (findChild rcs n0)).actions := by
                rw [hcall]
                exact ha
              obtain ⟨hd, hb, -⟩ :=
                (IHd (p ++ [n0]) (findChild rcs n0) (le_refl _)).1 a ha2
              exact ⟨hd, hb⟩
            constructor
            · intro a ha
              rw [heq, propagateSubs_acc] at ha
              cases hrest : propagateSubs p rest (.dir (setChild rcs n0 sub)) [] with
              | ok x a3 =>
                rw [hrest] at ha
                simp only [Res.actions] at ha
                rcases List.mem_append.mp ha with h1 | h2
                · obtain ⟨hd, hb⟩ := hreg2 a h1
                  exact ⟨hd, n0, cs2, List.mem_cons_self _ _, hb⟩
                · have := (ihrest p (.dir (setChild rcs n0 sub)) hszrest).1 a
                    (by rw [hrest]; exact h2)
                  obtain ⟨hd, n, ds, hmem, hb⟩ := this
                  exact ⟨hd, n, ds, List.mem_cons_of_mem _ hmem, hb⟩
              | err e a3 =>
                rw [hrest] at ha
                simp only [Res.actions] at ha
                rcases List.mem_append.mp ha with h1 | h2
                · obtain ⟨hd, hb⟩ := hreg2 a h1
                  exact ⟨hd, n0, cs2, List.mem_cons_self _ _, hb⟩
                · have := (ihrest p (.dir (setChild rcs n0 sub)) hszrest).1 a
                    (by rw [hrest]; exact h2)
                  obtain ⟨hd, n, ds, hmem, hb⟩ := this
                  exact ⟨hd, n, ds, List.mem_cons_of_mem _ hmem, hb⟩
            · intro r1 acts hok hwfcs hwfr
              rw [heq, propagateSubs_acc] at hok
              cases hrest : propagateSubs p rest (.dir (setChild rcs n0 sub)) [] with
              | err e a3 =>
                rw [hrest] at hok
                cases hok
              | ok x a3 =>
                rw [hrest] at hok
                simp only at hok
                injection hok with h1 h2
                subst h1
                rw [wfL_cons] at hwfcs
                rw [wfNames_dir] at hwfr
                have hwfcs2 : wfNamesL cs2 = true := by
                  have := hwfcs.2.1
                  rwa [wfNames_dir] at this
                obtain ⟨hpostc, hpwc⟩ :=
                  (IHd (p ++ [n0]) (findChild rcs n0) (le_refl _)).2 sub acts2
                    hcall hwfcs2 (wfO_findChild hwfr)
                have hwfsub : wfNames sub = true := hpostc.1
                have hwfset : wfNames (.dir (setChild rcs n0 sub)) = true := by
                  rw [wfNames_dir]
                  exact wfL_setChild hwfr hwfsub
                obtain ⟨hpostr, hpwr⟩ :=
                  (ihrest p (.dir (setChild rcs n0 sub)) hszrest).2 x a3 hrest
                    hwfcs.2.2 hwfset
                have hfreshn0 : findChild rest n0 = none :=
                  findChild_eq_none_iff.mpr
                    (fun y hy => namesFresh_spec.mp hwfcs.1 y hy)
                obtain ⟨hwfx, hbr⟩ := hpostr
                rcases hbr with ⟨m', c', heq', -⟩ | ⟨rcs'', rcs2', heq', hxeq, S1r, S2r⟩
                · cases heq'
                · injection heq' with heq'
                  subst heq'
                  subst hxeq
                  constructor
                  · refine ⟨hwfx, Or.inr ⟨rcs, rcs2', rfl, rfl, ?_, ?_⟩⟩
                    · intro n hnd
                      have hn : ¬ n0 = n := by
                        intro hh
                        subst hh
                        refine hnd cs2 ?_
                        rw [findChild, if_pos rfl]
                      have hrest1 : findChild rcs2' n
                          = findChild (setChild rcs n0 sub) n := by
                        apply S1r
                        intro ds h
                        refine hnd ds ?_
                        rw [findChild, if_neg hn]
                        exact h
                      rw [hrest1]
                      exact findChild_setChild_ne rcs _ (fun hh => hn hh.symm)
                    · intro n ds2' hfc
                      by_cases hn : n0 = n
                      · subst hn
                        rw [findChild, if_pos rfl] at hfc
                        injection hfc with hfc
                        injection hfc with hfc
                        subst hfc
                        refine ⟨sub, acts2, hcall, ?_⟩
                        have hrest1 : findChild rcs2' n0
                            = findChild (setChild rcs n0 sub) n0 := by
                          apply S1r
                          intro ds h
                          rw [hfreshn0] at h
                          cases h
                        rw [hrest1]
                        exact findChild_setChild_self rcs n0 sub
                      · rw [findChild, if_neg hn] at hfc
                        obtain ⟨sub', acts', hcall', hfc'⟩ := S2r n ds2' hfc
                        rw [findChild_setChild_ne rcs _ (fun hh => hn hh.symm)] at hcall'
                        exact ⟨sub', acts', hcall', hfc'⟩
                  · -- Pairwise (acts2 ++ a3)
                    subst h2
                    rw [List.pairwise_append]
                    refine ⟨hpwc, hpwr, ?_⟩
                    intro a ha b hb
                    obtain ⟨hadel, hab⟩ := hreg2 a ha
                    obtain ⟨hbdel, m, ds, hmem, hbb⟩ :=
                      (ihrest p (.dir (setChild rcs n0 sub)) hszrest).1 b
                        (by rw [hrest]; exact hb)
                    have hmne : m ≠ n0 :=
                      namesFresh_spec.mp hwfcs.1 (m, FsEntry.dir ds) hmem
                    refine orderedPair_of_noDelete hadel ?_ ?_
                    · intro pb hpb
                      rintro ⟨-, hsb⟩
                      have hbb' : below (p ++ [m]) pb := by
                        rw [hpb, actPath] at hbb
                        exact hbb
                      exact cross_sibling_contra hmne hab hbb'
                        (strictlyBelow_below hsb)
                    · intro pb q haq hbq hsb
                      have hbb' : below (p ++ [m]) pb := by
                        rw [hbq, actPath] at hbb
                        exact hbb
                      have hab' : below (p ++ [n0]) q := by
                        rw [haq, actPath] at hab
                        exact hab
                      exact cross_sibling_contra hmne hab' hbb'
                        (strictlyBelow_below hsb)
  refine ⟨?_, hsubs⟩
  intro cs p ro hsz
  have hchild : ∀ (rcs1 : List (String × FsEntry)), wfNamesL rcs1 = true →
      wfNamesL cs = true →
      ∀ n ds2 sub acts2, findChild cs n = some (.dir ds2) →
        propagateDir (p ++ [n]) ds2 (findChild rcs1 n) = .ok sub acts2 →
        propDirPost ds2 (findChild rcs1 n) sub := by
    intro rcs1 hwfrcs1 hwfcs n ds2 sub acts2 hfc hcallx
    have hmem := findChild_mem hfc
    have hlt : sizeOf ds2 < N := by
      have h1 := List.sizeOf_lt_of_mem hmem
      have h2 := Prod.mk.sizeOf_spec n (FsEntry.dir ds2)
      have h3 : sizeOf (FsEntry.dir ds2) = 1 + sizeOf ds2 := by simp
      omega
    have hwfds2 : wfNamesL ds2 = true := by
      have := wf_of_mem hwfcs hmem
      rwa [wfNames_dir] at this
    exact (((IH (sizeOf ds2) hlt).1 ds2 (p ++ [n]) (findChild rcs1 n)
      (le_refl _)).2 sub acts2 hcallx hwfds2 (wfO_findChild hwfrcs1)).1
  cases ro with
  | none =>
    cases hsf0 : syncFiles p (filesOf cs) [] [] with
    | err e a1 =>
      have heq : propagateDir p cs none = .err e (Action.createdDir p :: a1) := by
        simp only [propagateDir]
        rw [syncFiles_acc, hsf0]
        rfl
      constructor
      · intro a ha
        rw [heq] at ha
        simp only [Res.actions] at ha
        rcases List.mem_cons.mp ha with h1 | h1
        · subst h1
          exact ⟨rfl, below_refl p, fun hfalse => by cases hfalse⟩
        · obtain ⟨hfw, n, -, hpath⟩ :=
            syncFiles_region p (filesOf cs) [] a (by rw [hsf0]; exact h1)
          exact ⟨isDelete_of_isFileWrite hfw,
            by rw [hpath]; exact below_append p [n],
            fun _ => by rw [hpath]; exact append_singleton_ne p n⟩
      · intro r1 acts hok
        rw [heq] at hok
        cases hok
    | ok rcs1 a1 =>
      have heq : propagateDir p cs none
          = propagateSubs p cs (.dir rcs1) (Action.createdDir p :: a1) := by
        simp only [propagateDir]
        rw [syncFiles_acc, hsf0]
        rfl
      have hrega1 : ∀ a ∈ a1,
          isDelete a = false ∧ below p (actPath a) ∧ actPath a ≠ p := by
        intro a ha
        obtain ⟨hfw, n, -, hpath⟩ :=
          syncFiles_region p (filesOf cs) [] a (by rw [hsf0]; exact ha)
        exact ⟨isDelete_of_isFileWrite hfw,
          by rw [hpath]; exact below_append p [n],
          by rw [hpath]; exact append_singleton_ne p n⟩
      have hrega2 : ∀ a ∈ (propagateSubs p cs (.dir rcs1) []).actions,
          isDelete a = false ∧ ∃ n, below (p ++ [n]) (actPath a) := by
        intro a ha
        obtain ⟨hd, n, ds, -, hb⟩ := (hsubs cs p (.dir rcs1) hsz).1 a ha
        exact ⟨hd, n, hb⟩
      cases hsub : propagateSubs p cs (.dir rcs1) [] with
      | err e a2 =>
        have heq2 : propagateDir p cs none
            = .err e (Action.createdDir p :: a1 ++ a2) := by
          rw [heq, propagateSubs_acc, hsub]
        constructor
        · intro a ha
          rw [heq2] at ha
          simp only [Res.actions] at ha
          rcases List.mem_cons.mp ha with h1 | h1
          · subst h1
            exact ⟨rfl, below_refl p, fun hfalse => by cases hfalse⟩
          rcases List.mem_append.mp h1 with h2 | h2
          · obtain ⟨hd, hb, -⟩ := hrega1 a h2
            exact ⟨hd, hb, fun _ => (hrega1 a h2).2.2⟩
          · obtain ⟨hd, n, hb⟩ := hrega2 a (by rw [hsub]; exact h2)
            exact ⟨hd, below_trans (below_append p [n]) hb,
              fun _ => ne_of_below_append hb⟩
        · intro r1 acts hok
          rw [heq2] at hok
          cases hok
      | ok r1' a2 =>
        have heq2 : propagateDir p cs none
            = .ok r1' (Action.createdDir p :: a1 ++ a2) := by
          rw [heq, propagateSubs_acc, hsub]
        constructor
        · intro a ha
          rw [heq2] at ha
          simp only [Res.actions] at ha
          rcases List.mem_cons.mp ha with h1 | h1
          · subst h1
            exact ⟨rfl, below_refl p, fun hfalse => by cases hfalse⟩
          rcases List.mem_append.mp h1 with h2 | h2
          · obtain ⟨hd, hb, -⟩ := hrega1 a h2
            exact ⟨hd, hb, fun _ => (hrega1 a h2).2.2⟩
          · obtain ⟨hd, n, hb⟩ := hrega2 a (by rw [hsub]; exact h2)
            exact ⟨hd, below_trans (below_append p [n]) hb,
              fun _ => ne_of_below_append hb⟩
        · intro r1 acts hok hwfcs hwfro
          rw [heq2] at hok
          injection hok with h1 h2
          subst h1
          obtain ⟨sf1, sf2, sfwf, sfacts⟩ :=
            syncFiles_ok_spec (pairwise_keys_filesOf hwfcs) hsf0
          have hwfrcs1 : wfNamesL rcs1 = true := sfwf wfNamesL_nil
          obtain ⟨hpost, hpw2⟩ := (hsubs cs p (.dir rcs1) hsz).2 r1' a2 hsub
            hwfcs (by rw [wfNames_dir]; exact hwfrcs1)
          constructor
          · refine propDirPost_build hwfcs ?_ ?_ sf2 hpost
              (hchild rcs1 hwfrcs1 hwfcs)
            · intro n q'
              rfl
            · intro n hn
              exact sf1 n hn
          · subst h2
            have hbuild := propagate_pairwise_build (p := p)
              (Or.inr rfl : [Action.createdDir p] = []
                ∨ [Action.createdDir p] = [Action.createdDir p])
              (fun a ha => ⟨(sfacts a ha).1, by
                obtain ⟨-, n, sm, sc, -, hpath⟩ := sfacts a ha
                exact ⟨n, hpath⟩⟩)
              hpw2
              (fun a ha => hrega2 a (by rw [hsub]; exact ha))
            simpa using hbuild
  | some e =>
    cases e with
    | file m c =>
      cases hfs : filesOf cs with
      | cons f fs' =>
        have heq : propagateDir p cs (some (.file m c))
            = .err .notADirectory [] := by
          simp only [propagateDir, hfs]
        constructor
        · intro a ha
          rw [heq] at ha
          simp [Res.actions] at ha
        · intro r1 acts hok
          rw [heq] at hok
          cases hok
      | nil =>
        have heq : propagateDir p cs (some (.file m c))
            = propagateSubs p cs (.file m c) [] := by
          simp only [propagateDir, hfs]
        constructor
        · intro a ha
          rw [heq] at ha
          obtain ⟨hd, n, ds, -, hb⟩ := (hsubs cs p (.file m c) hsz).1 a ha
          exact ⟨hd, below_trans (below_append p [n]) hb,
            fun _ => ne_of_below_append hb⟩
        · intro r1 acts hok hwfcs hwfro
          rw [heq] at hok
          obtain ⟨hpost, hpw⟩ := (hsubs cs p (.file m c) hsz).2 r1 acts hok
            hwfcs (wfNames_file m c)
          obtain ⟨hwfr1, hbr⟩ := hpost
          rcases hbr with ⟨m', c', heqf, hr1, hnod⟩ | ⟨rcs', rcs2, heqf, -⟩
          · have hcs : cs = [] := filesOf_nil_no_dirs hfs hnod
            subst hcs
            subst hr1
            refine ⟨⟨hwfr1, ?_, ?_⟩, hpw⟩
            · intro q cs2 hlq
              cases q with
              | nil =>
                rw [lookup_nil] at hlq
                injection hlq with hlq
                injection hlq with hlq
                refine ⟨rfl, fun hne => absurd hlq.symm hne, Or.inl rfl⟩
              | cons n q' =>
                rw [lookup_dir_none (show findChild [] n = none from rfl) q'] at hlq
                cases hlq
            · intro q sm sc hlq
              cases q with
              | nil =>
                rw [lookup_nil] at hlq
                injection hlq with hlq
                cases hlq
              | cons n q' =>
                rw [lookup_dir_none (show findChild [] n = none from rfl) q'] at hlq
                cases hlq
          · cases heqf
    | dir rcs =>
      cases hsf0 : syncFiles p (filesOf cs) rcs [] with
      | err e2 a1 =>
        have heq : propagateDir p cs (some (.dir rcs)) = .err e2 a1 := by
          simp only [propagateDir, hsf0]
        constructor
        · intro a ha
          rw [heq] at ha
          simp only [Res.actions] at ha
          obtain ⟨hfw, n, -, hpath⟩ :=
            syncFiles_region p (filesOf cs) rcs a (by rw [hsf0]; exact ha)
          exact ⟨isDelete_of_isFileWrite hfw,
            by rw [hpath]; exact below_append p [n],
            fun _ => by rw [hpath]; exact append_singleton_ne p n⟩
        · intro r1 acts hok
          rw [heq] at hok
          cases hok
      | ok rcs1 a1 =>
        have heq : propagateDir p cs (some (.dir rcs))
            = propagateSubs p cs (.dir rcs1) a1 := by
          simp only [propagateDir, hsf0]
        have hrega1 : ∀ a ∈ a1,
            isDelete a = false ∧ below p (actPath a) ∧ actPath a ≠ p := by
          intro a ha
          obtain ⟨hfw, n, -, hpath⟩ :=
            syncFiles_region p (filesOf cs) rcs a (by rw [hsf0]; exact ha)
          exact ⟨isDelete_of_isFileWrite hfw,
            by rw [hpath]; exact below_append p [n],
            by rw [hpath]; exact append_singleton_ne p n⟩
        have hrega2 : ∀ a ∈ (propagateSubs p cs (.dir rcs1) []).actions,
            isDelete a = false ∧ ∃ n, below (p ++ [n]) (actPath a) := by
          intro a ha
          obtain ⟨hd, n, ds, -, hb⟩ := (hsubs cs p (.dir rcs1) hsz).1 a ha
          exact ⟨hd, n, hb⟩
        cases hsub : propagateSubs p cs (.dir rcs1) [] with
        | err e2 a2 =>
          have heq2 : propagateDir p cs (some (.dir rcs))
              = .err e2 (a1 ++ a2) := by
            rw [heq, propagateSubs_acc, hsub]
          constructor
          · intro a ha
            rw [heq2] at ha
            simp only [Res.actions] at ha
            rcases List.mem_append.mp ha with h2 | h2
            · obtain ⟨hd, hb, hne⟩ := hrega1 a h2
              exact ⟨hd, hb, fun _ => hne⟩
            · obtain ⟨hd, n, hb⟩ := hrega2 a (by rw [hsub]; exact h2)
              exact ⟨hd, below_trans (below_append p [n]) hb,
                fun _ => ne_of_below_append hb⟩
          · intro r1 acts hok
            rw [heq2] at hok
            cases hok
        | ok r1' a2 =>
          have heq2 : propagateDir p cs (some (.dir rcs))
              = .ok r1' (a1 ++ a2) := by
            rw [heq, propagateSubs_acc, hsub]
          constructor
          · intro a ha
            rw [heq2] at ha
            simp only [Res.actions] at ha
            rcases List.mem_append.mp ha with h2 | h2
            · obtain ⟨hd, hb, hne⟩ := hrega1 a h2
              exact ⟨hd, hb, fun _ => hne⟩
            · obtain ⟨hd, n, hb⟩ := hrega2 a (by rw [hsub]; exact h2)
              exact ⟨hd, below_trans (below_append p [n]) hb,
                fun _ => ne_of_below_append hb⟩
          · intro r1 acts hok hwfcs hwfro
            rw [heq2] at hok
            injection hok with h1 h2
            subst h1
            have hwfrcs : wfNamesL rcs = true := by
              have : wfNames (.dir rcs) = true := hwfro
              rwa [wfNames_dir] at this
            obtain ⟨sf1, sf2, sfwf, sfacts⟩ :=
              syncFiles_ok_spec (pairwise_keys_filesOf hwfcs) hsf0
            have hwfrcs1 : wfNamesL rcs1 = true := sfwf hwfrcs
            obtain ⟨hpost, hpw2⟩ := (hsubs cs p (.dir rcs1) hsz).2 r1' a2 hsub
              hwfcs (by rw [wfNames_dir]; exact hwfrcs1)
            constructor
            · refine propDirPost_build hwfcs ?_ ?_ sf2 hpost
                (hchild rcs1 hwfrcs1 hwfcs)
              · intro n q'
                exact lookup_dir_eq_lookupO rcs n q'
              · intro n hn
                exact sf1 n hn
            · subst h2
              have hbuild := propagate_pairwise_build (p := p)
                (Or.inl rfl : ([] : List Action) = []
                  ∨ ([] : List Action) = [Action.createdDir p])
                (fun a ha => ⟨(sfacts a ha).1, by
                  obtain ⟨-, n, sm, sc, -, hpath⟩ := sfacts a ha
                  exact ⟨n, hpath⟩⟩)
                hpw2
                (fun a ha => hrega2 a (by rw [hsub]; exact ha))
              simpa using hbuild


theorem setChild_self {rcs : List (String × FsEntry)} {n : String}
    {e : FsEntry} (h : findChild rcs n = some e) : setChild rcs n e = rcs := by
  induction rcs with
  | nil => simp [findChild] at h
  | cons x rest ih =>
    obtain ⟨m, e0⟩ := x
    by_cases hm : m = n
    · subst hm
      rw [findChild, if_pos rfl] at h
      injection h with h
      subst h
      rw [setChild, if_pos rfl]
    · rw [findChild, if_neg hm] at h
      rw [setChild, if_neg hm, ih h]

theorem findChild_isSome_of_mem {cs : List (String × FsEntry)} {n : String}
    {e : FsEntry} (h : (n, e) ∈ cs) : (findChild cs n).isSome = true := by
  cases hfc : findChild cs n with
  | some e2 => rfl
  | none => exact absurd rfl (findChild_eq_none_iff.mp hfc (n, e) h)

theorem lookup_append (s : FsEntry) (q1 q2 : List String) :
    lookup s (q1 ++ q2) = lookupO (lookup s q1) q2 := by
  induction q1 generalizing s with
  | nil => simp [lookup, lookupO]
  | cons n rest ih =>
    cases s with
    | file m c => simp [lookup, lookupO]
    | dir cs =>
      cases hfc : findChild cs n with
      | none =>
        rw [List.cons_append, lookup_dir_none hfc, lookup_dir_none hfc]
        rfl
      | some e =>
        rw [List.cons_append, lookup_dir_found hfc, lookup_dir_found hfc, ih]

theorem isSome_lookup_of_append {s : FsEntry} {q1 q2 : List String}
    (h : (lookup s (q1 ++ q2)).isSome = true) :
    (lookup s q1).isSome = true := by
  rw [lookup_append] at h
  cases hl : lookup s q1 with
  | none => rw [hl] at h; simp [lookupO] at h
  | some e => rfl

theorem findChild_map_pruneChild (s : FsEntry) (p : List String)
    (rcs : List (String × FsEntry)) (n : String) :
    findChild (rcs.map (pruneChild s p)) n
      = Option.map (pruneChildEntry s (p ++ [n])) (findChild rcs n) := by
  induction rcs with
  | nil => simp [findChild]
  | cons x rest ih =>
    obtain ⟨m, e⟩ := x
    by_cases hm : m = n
    · subst hm
      simp [pruneChild, findChild]
    · simp [pruneChild, findChild, hm, ih]

theorem findChild_filter_name (keep : String → Bool)
    (rcs : List (String × FsEntry)) (n : String) :
    findChild (rcs.filter fun x => keep x.1) n
      = if keep n then findChild rcs n else none := by
  induction rcs with
  | nil => simp [findChild]
  | cons x rest ih =>
    obtain ⟨m, e⟩ := x
    by_cases hm : m = n
    · subst hm
      by_cases hk : keep m
      · simp [List.filter, hk, findChild, ih]
      · simp [List.filter, hk, findChild, ih]
    · by_cases hk : keep m
      · simp [List.filter, hk, findChild, hm, ih]
      · simp [List.filter, hk, findChild, hm, ih]

theorem pruneSubs_eq (s : FsEntry) (p : List String) :
    ∀ rcs : List (String × FsEntry),
      pruneSubs s p rcs = (rcs.map (pruneChild s p), pruneSubsActs s p (dirsOf rcs)) := by
  intro rcs
  induction rcs with
  | nil => simp [pruneSubs, dirsOf, pruneSubsActs]
  | cons x rest ih =>
    obtain ⟨n, e⟩ := x
    cases e with
    | file m c =>
      simp only [pruneSubs, ih]
      simp [pruneChild, pruneChildEntry, dirsOf]
    | dir cs2 =>
      simp only [pruneSubs, ih]
      simp [pruneChild, pruneChildEntry, dirsOf, pruneSubsActs]

theorem mem_pruneSubsActs {s : FsEntry} {p : List String} {a : Action} :
    ∀ {ds : List (String × List (String × FsEntry))},
      a ∈ pruneSubsActs s p ds →
      ∃ x ∈ ds, a ∈ (pruneTree s (p ++ [x.1]) x.2).2 := by
  intro ds
  induction ds with
  | nil => intro h; simp [pruneSubsActs] at h
  | cons x rest ih =>
    intro h
    rw [pruneSubsActs] at h
    rcases List.mem_append.mp h with h1 | h1
    · exact ⟨x, List.mem_cons_self _ _, h1⟩
    · obtain ⟨y, hy, hmem⟩ := ih h1
      exact ⟨y, List.mem_cons_of_mem _ hy, hmem⟩

theorem pairwise_keys_dirsOf {cs : List (String × FsEntry)}
    (hwf : wfNamesL cs = true) :
    List.Pairwise (fun a b : String × List (String × FsEntry) => a.1 ≠ b.1)
      (dirsOf cs) := by
  induction cs with
  | nil => simp [dirsOf]
  | cons x rest ih =>
    obtain ⟨m, e⟩ := x
    rw [wfL_cons] at hwf
    have hrest := ih hwf.2.2
    cases e with
    | file fm fc => simpa [dirsOf] using hrest
    | dir ds =>
      simp only [dirsOf, List.filterMap_cons]
      rw [List.pairwise_cons]
      refine ⟨?_, hrest⟩
      intro x hx
      have : (x.1, FsEntry.dir x.2) ∈ rest := dirsOf_mem.mp (by
        rw [show x = (x.1, x.2) from rfl] at hx
        exact hx)
      exact fun hh => (namesFresh_spec.mp hwf.1 _ this) (by simpa using hh.symm)


theorem namesFresh_map_pruneChild (s : FsEntry) (p : List String) (n : String)
    (l : List (String × FsEntry)) :
    namesFresh n (l.map (pruneChild s p)) = namesFresh n l := by
  induction l with
  | nil => simp
  | cons x rest ih =>
    obtain ⟨m, e⟩ := x
    by_cases hm : m = n <;> simp [pruneChild, namesFresh, hm, ih]

theorem wfL_filter (pred : String × FsEntry → Bool) :
    ∀ {l : List (String × FsEntry)}, wfNamesL l = true →
      wfNamesL (l.filter pred) = true := by
  intro l
  induction l with
  | nil => intro h; simpa using h
  | cons x rest ih =>
    intro h
    rw [wfL_cons] at h
    by_cases hp : pred x
    · rw [List.filter_cons_of_pos hp]
      obtain ⟨m, e⟩ := x
      rw [wfL_cons]
      refine ⟨?_, h.2.1, ih h.2.2⟩
      rw [namesFresh_spec]
      intro y hy
      exact namesFresh_spec.mp h.1 y (List.mem_of_mem_filter hy)
    · rw [List.filter_cons_of_neg hp]
      exact ih h.2.2

theorem append_cons_eq {α : Type} (p : List α) (n : α) (q : List α) :
    p ++ n :: q = (p ++ [n]) ++ q := by simp

theorem pruneSubsActs_pairwise (s : FsEntry) (p : List String) :
    ∀ (ds : List (String × List (String × FsEntry))),
    List.Pairwise (fun a b => a.1 ≠ b.1) ds →
    (∀ x ∈ ds, List.Pairwise orderedPair (pruneTree s (p ++ [x.1]) x.2).2
      ∧ ∀ a ∈ (pruneTree s (p ++ [x.1]) x.2).2,
          isDelete a = true ∧ ∃ t, actPath a = (p ++ [x.1]) ++ t ∧ t ≠ []) →
    List.Pairwise orderedPair (pruneSubsActs s p ds) := by
  intro ds
  induction ds with
  | nil =>
    intro _ _
    rw [pruneSubsActs]
    exact List.Pairwise.nil
  | cons x rest ih =>
    intro hkeys hblock
    rw [pruneSubsActs, List.pairwise_append]
    refine ⟨(hblock x (List.mem_cons_self _ _)).1,
      ih (List.pairwise_cons.mp hkeys).2
        (fun y hy => hblock y (List.mem_cons_of_mem _ hy)), ?_⟩
    intro a ha b hb
    obtain ⟨y, hy, hbmem⟩ := mem_pruneSubsActs hb
    obtain ⟨hadel, ta, hpa, -⟩ := (hblock x (List.mem_cons_self _ _)).2 a ha
    obtain ⟨hbdel, tb, hpb, -⟩ :=
      (hblock y (List.mem_cons_of_mem _ hy)).2 b hbmem
    have hne : x.1 ≠ y.1 := (List.pairwise_cons.mp hkeys).1 y hy
    refine orderedPair_of_deletes hbdel ?_
    intro pd hpd
    rintro ⟨-, hsb⟩
    have hbpd : below (p ++ [x.1]) pd := by
      have : actPath a = pd := by rw [hpd, actPath]
      rw [← this, hpa]
      exact below_append _ _
    have hba : below (p ++ [y.1]) (actPath b) := by
      rw [hpb]
      exact below_append _ _
    exact cross_sibling_contra hne hba hbpd (strictlyBelow_below hsb)

/-- Joint strong induction for the prune walk: the emitted actions are all
deletions confined to the walked subtree and ordered bottom-up, and the
resulting listing keeps exactly the source-backed entries, preserving kept
files exactly and kept directories up to their own pruning. -/
theorem prune_master : ∀ N : Nat,
    ∀ (rcs : List (String × FsEntry)) (s : FsEntry) (p : List String),
    sizeOf rcs ≤ N →
    (∀ a ∈ (pruneTree s p rcs).2,
        isDelete a = true ∧ ∃ n t, actPath a = p ++ n :: t)
    ∧ (∀ n q, (lookup s (p ++ n :: q)).isSome = false →
        lookup (.dir (pruneTree s p rcs).1) (n :: q) = none)
    ∧ (∀ n q, (lookup s (p ++ n :: q)).isSome = true →
        pruneMatch (lookup (.dir rcs) (n :: q))
          (lookup (.dir (pruneTree s p rcs).1) (n :: q)))
    ∧ (wfNamesL rcs = true → wfNamesL (pruneTree s p rcs).1 = true)
    ∧ (wfNamesL rcs = true → List.Pairwise orderedPair (pruneTree s p rcs).2) := by
  intro N
  induction N using Nat.strong_induction_on with
  | _ N IH =>
  intro rcs s p hsz
  have hsize : ∀ {n : String} {cs2 : List (String × FsEntry)},
      (n, FsEntry.dir cs2) ∈ rcs → sizeOf cs2 < N := by
    intro n cs2 hmem
    have h1 := List.sizeOf_lt_of_mem hmem
    have h2 := Prod.mk.sizeOf_spec n (FsEntry.dir cs2)
    have h3 : sizeOf (FsEntry.dir cs2) = 1 + sizeOf cs2 := by simp
    omega
  have hpt : pruneTree s p rcs
      = ((rcs.map (pruneChild s p)).filter
           (fun x => (lookup s (p ++ [x.1])).isSome),
         pruneSubsActs s p (dirsOf rcs)
           ++ ((rcs.filterMap fun x =>
                match x.2 with
                | .file _ _ =>
                  if (lookup s (p ++ [x.1])).isSome then none
                  else some (Action.deletedFile (p ++ [x.1]))
                | .dir _ => none)
             ++ (rcs.filterMap fun x =>
                match x.2 with
                | .dir _ =>
                  if (lookup s (p ++ [x.1])).isSome then none
                  else some (Action.deletedDir (p ++ [x.1]))
                | .file _ _ => none))) := by
    simp only [pruneTree, pruneSubs_eq]
    rw [List.append_assoc]
  have hfind : ∀ n, findChild (pruneTree s p rcs).1 n
      = if (lookup s (p ++ [n])).isSome then
          Option.map (pruneChildEntry s (p ++ [n])) (findChild rcs n)
        else none := by
    intro n
    rw [hpt]
    have h1 := findChild_filter_name
      (fun m => (lookup s (p ++ [m])).isSome) (rcs.map (pruneChild s p)) n
    rw [show ((rcs.map (pruneChild s p)).filter
        fun x => (lookup s (p ++ [x.1])).isSome)
      = ((rcs.map (pruneChild s p)).filter
        fun x => (fun m => (lookup s (p ++ [m])).isSome) x.1) from rfl]
    rw [h1, findChild_map_pruneChild]
  have hregion : ∀ a ∈ (pruneTree s p rcs).2,
      isDelete a = true ∧ ∃ n t, actPath a = p ++ n :: t := by
    intro a ha
    rw [hpt] at ha
    simp only at ha
    rcases List.mem_append.mp ha with h1 | h1
    · obtain ⟨x, hx, hmem⟩ := mem_pruneSubsActs h1
      have hxm : (x.1, FsEntry.dir x.2) ∈ rcs := dirsOf_mem.mp (by
        rw [show x = (x.1, x.2) from rfl] at hx
        exact hx)
      obtain ⟨hdel, n', t', hpath⟩ :=
        ((IH (sizeOf x.2) (hsize hxm)) x.2 s (p ++ [x.1]) (le_refl _)).1 a hmem
      refine ⟨hdel, x.1, n' :: t', ?_⟩
      rw [hpath]
      simp
    rcases List.mem_append.mp h1 with h2 | h2
    · obtain ⟨x, hx, hfx⟩ := List.mem_filterMap.mp h2
      obtain ⟨m, e⟩ := x
      cases e with
      | dir ds => simp at hfx
      | file fm fc =>
        by_cases hk : (lookup s (p ++ [m])).isSome
        · simp [hk] at hfx
        · simp [hk] at hfx
          subst hfx
          exact ⟨rfl, m, [], by simp [actPath]⟩
    · obtain ⟨x, hx, hfx⟩ := List.mem_filterMap.mp h2
      obtain ⟨m, e⟩ := x
      cases e with
      | file fm fc => simp at hfx
      | dir ds =>
        by_cases hk : (lookup s (p ++ [m])).isSome
        · simp [hk] at hfx
        · simp [hk] at hfx
          subst hfx
          exact ⟨rfl, m, [], by simp [actPath]⟩
  refine ⟨hregion, ?_, ?_, ?_, ?_⟩
  · -- paths absent from source are pruned away
    intro n q hno
    rw [lookup_dir_eq_lookupO, hfind n]
    by_cases hk : (lookup s (p ++ [n])).isSome
    · rw [if_pos hk]
      cases hfc : findChild rcs n with
      | none => rfl
      | some e =>
        cases e with
        | file fm fc =>
          cases q with
          | nil =>
            rw [show p ++ [n] = p ++ n :: [] from rfl] at hk
            rw [hno] at hk
            cases hk
          | cons x rest => rfl
        | dir cs2 =>
          cases q with
          | nil =>
            rw [show p ++ [n] = p ++ n :: [] from rfl] at hk
            rw [hno] at hk
            cases hk
          | cons x rest =>
            have hmem : (n, FsEntry.dir cs2) ∈ rcs := findChild_mem hfc
            have hno2 : (lookup s ((p ++ [n]) ++ x :: rest)).isSome = false := by
              rw [← append_cons_eq]
              exact hno
            exact ((IH (sizeOf cs2) (hsize hmem)) cs2 s (p ++ [n])
              (le_refl _)).2.1 x rest hno2
    · rw [if_neg hk]
      rfl
  · -- source-backed paths are preserved
    intro n q hyes
    have hk : (lookup s (p ++ [n])).isSome = true := by
      rw [append_cons_eq] at hyes
      exact isSome_lookup_of_append hyes
    rw [lookup_dir_eq_lookupO, lookup_dir_eq_lookupO, hfind n, if_pos hk]
    cases hfc : findChild rcs n with
    | none => simp [lookupO, pruneMatch]
    | some e =>
      cases e with
      | file fm fc =>
        cases q with
        | nil => simp [lookupO, lookup, pruneChildEntry, pruneMatch]
        | cons x rest => simp [lookupO, lookup, pruneChildEntry, pruneMatch]
      | dir cs2 =>
        cases q with
        | nil => simp [lookupO, lookup, pruneChildEntry, pruneMatch]
        | cons x rest =>
          have hmem : (n, FsEntry.dir cs2) ∈ rcs := findChild_mem hfc
          have hyes2 : (lookup s ((p ++ [n]) ++ x :: rest)).isSome = true := by
            rw [← append_cons_eq]
            exact hyes
          have := ((IH (sizeOf cs2) (hsize hmem)) cs2 s (p ++ [n])
            (le_refl _)).2.2.1 x rest hyes2
          simp only [lookupO, pruneChildEntry]
          exact this
  · -- well-formedness is preserved
    intro hwf
    rw [hpt]
    refine wfL_filter _ ?_
    clear hpt hfind hregion
    induction rcs with
    | nil =>
      simp only [List.map_nil]
      exact wfNamesL_nil
    | cons x rest ih =>
      obtain ⟨m, e⟩ := x
      rw [wfL_cons] at hwf
      have hszrest : sizeOf rest ≤ N := by
        have h := List.cons.sizeOf_spec (m, e) rest
        omega
      have hrest := ih hszrest (fun hmem => hsize (List.mem_cons_of_mem _ hmem)) hwf.2.2
      rw [List.map_cons, wfL_cons]
      refine ⟨?_, ?_, hrest⟩
      · rw [show (pruneChild s p (m, e)).1 = m from rfl,
          show (List.map (pruneChild s p) rest) = rest.map (pruneChild s p) from rfl,
          namesFresh_map_pruneChild]
        exact hwf.1
      · cases e with
        | file fm fc => exact wfNames_file fm fc
        | dir cs2 =>
          have hmem : (m, FsEntry.dir cs2) ∈ (m, FsEntry.dir cs2) :: rest :=
            List.mem_cons_self _ _
          have hwfcs2 : wfNamesL cs2 = true := by
            have := hwf.2.1
            rwa [wfNames_dir] at this
          have := ((IH (sizeOf cs2) (hsize hmem)) cs2 s (p ++ [m])
            (le_refl _)).2.2.2.1 hwfcs2
          rw [show pruneChild s p (m, FsEntry.dir cs2)
            = (m, FsEntry.dir (pruneTree s (p ++ [m]) cs2).1) from rfl]
          rw [wfNames_dir]
          exact this
  · -- actions are pairwise ordered
    intro hwf
    rw [hpt]
    simp only
    have hfd : ∀ a ∈ (rcs.filterMap fun x =>
        match x.2 with
        | FsEntry.file _ _ =>
          if (lookup s (p ++ [x.1])).isSome then none
          else some (Action.deletedFile (p ++ [x.1]))
        | FsEntry.dir _ => none), ∃ nm, a = Action.deletedFile (p ++ [nm]) := by
      intro a ha
      obtain ⟨x, hx, hfx⟩ := List.mem_filterMap.mp ha
      obtain ⟨m, e⟩ := x
      cases e with
      | dir ds => simp at hfx
      | file fm fc =>
        by_cases hk : (lookup s (p ++ [m])).isSome
        · simp [hk] at hfx
        · simp [hk] at hfx
          exact ⟨m, hfx.symm⟩
    have hdd : ∀ a ∈ (rcs.filterMap fun x =>
        match x.2 with
        | FsEntry.dir _ =>
          if (lookup s (p ++ [x.1])).isSome then none
          else some (Action.deletedDir (p ++ [x.1]))
        | FsEntry.file _ _ => none), ∃ nm, a = Action.deletedDir (p ++ [nm]) := by
      intro a ha
      obtain ⟨x, hx, hfx⟩ := List.mem_filterMap.mp ha
      obtain ⟨m, e⟩ := x
      cases e with
      | file fm fc => simp at hfx
      | dir ds =>
        by_cases hk : (lookup s (p ++ [m])).isSome
        · simp [hk] at hfx
        · simp [hk] at hfx
          exact ⟨m, hfx.symm⟩
    have hsubfacts : ∀ a ∈ pruneSubsActs s p (dirsOf rcs),
        isDelete a = true ∧ ∃ nm, (∃ ds, (nm, FsEntry.dir ds) ∈ rcs)
          ∧ ∃ t, actPath a = (p ++ [nm]) ++ t ∧ t ≠ [] := by
      intro a ha
      obtain ⟨x, hx, hmem⟩ := mem_pruneSubsActs ha
      have hxm : (x.1, FsEntry.dir x.2) ∈ rcs := dirsOf_mem.mp (by
        rw [show x = (x.1, x.2) from rfl] at hx
        exact hx)
      obtain ⟨hdel, n', t', hpath⟩ :=
        ((IH (sizeOf x.2) (hsize hxm)) x.2 s (p ++ [x.1]) (le_refl _)).1 a hmem
      exact ⟨hdel, x.1, ⟨x.2, hxm⟩, n' :: t', hpath, by simp⟩
    have hsubpw : List.Pairwise orderedPair (pruneSubsActs s p (dirsOf rcs)) := by
      refine pruneSubsActs_pairwise s p (dirsOf rcs) (pairwise_keys_dirsOf hwf) ?_
      intro x hx
      have hxm : (x.1, FsEntry.dir x.2) ∈ rcs := dirsOf_mem.mp (by
        rw [show x = (x.1, x.2) from rfl] at hx
        exact hx)
      have hwfx : wfNamesL x.2 = true := by
        have := wf_of_mem hwf hxm
        rwa [wfNames_dir] at this
      have hm := (IH (sizeOf x.2) (hsize hxm)) x.2 s (p ++ [x.1]) (le_refl _)
      refine ⟨hm.2.2.2.2 hwfx, ?_⟩
      intro a ha
      obtain ⟨hdel, n', t', hpath⟩ := hm.1 a ha
      exact ⟨hdel, n' :: t', hpath, by simp⟩
    have hsubdel : ∀ a ∈ pruneSubsActs s p (dirsOf rcs),
        isDelete a = true ∧ (∀ pd, a = Action.deletedDir pd →
          (p.length + 2 ≤ pd.length)) := by
      intro a ha
      obtain ⟨hdel, nm, -, t, hpath, ht⟩ := hsubfacts a ha
      refine ⟨hdel, ?_⟩
      intro pd hpd
      have : actPath a = pd := by rw [hpd, actPath]
      rw [← this, hpath]
      cases t with
      | nil => exact absurd rfl ht
      | cons u us => simp
    rw [List.pairwise_append]
    refine ⟨hsubpw, ?_, ?_⟩
    · -- the two deletion sweeps of this root
      rw [List.pairwise_append]
      refine ⟨?_, ?_, ?_⟩
      · refine pairwise_of_mem _ ?_
        intro a ha b hb
        obtain ⟨nma, hae⟩ := hfd a ha
        obtain ⟨nmb, hbe⟩ := hfd b hb
        refine orderedPair_of_deletes (by rw [hbe]; rfl) ?_
        intro pd hpd
        rw [hae] at hpd
        cases hpd
      · refine pairwise_of_mem _ ?_
        intro a ha b hb
        obtain ⟨nma, hae⟩ := hdd a ha
        obtain ⟨nmb, hbe⟩ := hdd b hb
        refine orderedPair_of_deletes (by rw [hbe]; rfl) ?_
        intro pd hpd
        rintro ⟨-, hsb⟩
        rw [hae] at hpd
        injection hpd with hpd
        subst hpd
        have h1 := strictlyBelow_length hsb
        rw [hbe, actPath] at h1
        simp at h1
      · intro a ha b hb
        obtain ⟨nma, hae⟩ := hfd a ha
        obtain ⟨nmb, hbe⟩ := hdd b hb
        refine orderedPair_of_deletes (by rw [hbe]; rfl) ?_
        intro pd hpd
        rw [hae] at hpd
        cases hpd
    · -- subtree blocks precede this root's deletions
      intro a ha b hb
      obtain ⟨hadel, halen⟩ := hsubdel a ha
      have hbshape : isDelete b = true ∧ actPath b ∈
          ([] : List (List String)) ∨ True := Or.inr trivial
      have hbdel : isDelete b = true := by
        rcases List.mem_append.mp hb with h2 | h2
        · obtain ⟨nm, hbe⟩ := hfd b h2
          rw [hbe]
          rfl
        · obtain ⟨nm, hbe⟩ := hdd b h2
          rw [hbe]
          rfl
      have hblen : (actPath b).length = p.length + 1 := by
        rcases List.mem_append.mp hb with h2 | h2
        · obtain ⟨nm, hbe⟩ := hfd b h2
          rw [hbe, actPath]
          simp
        · obtain ⟨nm, hbe⟩ := hdd b h2
          rw [hbe, actPath]
          simp
      refine orderedPair_of_deletes hbdel ?_
      intro pd hpd
      rintro ⟨-, hsb⟩
      have h1 := halen pd hpd
      have h2 := strictlyBelow_length hsb
      omega

theorem lookupO_nil (o : Option FsEntry) : lookupO o [] = o := by
  cases o <;> rfl

theorem map_eq_self_of {α : Type} {f : α → α} :
    ∀ {l : List α}, (∀ x ∈ l, f x = x) → l.map f = l := by
  intro l
  induction l with
  | nil => intro _; rfl
  | cons x rest ih =>
    intro h
    rw [List.map_cons, h x (List.mem_cons_self _ _),
      ih fun y hy => h y (List.mem_cons_of_mem _ hy)]

theorem filter_eq_self_of {α : Type} {pred : α → Bool} :
    ∀ {l : List α}, (∀ x ∈ l, pred x = true) → l.filter pred = l := by
  intro l
  induction l with
  | nil => intro _; rfl
  | cons x rest ih =>
    intro h
    rw [List.filter_cons_of_pos (h x (List.mem_cons_self _ _)),
      ih fun y hy => h y (List.mem_cons_of_mem _ hy)]

theorem filterMap_eq_nil_of {α β : Type} {f : α → Option β} :
    ∀ {l : List α}, (∀ x ∈ l, f x = none) → l.filterMap f = [] := by
  intro l
  induction l with
  | nil => intro _; rfl
  | cons x rest ih =>
    intro h
    rw [List.filterMap_cons, h x (List.mem_cons_self _ _),
      ih fun y hy => h y (List.mem_cons_of_mem _ hy)]

theorem pruneSubsActs_nil_of {s : FsEntry} {p : List String} :
    ∀ {ds : List (String × List (String × FsEntry))},
      (∀ x ∈ ds, (pruneTree s (p ++ [x.1]) x.2).2 = []) →
      pruneSubsActs s p ds = [] := by
  intro ds
  induction ds with
  | nil => intro _; rfl
  | cons x rest ih =>
    intro h
    rw [pruneSubsActs, h x (List.mem_cons_self _ _),
      ih fun y hy => h y (List.mem_cons_of_mem _ hy)]
    rfl

/-- A prune walk over a replica whose every entry is source-backed deletes
nothing and leaves the listing unchanged. -/
theorem pruneTree_zero : ∀ N : Nat,
    ∀ (rcs : List (String × FsEntry)) (s : FsEntry) (p : List String),
    sizeOf rcs ≤ N → wfNamesL rcs = true →
    (∀ n q, (lookup (.dir rcs) (n :: q)).isSome = true →
        (lookup s (p ++ n :: q)).isSome = true) →
    pruneTree s p rcs = (rcs, []) := by
  intro N
  induction N using Nat.strong_induction_on with
  | _ N IH =>
  intro rcs s p hsz hwf hback
  have hsize : ∀ {n : String} {cs2 : List (String × FsEntry)},
      (n, FsEntry.dir cs2) ∈ rcs → sizeOf cs2 < N := by
    intro n cs2 hmem
    have h1 := List.sizeOf_lt_of_mem hmem
    have h2 := Prod.mk.sizeOf_spec n (FsEntry.dir cs2)
    have h3 : sizeOf (FsEntry.dir cs2) = 1 + sizeOf cs2 := by simp
    omega
  have hchildzero : ∀ {m : String} {cs2 : List (String × FsEntry)},
      (m, FsEntry.dir cs2) ∈ rcs → pruneTree s (p ++ [m]) cs2 = (cs2, []) := by
    intro m cs2 hmem
    have hfc := findChild_of_mem_wf hwf hmem
    have hwfcs2 : wfNamesL cs2 = true := by
      have := wf_of_mem hwf hmem
      rwa [wfNames_dir] at this
    refine IH (sizeOf cs2) (hsize hmem) cs2 s (p ++ [m]) (le_refl _) hwfcs2 ?_
    intro n q hs
    have h1 : (lookup (.dir rcs) (m :: n :: q)).isSome = true := by
      rw [lookup_dir_found hfc]
      exact hs
    have := hback m (n :: q) h1
    rwa [append_cons_eq] at this
  have hkeep : ∀ x ∈ rcs, (lookup s (p ++ [x.1])).isSome = true := by
    intro x hx
    have h1 : (lookup (.dir rcs) (x.1 :: [])).isSome = true := by
      rw [lookup_dir_eq_lookupO, lookupO_nil]
      exact findChild_isSome_of_mem hx
    have := hback x.1 [] h1
    rwa [show p ++ x.1 :: [] = p ++ [x.1] from rfl] at this
  have hmapid : rcs.map (pruneChild s p) = rcs := by
    refine map_eq_self_of ?_
    intro x hx
    obtain ⟨m, e⟩ := x
    cases e with
    | file fm fc => rfl
    | dir cs2 =>
      have := hchildzero hx
      simp [pruneChild, pruneChildEntry, this]
  have hacts : pruneSubsActs s p (dirsOf rcs) = [] := by
    refine pruneSubsActs_nil_of ?_
    intro x hx
    have hxm : (x.1, FsEntry.dir x.2) ∈ rcs := dirsOf_mem.mp (by
      rw [show x = (x.1, x.2) from rfl] at hx
      exact hx)
    rw [hchildzero hxm]
  have hfm1 : (rcs.filterMap fun x =>
      match x.2 with
      | FsEntry.file _ _ =>
        if (lookup s (p ++ [x.1])).isSome then none
        else some (Action.deletedFile (p ++ [x.1]))
      | FsEntry.dir _ => none) = [] := by
    refine filterMap_eq_nil_of ?_
    intro x hx
    obtain ⟨m, e⟩ := x
    cases e with
    | file fm fc => simp [hkeep (m, FsEntry.file fm fc) hx]
    | dir ds => rfl
  have hfm2 : (rcs.filterMap fun x =>
      match x.2 with
      | FsEntry.dir _ =>
        if (lookup s (p ++ [x.1])).isSome then none
        else some (Action.deletedDir (p ++ [x.1]))
      | FsEntry.file _ _ => none) = [] := by
    refine filterMap_eq_nil_of ?_
    intro x hx
    obtain ⟨m, e⟩ := x
    cases e with
    | file fm fc => rfl
    | dir ds => simp [hkeep (m, FsEntry.dir ds) hx]
  have hfilter : List.filter (fun x => (lookup s (p ++ [x.1])).isSome) rcs = rcs :=
    List.filter_eq_self.mpr hkeep
  simp only [pruneTree, pruneSubs_eq, hmapid, hacts, hfm1, hfm2, hfilter,
    List.append_nil, List.nil_append]

theorem propagate_zero : ∀ N : Nat,
    ∀ (cs : List (String × FsEntry)) (p : List String) (r : FsEntry),
    sizeOf cs ≤ N → wfNamesL cs = true →
    (∀ q sm sc, lookup (.dir cs) q = some (.file sm sc) →
        ∃ rm rc, lookup r q = some (.file rm rc) ∧ sm ≤ rm) →
    (∀ q cs2, lookup (.dir cs) q = some (.dir cs2) →
        (lookup r q).isSome = true
          ∧ (cs2 ≠ [] → ∃ ds, lookup r q = some (.dir ds))) →
    propagateDir p cs (some r) = .ok r [] := by
  intro N
  induction N using Nat.strong_induction_on with
  | _ N IH =>
  intro cs p r hsz hwf hyp1 hyp2
  cases r with
  | file m c =>
    have hcs : cs = [] := by
      by_contra hne
      obtain ⟨ds, hds⟩ := (hyp2 [] cs rfl).2 hne
      rw [lookup_nil] at hds
      cases hds
    subst hcs
    simp [propagateDir, filesOf, propagateSubs]
  | dir rcs =>
    have hsync : syncFiles p (filesOf cs) rcs [] = .ok rcs [] := by
      refine syncFiles_zero ?_
      intro x hx
      obtain ⟨n, sm, sc⟩ := x
      have hmem : (n, FsEntry.file sm sc) ∈ cs := filesOf_mem.mp hx
      have hfc : findChild cs n = some (.file sm sc) := findChild_of_mem_wf hwf hmem
      have hl : lookup (.dir cs) [n] = some (.file sm sc) := by
        rw [lookup_dir_found hfc, lookup_nil]
      obtain ⟨rm, rc, hr, hle⟩ := hyp1 [n] sm sc hl
      have hfr : findChild rcs n = some (.file rm rc) := by
        rw [lookup_dir_eq_lookupO, lookupO_nil] at hr
        exact hr
      exact ⟨rm, rc, hfr, hle⟩
    have hmain : ∀ l : List (String × FsEntry), (∀ x ∈ l, x ∈ cs) →
        propagateSubs p l (.dir rcs) [] = .ok (.dir rcs) [] := by
      intro l
      induction l with
      | nil => intro _; rw [propagateSubs]
      | cons x rest ihrest =>
        intro hsub
        obtain ⟨n, e⟩ := x
        cases e with
        | file m0 c0 =>
          have heq : propagateSubs p ((n, FsEntry.file m0 c0) :: rest) (.dir rcs) []
              = propagateSubs p rest (.dir rcs) [] := by
            simp only [propagateSubs]
          rw [heq]
          exact ihrest fun y hy => hsub y (List.mem_cons_of_mem _ hy)
        | dir cs2 =>
          have hmem : (n, FsEntry.dir cs2) ∈ cs := hsub _ (List.mem_cons_self _ _)
          have hfc : findChild cs n = some (.dir cs2) := findChild_of_mem_wf hwf hmem
          have hl : lookup (.dir cs) [n] = some (.dir cs2) := by
            rw [lookup_dir_found hfc, lookup_nil]
          have hlt : sizeOf cs2 < N := by
            have h1 := List.sizeOf_lt_of_mem hmem
            have h2 := Prod.mk.sizeOf_spec n (FsEntry.dir cs2)
            have h3 : sizeOf (FsEntry.dir cs2) = 1 + sizeOf cs2 := by simp
            omega
          have hsome : (lookup (.dir rcs) [n]).isSome = true := (hyp2 [n] cs2 hl).1
          cases hfr : findChild rcs n with
          | none =>
            rw [lookup_dir_eq_lookupO, hfr] at hsome
            simp [lookupO] at hsome
          | some re =>
            have hwf2 : wfNamesL cs2 = true := by
              have h := wf_of_mem hwf hmem
              rwa [wfNames_dir] at h
            have hyp1m : ∀ q sm sc, lookup (.dir cs2) q = some (.file sm sc) →
                ∃ rm rc, lookup re q = some (.file rm rc) ∧ sm ≤ rm := by
              intro q sm sc hq
              have hq2 : lookup (.dir cs) (n :: q) = some (.file sm sc) := by
                rw [lookup_dir_found hfc]; exact hq
              obtain ⟨rm, rc, hrr, hle⟩ := hyp1 (n :: q) sm sc hq2
              rw [lookup_dir_eq_lookupO, hfr] at hrr
              exact ⟨rm, rc, hrr, hle⟩
            have hyp2m : ∀ q ds2, lookup (.dir cs2) q = some (.dir ds2) →
                (lookup re q).isSome = true
                  ∧ (ds2 ≠ [] → ∃ ds, lookup re q = some (.dir ds)) := by
              intro q ds2 hq
              have hq2 : lookup (.dir cs) (n :: q) = some (.dir ds2) := by
                rw [lookup_dir_found hfc]; exact hq
              have h := hyp2 (n :: q) ds2 hq2
              rw [lookup_dir_eq_lookupO, hfr] at h
              exact h
            have hrec : propagateDir (p ++ [n]) cs2 (some re) = .ok re [] :=
              IH (sizeOf cs2) hlt cs2 (p ++ [n]) re (Nat.le_refl _) hwf2 hyp1m hyp2m
            have hset : setChild rcs n re = rcs := setChild_self hfr
            have heq : propagateSubs p ((n, FsEntry.dir cs2) :: rest) (.dir rcs) []
                = propagateSubs p rest (.dir rcs) [] := by
              simp only [propagateSubs, hfr, hrec, hset, List.nil_append]
            rw [heq]
            exact ihrest fun y hy => hsub y (List.mem_cons_of_mem _ hy)
    have hstep : propagateDir p cs (some (.dir rcs)) = propagateSubs p cs (.dir rcs) [] := by
      simp only [propagateDir, hsync]
    rw [hstep]
    exact hmain cs fun x hx => hx

theorem wfO_some_dir (rcs : List (String × FsEntry)) :
    wfO (some (.dir rcs)) = wfNamesL rcs := by
  rw [show wfO (some (.dir rcs)) = wfNames (.dir rcs) from rfl, wfNames_dir]

theorem staleOkL_find {cs rs : List (String × FsEntry)} {n : String}
    {e e2 : FsEntry} (h : staleOkL cs rs = true)
    (h1 : findChild cs n = some e) (h2 : findChild rs n = some e2) :
    staleOk e e2 = true := by
  induction cs with
  | nil => simp [findChild] at h1
  | cons x rest ih =>
    obtain ⟨m, e0⟩ := x
    rw [staleOkL, Bool.and_eq_true] at h
    by_cases hm : m = n
    · subst hm
      rw [findChild, if_pos rfl] at h1
      injection h1 with h1
      subst h1
      have h3 := h.1
      simp only [h2] at h3
      exact h3
    · rw [findChild, if_neg hm] at h1
      exact ih h.2 h1

theorem compatL_find {cs rs : List (String × FsEntry)} {n : String}
    {e e2 : FsEntry} (h : compatL cs rs = true)
    (h1 : findChild cs n = some e) (h2 : findChild rs n = some e2) :
    compat e e2 = true := by
  induction cs with
  | nil => simp [findChild] at h1
  | cons x rest ih =>
    obtain ⟨m, e0⟩ := x
    rw [compatL, Bool.and_eq_true] at h
    by_cases hm : m = n
    · subst hm
      rw [findChild, if_pos rfl] at h1
      injection h1 with h1
      subst h1
      have h3 := h.1
      simp only [h2] at h3
      exact h3
    · rw [findChild, if_neg hm] at h1
      exact ih h.2 h1

theorem staleOk_pathwise {s r : FsEntry} {q : List String} {sm rm : Nat}
    {sc rc : String} (h : staleOk s r = true)
    (hs : lookup s q = some (.file sm sc))
    (hr : lookup r q = some (.file rm rc)) (hle : sm ≤ rm) : rc = sc := by
  induction q generalizing s r with
  | nil =>
    rw [lookup_nil] at hs hr
    injection hs with hs
    injection hr with hr
    subst hs; subst hr
    rw [staleOk, if_pos hle] at h
    exact (eq_of_beq h).symm
  | cons n q2 ih =>
    cases s with
    | file m c => rw [lookup_file] at hs; cases hs
    | dir cs =>
      cases r with
      | file m c => rw [lookup_file] at hr; cases hr
      | dir rs =>
        cases hfc : findChild cs n with
        | none => rw [lookup_dir_none hfc] at hs; cases hs
        | some e =>
          cases hfr : findChild rs n with
          | none => rw [lookup_dir_none hfr] at hr; cases hr
          | some e2 =>
            rw [lookup_dir_found hfc] at hs
            rw [lookup_dir_found hfr] at hr
            have h3 : staleOkL cs rs = true := by rw [staleOk] at h; exact h
            exact ih (staleOkL_find h3 hfc hfr) hs hr

theorem compat_pathwise {s r : FsEntry} {q : List String} {es er : FsEntry}
    (h : compat s r = true) (hs : lookup s q = some es)
    (hr : lookup r q = some er) : compat es er = true := by
  induction q generalizing s r with
  | nil =>
    rw [lookup_nil] at hs hr
    injection hs with hs
    injection hr with hr
    subst hs; subst hr
    exact h
  | cons n q2 ih =>
    cases s with
    | file m c => rw [lookup_file] at hs; cases hs
    | dir cs =>
      cases r with
      | file m c => simp [compat] at h
      | dir rs =>
        cases hfc : findChild cs n with
        | none => rw [lookup_dir_none hfc] at hs; cases hs
        | some e =>
          cases hfr : findChild rs n with
          | none => rw [lookup_dir_none hfr] at hr; cases hr
          | some e2 =>
            rw [lookup_dir_found hfc] at hs
            rw [lookup_dir_found hfr] at hr
            have h3 : compatL cs rs = true := by rw [compat] at h; exact h
            exact ih (compatL_find h3 hfc hfr) hs hr

theorem pruneMatch_file {m : Nat} {c : String} {b : Option FsEntry}
    (h : pruneMatch (some (.file m c)) b) : b = some (.file m c) := by
  cases b with
  | none => exact (show False from h).elim
  | some e =>
    cases e with
    | file m2 c2 =>
      have h2 : m2 = m ∧ c2 = c := h
      rw [h2.1, h2.2]
    | dir ds => exact (show False from h).elim

theorem pruneMatch_dir {ds : List (String × FsEntry)} {b : Option FsEntry}
    (h : pruneMatch (some (.dir ds)) b) :
    ∃ ds2, b = some (.dir ds2) := by
  cases b with
  | none => exact (show False from h).elim
  | some e =>
    cases e with
    | file m2 c2 => exact (show False from h).elim
    | dir ds2 => exact ⟨ds2, rfl⟩

theorem propDirPost_root_dir {cs rcs : List (String × FsEntry)} {r1 : FsEntry}
    (h : propDirPost cs (some (.dir rcs)) r1) :
    ∃ ds, r1 = .dir ds := by
  have hb := (h.2.1 [] cs rfl).2.2
  rcases hb with h1 | ⟨ds, h1⟩
  · rw [lookup_nil] at h1
    simp only [lookupO, lookup_nil] at h1
    injection h1 with h1
    exact ⟨rcs, h1⟩
  · rw [lookup_nil] at h1
    injection h1 with h1
    exact ⟨ds, h1⟩

theorem pass_shape {cs rcs : List (String × FsEntry)} {r2 : FsEntry}
    {acts : List Action} (hwfs : wfNamesL cs = true)
    (hwfr : wfNamesL rcs = true)
    (hok : replicate_source (.dir cs) (.dir rcs) = .ok r2 acts) :
    ∃ rcsm res acts1 acts2,
      propagateDir [] cs (some (.dir rcs)) = .ok (.dir rcsm) acts1
      ∧ pruneTree (.dir cs) [] rcsm = (res, acts2)
      ∧ r2 = .dir res ∧ acts = acts1 ++ acts2
      ∧ propDirPost cs (some (.dir rcs)) (.dir rcsm)
      ∧ wfNamesL rcsm = true
      ∧ List.Pairwise orderedPair acts1 := by
  simp only [replicate_source, propagatePhase] at hok
  cases hpd : propagateDir [] cs (some (.dir rcs)) with
  | err e acts1 =>
    simp only [hpd] at hok
    cases hok
  | ok rmid acts1 =>
    simp only [hpd] at hok
    have hmaster := ((propagate_master (sizeOf cs)).1 cs [] (some (.dir rcs))
        (Nat.le_refl _)).2 rmid acts1 hpd hwfs
      (by rw [wfO_some_dir]; exact hwfr)
    obtain ⟨hpost, hpw⟩ := hmaster
    obtain ⟨dsm, hdsm⟩ := propDirPost_root_dir hpost
    subst hdsm
    cases hpt : pruneTree (.dir cs) [] dsm with
    | mk res acts2 =>
      have hpp : prunePhase (.dir cs) (.dir dsm) = (.dir res, acts2) := by
        simp only [prunePhase, hpt]
      rw [hpp] at hok
      injection hok with h1 h2
      refine ⟨dsm, res, acts1, acts2, rfl, hpt, h1.symm, h2.symm, hpost, ?_, hpw⟩
      have hw := hpost.1
      rwa [wfNames_dir] at hw

/-- C10: after the propagate phase of a pass (before pruning), every relative
path holding a regular file in both the source tree and the phase's replica
result has a replica modification time at least the source's: the
strictly-newer copy test of line 72 together with the mtime-preserving
`shutil.copy2` never leaves a replica file strictly older than its source
counterpart. -/
theorem c10_replica_not_older (cs : List (String × FsEntry)) (r r1 : FsEntry)
    (acts : List Action) (q : List String) (sm rm : Nat) (sc rc : String)
    (hwfs : wfNamesL cs = true) (hwfr : wfNames r = true)
    (hok : propagatePhase (.dir cs) r = .ok r1 acts)
    (hs : lookup (.dir cs) q = some (.file sm sc))
    (hr : lookup r1 q = some (.file rm rc)) : sm ≤ rm := by
  have hok2 : propagateDir [] cs (some r) = .ok r1 acts := by
    simpa only [propagatePhase] using hok
  have hm := ((propagate_master (sizeOf cs)).1 cs [] (some r) (Nat.le_refl _)).2
      r1 acts hok2 hwfs (show wfO (some r) = true from hwfr)
  obtain ⟨hpost, _⟩ := hm
  rcases hpost.2.2 q sm sc hs with h | ⟨rm2, rc2, hl2, hle, _⟩
  · rw [h] at hr
    injection hr with hr1
    injection hr1 with hm1 hc1
    omega
  · rw [hl2] at hr
    injection hr with hr1
    injection hr1 with hm1 hc1
    omega

theorem c10_witness : 5 ≤ 7 :=
  c10_replica_not_older [("a", FsEntry.file 5 "x")]
    (.dir [("a", FsEntry.file 7 "y")]) (.dir [("a", FsEntry.file 7 "y")])
    [] ["a"] 5 7 "x" "y" (by simp [wfNamesL, wfNames, namesFresh])
    (by simp [wfNames, wfNamesL, namesFresh])
    (by simp [propagatePhase, propagateDir, propagateSubs, syncFiles, syncFile,
      filesOf, findChild])
    (by simp [lookup, findChild]) (by simp [lookup, findChild])

/-- C2 amended: a completed pass on well-formed, kind-compatible trees is
idempotent: running `replicate_source` again on its own output with the
source unchanged performs no action at all (no create, update or delete,
hence no log or console output) and leaves the replica identical.  The
kind-compatibility hypothesis makes the claim's real exclusion explicit:
on a source file whose replica counterpart is a directory of the same name
the real pass completes (line 72 compares against the directory's
modification time and `shutil.copy2` copies into it) yet repeats an update
and a deletion on every subsequent pass — the timed counterexample below —
so unconditional idempotence is false of the program. -/
theorem c2_idempotent (cs rcs : List (String × FsEntry)) (r1 : FsEntry)
    (acts : List Action) (hwfs : wfNamesL cs = true)
    (hwfr : wfNamesL rcs = true)
    (hcompat : compat (.dir cs) (.dir rcs) = true)
    (hok : replicate_source (.dir cs) (.dir rcs) = .ok r1 acts) :
    replicate_source (.dir cs) r1 = .ok r1 [] := by
  obtain ⟨rcsm, res, acts1, acts2, hpd, hpt, hr1, hacts, hpost, hwfm, hpw⟩ :=
    pass_shape hwfs hwfr hok
  subst hr1
  obtain ⟨hreg, habsent, hmatch, hwfp, hpw2⟩ :=
    prune_master (sizeOf rcsm) rcsm (.dir cs) [] (Nat.le_refl _)
  simp only [hpt] at habsent hmatch hwfp
  have hpz : propagateDir [] cs (some (.dir res)) = .ok (.dir res) [] := by
    refine propagate_zero (sizeOf cs) cs [] (.dir res) (Nat.le_refl _) hwfs ?_ ?_
    · intro q sm sc hq
      cases q with
      | nil =>
        rw [lookup_nil] at hq
        injection hq with h
        cases h
      | cons n q2 =>
        have hps : (lookup (.dir cs) ([] ++ n :: q2)).isSome = true := by
          simp only [List.nil_append]
          rw [hq]
          rfl
        have hpmm := hmatch n q2 hps
        rcases hpost.2.2 (n :: q2) sm sc hq with h | ⟨rm, rc, h1, hle, _⟩
        · rw [h] at hpmm
          exact ⟨sm, sc, pruneMatch_file hpmm, Nat.le_refl _⟩
        · rw [h1] at hpmm
          exact ⟨rm, rc, pruneMatch_file hpmm, hle⟩
    · intro q cs2 hq
      cases q with
      | nil => exact ⟨rfl, fun _ => ⟨res, rfl⟩⟩
      | cons n q2 =>
        have hb := hpost.2.1 (n :: q2) cs2 hq
        have hps : (lookup (.dir cs) ([] ++ n :: q2)).isSome = true := by
          simp only [List.nil_append]
          rw [hq]
          rfl
        have hpmm := hmatch n q2 hps
        obtain ⟨hsome, hdir, _⟩ := hb
        constructor
        · cases hl : lookup (.dir rcsm) (n :: q2) with
          | none => rw [hl] at hsome; simp at hsome
          | some e =>
            rw [hl] at hpmm
            cases e with
            | file m c => rw [pruneMatch_file hpmm]; rfl
            | dir ds =>
              obtain ⟨ds2, h2⟩ := pruneMatch_dir hpmm
              rw [h2]
              rfl
        · intro hne
          obtain ⟨ds, hds⟩ := hdir hne
          rw [hds] at hpmm
          exact pruneMatch_dir hpmm
  have hptz : pruneTree (.dir cs) [] res = (res, []) := by
    refine pruneTree_zero (sizeOf res) res (.dir cs) [] (Nat.le_refl _)
      (hwfp hwfm) ?_
    intro n q hsome2
    cases hcase : (lookup (.dir cs) ([] ++ n :: q)).isSome with
    | true => rfl
    | false =>
      have hz := habsent n q hcase
      rw [hz] at hsome2
      cases hsome2
  simp only [replicate_source, propagatePhase, hpz, prunePhase, hptz,
    List.nil_append]

theorem c2_witness :
    replicate_source (.dir [("a", FsEntry.file 5 "x")])
        (.dir [("a", FsEntry.file 5 "x")])
      = .ok (.dir [("a", FsEntry.file 5 "x")]) [] :=
  c2_idempotent [("a", FsEntry.file 5 "x")] [] (.dir [("a", FsEntry.file 5 "x")])
    [Action.createdFile ["a"]]
    (by simp [wfNamesL, wfNames, namesFresh])
    (by simp [wfNamesL])
    (by simp [compat, compatL, findChild])
    (by simp [replicate_source, propagatePhase, prunePhase, propagateDir,
      propagateSubs, pruneTree, pruneSubs, syncFiles, syncFile,
      filesOf, findChild, setChild, lookup])

/-- C1 counterexample: with equal modification times but different contents
(source `a` mtime 5 content `x`, replica `a` mtime 5 content `y`), the pass
completes with zero actions and the replica keeps its stale content, so a
completed pass does not establish the equal-content correspondence the claim
asserts for every pair of trees. -/
theorem c1_counterexample :
    replicate_source (.dir [("a", FsEntry.file 5 "x")])
        (.dir [("a", FsEntry.file 5 "y")])
      = .ok (.dir [("a", FsEntry.file 5 "y")]) []
    ∧ ¬ Corresponds (.dir [("a", FsEntry.file 5 "x")])
        (.dir [("a", FsEntry.file 5 "y")]) := by
  constructor
  · simp [replicate_source, propagatePhase, prunePhase, propagateDir,
      propagateSubs, pruneTree, pruneSubs, syncFiles, syncFile,
      filesOf, findChild, setChild, lookup]
  · intro h
    have h2 := h ["a"]
    rw [show lookup (.dir [("a", FsEntry.file 5 "x")]) ["a"]
        = some (FsEntry.file 5 "x") by simp [lookup, findChild]] at h2
    rw [show lookup (.dir [("a", FsEntry.file 5 "y")]) ["a"]
        = some (FsEntry.file 5 "y") by simp [lookup, findChild]] at h2
    have h3 : ("y" : String) = "x" := h2
    exact absurd h3 (by decide)

/-- C1 amended: the correspondence invariant holds after a completed pass
provided the trees are well-formed, kind-compatible, and the replica is
stale only where the source is strictly newer: at every relative path the
source and the pass's output hold entries of the same kind, with equal file
contents.  (Without the `staleOk` hypothesis an equal-mtime replica file
keeps different content; without `compat` a kind conflict aborts the pass or
survives it at an empty source directory.) -/
theorem c1_correspondence (cs rcs : List (String × FsEntry)) (r2 : FsEntry)
    (acts : List Action) (hwfs : wfNamesL cs = true)
    (hwfr : wfNamesL rcs = true)
    (hcompat : compat (.dir cs) (.dir rcs) = true)
    (hstale : staleOk (.dir cs) (.dir rcs) = true)
    (hok : replicate_source (.dir cs) (.dir rcs) = .ok r2 acts) :
    Corresponds (.dir cs) r2 := by
  obtain ⟨rcsm, res, acts1, acts2, hpd, hpt, hr2, hacts, hpost, hwfm, hpw⟩ :=
    pass_shape hwfs hwfr hok
  subst hr2
  obtain ⟨hreg, habsent, hmatch, hwfp, hpw2⟩ :=
    prune_master (sizeOf rcsm) rcsm (.dir cs) [] (Nat.le_refl _)
  simp only [hpt] at habsent hmatch
  intro q
  cases hsq : lookup (.dir cs) q with
  | none =>
    cases q with
    | nil => rw [lookup_nil] at hsq; cases hsq
    | cons n q2 =>
      have hz := habsent n q2 (by simp only [List.nil_append]; rw [hsq]; rfl)
      rw [hz]
      exact True.intro
  | some es =>
    cases es with
    | file sm sc =>
      cases q with
      | nil =>
        rw [lookup_nil] at hsq
        injection hsq with h
        cases h
      | cons n q2 =>
        have hps : (lookup (.dir cs) ([] ++ n :: q2)).isSome = true := by
          simp only [List.nil_append]; rw [hsq]; rfl
        have hpmm := hmatch n q2 hps
        rcases hpost.2.2 (n :: q2) sm sc hsq with h | ⟨rm, rc, h1, hle, h2⟩
        · rw [h] at hpmm
          rw [pruneMatch_file hpmm]
          exact rfl
        · have h2b : lookup (.dir rcs) (n :: q2) = some (.file rm rc) := h2
          have hrc : rc = sc := staleOk_pathwise hstale hsq h2b hle
          subst hrc
          rw [h1] at hpmm
          rw [pruneMatch_file hpmm]
          exact rfl
    | dir cs2 =>
      cases q with
      | nil =>
        rw [lookup_nil]
        exact True.intro
      | cons n q2 =>
        have hps : (lookup (.dir cs) ([] ++ n :: q2)).isSome = true := by
          simp only [List.nil_append]; rw [hsq]; rfl
        have hpmm := hmatch n q2 hps
        obtain ⟨hsome, hdirne, hthird⟩ := hpost.2.1 (n :: q2) cs2 hsq
        have hdirm : ∃ ds, lookup (.dir rcsm) (n :: q2) = some (.dir ds) := by
          by_cases hne : cs2 = []
          · rcases hthird with h1 | h1
            · have h1b : lookup (.dir rcsm) (n :: q2)
                  = lookup (.dir rcs) (n :: q2) := h1
              cases hl : lookup (.dir rcs) (n :: q2) with
              | none => rw [h1b, hl] at hsome; simp at hsome
              | some e =>
                have hce := compat_pathwise hcompat hsq hl
                cases e with
                | file m c => simp [compat] at hce
                | dir ds => exact ⟨ds, by rw [h1b, hl]⟩
            · exact h1
          · exact hdirne hne
        obtain ⟨ds, hds⟩ := hdirm
        rw [hds] at hpmm
        obtain ⟨ds2, hds2⟩ := pruneMatch_dir hpmm
        rw [hds2]
        exact True.intro

/-- C1 amended witness: creating the missing file `a` brings an empty replica
into exact correspondence with the source. -/
theorem c1_witness :
    Corresponds (.dir [("a", FsEntry.file 5 "x")])
      (.dir [("a", FsEntry.file 5 "x")]) :=
  c1_correspondence [("a", FsEntry.file 5 "x")] []
    (.dir [("a", FsEntry.file 5 "x")]) [Action.createdFile ["a"]]
    (by simp [wfNamesL, wfNames, namesFresh])
    (by simp [wfNamesL])
    (by simp [compat, compatL, findChild])
    (by simp [staleOk, staleOkL, findChild])
    (by simp [replicate_source, propagatePhase, prunePhase, propagateDir,
      propagateSubs, pruneTree, pruneSubs, syncFiles, syncFile,
      filesOf, findChild, setChild, lookup])

/-- C4: the actions of a completed pass are pairwise ordered as claimed:
the creation of a replica directory precedes every file creation or update
strictly below it, nested directory creations are emitted top-down, and a
directory deletion follows every deletion strictly below it (so a file under
a pruned directory is deleted before its parent directory). -/
theorem c4_ordering (cs rcs : List (String × FsEntry)) (r1 : FsEntry)
    (acts : List Action) (hwfs : wfNamesL cs = true)
    (hwfr : wfNamesL rcs = true)
    (hok : replicate_source (.dir cs) (.dir rcs) = .ok r1 acts) :
    List.Pairwise orderedPair acts := by
  obtain ⟨rcsm, res, acts1, acts2, hpd, hpt, hr1, hacts, hpost, hwfm, hpw⟩ :=
    pass_shape hwfs hwfr hok
  subst hacts
  obtain ⟨hreg, habsent, hmatch, hwfp, hpw2⟩ :=
    prune_master (sizeOf rcsm) rcsm (.dir cs) [] (Nat.le_refl _)
  rw [List.pairwise_append]
  refine ⟨hpw, ?_, ?_⟩
  · have h2 := hpw2 hwfm
    rw [hpt] at h2
    simpa using h2
  · intro a ha b hb
    have hra := ((propagate_master (sizeOf cs)).1 cs [] (some (.dir rcs))
        (Nat.le_refl _)).1 a (by rw [hpd]; exact ha)
    have hrb := hreg b (by rw [hpt]; exact hb)
    exact orderedPair_cross hra.1 hrb.1

/-- C4 witness: a pass creating directory `d`, creating file `d/f` and
deleting the replica-only file `g` emits its actions in that pairwise
order. -/
theorem c4_witness :
    List.Pairwise orderedPair
      [Action.createdDir ["d"], Action.createdFile ["d", "f"],
       Action.deletedFile ["g"]] :=
  c4_ordering [("d", FsEntry.dir [("f", FsEntry.file 3 "x")])]
    [("g", FsEntry.file 1 "y")]
    (.dir [("d", FsEntry.dir [("f", FsEntry.file 3 "x")])])
    [Action.createdDir ["d"], Action.createdFile ["d", "f"],
     Action.deletedFile ["g"]]
    (by simp [wfNamesL, wfNames, namesFresh])
    (by simp [wfNamesL, wfNames, namesFresh])
    (by simp [replicate_source, propagatePhase, prunePhase, propagateDir,
      propagateSubs, pruneTree, pruneSubs, syncFiles, syncFile,
      filesOf, findChild, setChild, lookup])

/-- C3: during the propagate phase, a file present in both trees (the
replica holds a regular file of the walked name) is overwritten with the
source's content and modification time, emitting `Updated file`, if and
only if the source modification time is strictly greater than the
replica's; with equal modification times no copy happens and no action is
emitted.  `syncFileT` is the timed body of the `for file in files` loop
(lines 63-75) that the propagate phase runs on every walked file. -/
theorem c3_update_iff_strictly_newer (now : Nat) (p : List String)
    (n : String) (sm rm : Nat) (sc rc : String)
    (rcs : List (String × FsEntryT))
    (h : findChildT rcs n = some (.file rm rc)) :
    (syncFileT now p n sm sc rcs
        = .ok (setChildT rcs n (.file sm sc), [Action.updatedFile (p ++ [n])])
      ↔ rm < sm)
    ∧ (sm = rm → syncFileT now p n sm sc rcs = .ok (rcs, [])) := by
  constructor
  · constructor
    · intro heq
      by_contra hlt
      simp only [syncFileT, h, if_neg (show ¬ sm > rm by omega)] at heq
      injection heq with h1
      injection h1 with h1a h1b
      cases h1b
    · intro hlt
      simp only [syncFileT, h, if_pos (show sm > rm from hlt)]
  · intro heq
    simp only [syncFileT, h, if_neg (show ¬ sm > rm by omega)]

theorem c3_witness :
    (syncFileT 0 [] "a" 5 "x" [("a", FsEntryT.file 5 "y")]
        = .ok (setChildT [("a", FsEntryT.file 5 "y")] "a" (FsEntryT.file 5 "x"),
               [Action.updatedFile ["a"]])
      ↔ 5 < 5)
    ∧ (5 = 5 → syncFileT 0 [] "a" 5 "x" [("a", FsEntryT.file 5 "y")]
        = .ok ([("a", FsEntryT.file 5 "y")], [])) :=
  c3_update_iff_strictly_newer 0 [] "a" 5 5 "x" "y"
    [("a", FsEntryT.file 5 "y")] rfl

/-- C2 counterexample: the unconditional idempotence claim is false of the
program.  With a source file `f` carrying a (future) modification time 100
and the replica holding a *directory* named `f` (modification time 0), a
pass completes: line 72 compares 100 against the directory's modification
time, `shutil.copy2` copies `f` into the directory (logged `Updated file`),
and the prune phase then deletes the copied `f/f` (no such path exists
under source).  Running the pass again with the source unchanged (pass
clock 20) repeats both actions instead of performing none. -/
theorem c2_counterexample :
    replicate_sourceT 10 (.dir 0 [("f", FsEntryT.file 100 "c")])
        (.dir 0 [("f", FsEntryT.dir 0 [])])
      = .ok (.dir 0 [("f", FsEntryT.dir 10 [])])
          [Action.updatedFile ["f"], Action.deletedFile ["f", "f"]]
    ∧ replicate_sourceT 20 (.dir 0 [("f", FsEntryT.file 100 "c")])
        (.dir 0 [("f", FsEntryT.dir 10 [])])
      = .ok (.dir 0 [("f", FsEntryT.dir 20 [])])
          [Action.updatedFile ["f"], Action.deletedFile ["f", "f"]] := by
  constructor <;>
    simp [replicate_sourceT, propagatePhaseT, prunePhaseT, propagateDirT,
      propagateSubsT, pruneTreeT, pruneSubsT, syncFilesT, syncFileT,
      filesOfT, findChildT, setChildT, lookupT]

/-- C9: the string-prefix rewriting of line 58 is genuinely fragile.  With
source root `/s/` (a trailing separator is legal in the configured path),
replica root `/r`, and walked relative part `x/s/y` — whose text contains
the source root string — the walked path is `/s/x/s/y` (`os.path.join`
inserts no separator after `/s/`), and `"/s/x/s/y".replace("/s/", "/r", 1)`
yields `/rx/s/y`, not the join `/r/x/s/y` of the replica root with the
relative part: the pass then targets a path outside the replica root. -/
theorem c9_fragile : ClaimC9 :=
  ⟨("/s/").data, ("/r").data, ["x", "s", "y"], by decide, by decide⟩

theorem validNames_file (m : Nat) (c : String) :
    validNames (.file m c) = true := by rw [validNames]

theorem validNames_dir (cs : List (String × FsEntry)) :
    validNames (.dir cs) = validNamesL cs := by rw [validNames]

theorem validNamesL_nil : validNamesL ([] : List (String × FsEntry)) = true := by
  rw [validNamesL]

theorem validL_cons {n : String} {e : FsEntry}
    {rest : List (String × FsEntry)} :
    validNamesL ((n, e) :: rest) = true
      ↔ validName n = true ∧ validNames e = true ∧ validNamesL rest = true := by
  rw [validNamesL]
  simp [Bool.and_assoc]

theorem valid_of_mem {cs : List (String × FsEntry)} {n : String} {e : FsEntry}
    (hv : validNamesL cs = true) (h : (n, e) ∈ cs) :
    validName n = true ∧ validNames e = true := by
  induction cs with
  | nil => simp at h
  | cons x rest ih =>
    obtain ⟨m, e0⟩ := x
    rw [validL_cons] at hv
    rcases List.mem_cons.mp h with h1 | h1
    · injection h1 with h1a h1b
      subst h1a; subst h1b
      exact ⟨hv.1, hv.2.1⟩
    · exact ih hv.2.2 h1

theorem validL_setChild {cs : List (String × FsEntry)} {n : String}
    {e : FsEntry} (hv : validNamesL cs = true) (hn : validName n = true)
    (he : validNames e = true) : validNamesL (setChild cs n e) = true := by
  induction cs with
  | nil =>
    rw [setChild, validL_cons]
    exact ⟨hn, he, validNamesL_nil⟩
  | cons x rest ih =>
    obtain ⟨m, e0⟩ := x
    rw [validL_cons] at hv
    by_cases hm : m = n
    · subst hm
      rw [setChild, if_pos rfl, validL_cons]
      exact ⟨hv.1, he, hv.2.2⟩
    · rw [setChild, if_neg hm, validL_cons]
      exact ⟨hv.1, hv.2.1, ih hv.2.2⟩

theorem pathValid_append {p : List String} {n : String} :
    pathValid (p ++ [n]) = true
      ↔ pathValid p = true ∧ validName n = true := by
  simp [pathValid]

theorem validO_some_dir (rcs : List (String × FsEntry)) :
    validO (some (.dir rcs)) = validNamesL rcs := by
  rw [show validO (some (.dir rcs)) = validNames (.dir rcs) from rfl,
    validNames_dir]

theorem validName_spec {n : String} (h : validName n = true) :
    n.data ≠ [] ∧ n.data.contains '/' = false := by
  rw [validName, Bool.and_eq_true] at h
  constructor
  · intro hnil
    have h1 := h.1
    rw [hnil] at h1
    simp at h1
  · cases hc : n.data.contains '/'
    · rfl
    · have h2 := h.2
      rw [hc] at h2
      simp at h2

theorem getLast?_ne_slash {n : String} (h : validName n = true) :
    n.data.getLast? ≠ some '/' := by
  obtain ⟨hne, hcon⟩ := validName_spec h
  intro hlast
  have hm : '/' ∈ n.data := List.mem_of_mem_getLast? hlast
  have h2 : n.data.contains '/' = true := List.elem_eq_true_of_mem hm
  rw [hcon] at h2
  cases h2

theorem lastIsSlash_append_name {root : List Char} {n : String}
    (hn : validName n = true) :
    lastIsSlash (root ++ '/' :: n.data) = false := by
  obtain ⟨hne, -⟩ := validName_spec hn
  have hgl : (root ++ '/' :: n.data).getLast? = n.data.getLast? := by
    rw [List.getLast?_append]
    cases hd : n.data with
    | nil => exact absurd hd hne
    | cons c t =>
      rw [show ('/' :: c :: t).getLast? = (c :: t).getLast? by
        rw [List.getLast?_cons_cons]]
      cases hglt : (c :: t).getLast? with
      | none => simp at hglt
      | some a => simp [Option.or]
  rw [lastIsSlash, hgl]
  cases hgl2 : n.data.getLast? with
  | none => rfl
  | some a =>
    have hna := getLast?_ne_slash hn
    rw [hgl2] at hna
    have : ¬ a = '/' := fun hh => hna (by rw [hh])
    simp [this]

theorem pjoin_eq {root : List Char} {n : String}
    (h1 : lastIsSlash root = false) (h2 : root ≠ [])
    (hn : validName n = true) :
    pjoin root n.data = root ++ '/' :: n.data := by
  rw [pjoin, if_neg (by simpa using h2), if_neg (by rw [h1]; intro h; cases h)]

theorem absJoin_eq : ∀ (q : List String) (root : List Char),
    lastIsSlash root = false → root ≠ [] → pathValid q = true →
    absJoin root q = root ++ relChars q
      ∧ lastIsSlash (root ++ relChars q) = false
      ∧ root ++ relChars q ≠ [] := by
  intro q
  induction q with
  | nil =>
    intro root h1 h2 _
    rw [show relChars [] = [] from rfl, List.append_nil]
    exact ⟨rfl, h1, h2⟩
  | cons n rest ih =>
    intro root h1 h2 hq
    have hsplit : validName n = true ∧ pathValid rest = true := by
      rw [pathValid] at hq
      simp [List.all_cons] at hq
      exact ⟨hq.1, by rw [pathValid]; simpa using hq.2⟩
    have hpj : pjoin root n.data = root ++ '/' :: n.data :=
      pjoin_eq h1 h2 hsplit.1
    have hroot2 : lastIsSlash (root ++ '/' :: n.data) = false :=
      lastIsSlash_append_name hsplit.1
    have hroot2ne : root ++ '/' :: n.data ≠ [] := by simp
    have hih := ih (root ++ '/' :: n.data) hroot2 hroot2ne hsplit.2
    have hrel : root ++ relChars (n :: rest)
        = (root ++ '/' :: n.data) ++ relChars rest := by
      rw [show relChars (n :: rest) = '/' :: (n.data ++ relChars rest) from rfl]
      simp
    refine ⟨?_, ?_, ?_⟩
    · rw [show absJoin root (n :: rest) = absJoin (pjoin root n.data) rest
        from rfl, hpj, hih.1, hrel]
    · rw [hrel]; exact hih.2.1
    · rw [hrel]; exact hih.2.2

theorem replaceFirst_absJoin {src : List Char} {rel : List String}
    (h1 : lastIsSlash src = false) (h2 : src ≠ [])
    (hq : pathValid rel = true) (rep : List Char) :
    replaceFirst (absJoin src rel) src rep = rep ++ relChars rel := by
  rw [(absJoin_eq rel src h1 h2 hq).1]
  exact replaceFirst_append src (relChars rel) rep

theorem stripSlashes_eq {root : List Char} (h : lastIsSlash root = false) :
    stripSlashes root = root := by
  rw [stripSlashes]
  cases hrev : root.reverse with
  | nil =>
    have : root = [] := by simpa using congrArg List.reverse hrev
    simp [this]
  | cons c t =>
    have hgl : root.getLast? = some c := by
      rw [List.getLast?_eq_head?_reverse, hrev]
      rfl
    have hc : (c == '/') = false := by
      rw [lastIsSlash, hgl] at h
      simpa using h
    rw [List.dropWhile_cons, hc]
    simp only [Bool.false_eq_true, if_false]
    rw [← hrev, List.reverse_reverse]

theorem underRoot_eq {root : List Char} (h : lastIsSlash root = false)
    (q : List Char) :
    underRoot root q = ((root ++ ['/']).isPrefixOf q) := by
  rw [underRoot, stripSlashes_eq h]

theorem actAbsPath_join {src rep : List Char} {a : Action}
    (hs1 : lastIsSlash src = false) (hs2 : src ≠ [])
    (hr1 : lastIsSlash rep = false) (hr2 : rep ≠ [])
    (hv : pathValid (actPath a) = true) (hne : actPath a ≠ []) :
    actAbsPath src rep a = rep ++ relChars (actPath a) := by
  cases a with
  | createdDir p =>
    show replaceFirst (absJoin src p) src rep = rep ++ relChars p
    exact replaceFirst_absJoin hs1 hs2 hv rep
  | createdFile p =>
    rcases List.eq_nil_or_concat p with rfl | ⟨q, n, rfl⟩
    · exact absurd rfl hne
    · simp only [actPath, List.concat_eq_append] at hv
      simp only [List.concat_eq_append]
      show pjoin (replaceFirst (absJoin src (q ++ [n]).dropLast) src rep)
          ((q ++ [n]).getLastD "").data = rep ++ relChars (q ++ [n])
      obtain ⟨hq, hn⟩ := pathValid_append.mp hv
      rw [List.dropLast_concat, List.getLastD_concat,
        replaceFirst_absJoin hs1 hs2 hq rep]
      have hall := absJoin_eq q rep hr1 hr2 hq
      rw [pjoin, if_neg (by simpa using hall.2.2),
        if_neg (by rw [hall.2.1]; intro h; cases h)]
      rw [relChars_append]
      simp
  | updatedFile p =>
    rcases List.eq_nil_or_concat p with rfl | ⟨q, n, rfl⟩
    · exact absurd rfl hne
    · simp only [actPath, List.concat_eq_append] at hv
      simp only [List.concat_eq_append]
      show pjoin (replaceFirst (absJoin src (q ++ [n]).dropLast) src rep)
          ((q ++ [n]).getLastD "").data = rep ++ relChars (q ++ [n])
      obtain ⟨hq, hn⟩ := pathValid_append.mp hv
      rw [List.dropLast_concat, List.getLastD_concat,
        replaceFirst_absJoin hs1 hs2 hq rep]
      have hall := absJoin_eq q rep hr1 hr2 hq
      rw [pjoin, if_neg (by simpa using hall.2.2),
        if_neg (by rw [hall.2.1]; intro h; cases h)]
      rw [relChars_append]
      simp
  | deletedFile p =>
    show absJoin rep p = rep ++ relChars p
    exact (absJoin_eq p rep hr1 hr2 hv).1
  | deletedDir p =>
    show absJoin rep p = rep ++ relChars p
    exact (absJoin_eq p rep hr1 hr2 hv).1

theorem underRoot_join {root : List Char} (h1 : lastIsSlash root = false)
    {q : List String} (h : q ≠ []) :
    underRoot root (root ++ relChars q) = true := by
  rw [underRoot_eq h1]
  cases q with
  | nil => exact absurd rfl h
  | cons n rest =>
    rw [show relChars (n :: rest) = '/' :: (n.data ++ relChars rest) from rfl,
      show root ++ '/' :: (n.data ++ relChars rest)
        = (root ++ ['/']) ++ (n.data ++ relChars rest) by simp]
    exact isPrefixOf_self_append _ _

theorem notUnder_of_disjoint (src rep : List Char) (q : List String)
    (hs : lastIsSlash src = false) (hr : lastIsSlash rep = false)
    (h1 : underRoot src rep = false) (h2 : underRoot rep src = false)
    (hne : src ≠ rep) :
    underRoot src (rep ++ relChars q) = false := by
  rw [underRoot_eq hs] at h1 ⊢
  rw [underRoot_eq hr] at h2
  cases hq : (src ++ ['/']).isPrefixOf (rep ++ relChars q) with
  | false => rfl
  | true =>
    exfalso
    have hb : below (src ++ ['/']) (rep ++ relChars q) :=
      isPrefixOf_iff_below.mp hq
    have hbr : below rep (rep ++ relChars q) := below_append _ _
    rcases below_comparable hb hbr with hc | hc
    · have ht : ((src ++ ['/']).isPrefixOf rep) = true :=
        isPrefixOf_iff_below.mpr hc
      rw [h1] at ht
      cases ht
    · rcases Nat.lt_or_ge rep.length (src ++ ['/']).length with hl | hl
      · have hlen : rep.length ≤ src.length := by
          simp only [List.length_append, List.length_cons,
            List.length_nil] at hl
          omega
        have hbs : below rep src :=
          below_of_below_of_length hc (below_append src ['/']) hlen
        obtain ⟨t, hts⟩ := hbs
        cases t with
        | nil =>
          rw [List.append_nil] at hts
          exact hne hts
        | cons c t2 =>
          obtain ⟨u, hu⟩ := hb
          rw [hts, List.append_assoc, List.append_assoc] at hu
          have hcc := List.append_cancel_left hu
          cases q with
          | nil => simp [relChars] at hcc
          | cons n rest =>
            rw [show relChars (n :: rest)
                = '/' :: (n.data ++ relChars rest) from rfl] at hcc
            rw [List.cons_append, List.cons_append] at hcc
            injection hcc with hc1 hc2
            have ht : ((rep ++ ['/']).isPrefixOf src) = true := by
              apply isPrefixOf_iff_below.mpr
              refine ⟨t2, ?_⟩
              rw [hts, hc1]
              simp
            rw [h2] at ht
            cases ht
      · have hll : rep.length = (src ++ ['/']).length :=
          Nat.le_antisymm (below_length hc) hl
        have heq : rep = src ++ ['/'] := below_eq_of_length hc hll
        have ht : ((src ++ ['/']).isPrefixOf rep) = true := by
          rw [heq]
          exact isPrefixOf_iff_below.mpr (below_refl _)
        rw [h1] at ht
        cases ht

theorem validO_findChild {rcs : List (String × FsEntry)} {n : String}
    (h : validNamesL rcs = true) : validO (findChild rcs n) = true := by
  cases hfc : findChild rcs n with
  | none => rfl
  | some e => exact (valid_of_mem h (findChild_mem hfc)).2

theorem syncFiles_names {p : List String} :
    ∀ (fs : List (String × Nat × String)) (rcs : List (String × FsEntry))
      (acc : List Action),
    (∀ a ∈ acc, pathValid (actPath a) = true) →
    (∀ x ∈ fs, validName x.1 = true) → pathValid p = true →
    ∀ a ∈ (syncFiles p fs rcs acc).actions, pathValid (actPath a) = true := by
  intro fs
  induction fs with
  | nil =>
    intro rcs acc hacc hfs hp a ha
    rw [syncFiles] at ha
    exact hacc a ha
  | cons f rest ih =>
    intro rcs acc hacc hfs hp a ha
    obtain ⟨n0, sm0, sc0⟩ := f
    cases hsf : syncFile p n0 sm0 sc0 rcs with
    | error e =>
      simp only [syncFiles, hsf] at ha
      exact hacc a ha
    | ok v =>
      obtain ⟨rcs2, as⟩ := v
      simp only [syncFiles, hsf] at ha
      have has : ∀ b ∈ as, pathValid (actPath b) = true := by
        have hn0 : validName n0 = true := hfs (n0, sm0, sc0) (List.mem_cons_self _ _)
        have hpv : pathValid (p ++ [n0]) = true := pathValid_append.mpr ⟨hp, hn0⟩
        cases hfc : findChild rcs n0 with
        | none =>
          simp only [syncFile, hfc] at hsf
          injection hsf with hv2
          injection hv2 with hva hvb
          rw [← hvb]
          intro b hb
          rw [List.mem_singleton] at hb
          subst hb
          exact hpv
        | some e2 =>
          cases e2 with
          | file rm rc =>
            simp only [syncFile, hfc] at hsf
            by_cases hlt : sm0 > rm
            · rw [if_pos hlt] at hsf
              injection hsf with hv2
              injection hv2 with hva hvb
              rw [← hvb]
              intro b hb
              rw [List.mem_singleton] at hb
              subst hb
              exact hpv
            · rw [if_neg hlt] at hsf
              injection hsf with hv2
              injection hv2 with hva hvb
              rw [← hvb]
              intro b hb
              simp at hb
          | dir ds =>
            simp only [syncFile, hfc] at hsf
            cases hsf
      refine ih rcs2 (acc ++ as) ?_ (fun x hx => hfs x (List.mem_cons_of_mem _ hx)) hp a ha
      intro b hb
      rcases List.mem_append.mp hb with h1 | h1
      · exact hacc b h1
      · exact has b h1

theorem syncFiles_valid {p : List String} :
    ∀ (fs : List (String × Nat × String)) (rcs : List (String × FsEntry))
      (acc : List Action) (rcs1 : List (String × FsEntry)) (acts : List Action),
    syncFiles p fs rcs acc = .ok rcs1 acts →
    (∀ x ∈ fs, validName x.1 = true) →
    validNamesL rcs = true → validNamesL rcs1 = true := by
  intro fs
  induction fs with
  | nil =>
    intro rcs acc rcs1 acts hok hfs hv
    rw [syncFiles] at hok
    injection hok with h1 h2
    rw [← h1]
    exact hv
  | cons f rest ih =>
    intro rcs acc rcs1 acts hok hfs hv
    obtain ⟨n0, sm0, sc0⟩ := f
    cases hsf : syncFile p n0 sm0 sc0 rcs with
    | error e =>
      simp only [syncFiles, hsf] at hok
      cases hok
    | ok v =>
      obtain ⟨rcs2, as⟩ := v
      simp only [syncFiles, hsf] at hok
      have hrcs2 : validNamesL rcs2 = true := by
        cases hfc : findChild rcs n0 with
        | none =>
          simp only [syncFile, hfc] at hsf
          injection hsf with hv2
          injection hv2 with hva hvb
          rw [← hva]
          exact validL_setChild hv (hfs (n0, sm0, sc0) (List.mem_cons_self _ _))
            (validNames_file _ _)
        | some e2 =>
          cases e2 with
          | file rm rc =>
            simp only [syncFile, hfc] at hsf
            by_cases hlt : sm0 > rm
            · rw [if_pos hlt] at hsf
              injection hsf with hv2
              injection hv2 with hva hvb
              rw [← hva]
              exact validL_setChild hv
                (hfs (n0, sm0, sc0) (List.mem_cons_self _ _))
                (validNames_file _ _)
            · rw [if_neg hlt] at hsf
              injection hsf with hv2
              injection hv2 with hva hvb
              rw [← hva]
              exact hv
          | dir ds =>
            simp only [syncFile, hfc] at hsf
            cases hsf
      exact ih rcs2 (acc ++ as) rcs1 acts hok
        (fun x hx => hfs x (List.mem_cons_of_mem _ hx)) hrcs2

theorem names_master : ∀ N : Nat,
    (∀ (cs : List (String × FsEntry)) (p : List String) (ro : Option FsEntry),
      sizeOf cs ≤ N →
      (validNamesL cs = true → pathValid p = true →
        ∀ a ∈ (propagateDir p cs ro).actions, pathValid (actPath a) = true)
      ∧ (∀ r1 acts, propagateDir p cs ro = .ok r1 acts →
          validNamesL cs = true → validO ro = true → validNames r1 = true))
    ∧ (∀ (cs : List (String × FsEntry)) (p : List String) (r : FsEntry),
      sizeOf cs ≤ N →
      (validNamesL cs = true → pathValid p = true →
        ∀ a ∈ (propagateSubs p cs r []).actions, pathValid (actPath a) = true)
      ∧ (∀ r1 acts, propagateSubs p cs r [] = .ok r1 acts →
          validNamesL cs = true → validNames r = true → validNames r1 = true)) := by
  intro N
  induction N using Nat.strong_induction_on with
  | _ N IH =>
  have hsubs : ∀ (cs : List (String × FsEntry)) (p : List String) (r : FsEntry),
      sizeOf cs ≤ N →
      (validNamesL cs = true → pathValid p = true →
        ∀ a ∈ (propagateSubs p cs r []).actions, pathValid (actPath a) = true)
      ∧ (∀ r1 acts, propagateSubs p cs r [] = .ok r1 acts →
          validNamesL cs = true → validNames r = true → validNames r1 = true) := by
    intro cs
    induction cs with
    | nil =>
      intro p r hsz
      constructor
      · intro _ _ a ha
        rw [show propagateSubs p [] r [] = .ok r [] from by rw [propagateSubs]] at ha
        simp [Res.actions] at ha
      · intro r1 acts hok _ hvr
        rw [propagateSubs] at hok
        injection hok with h1 h2
        rw [← h1]
        exact hvr
    | cons x rest ihrest =>
      intro p r hsz
      obtain ⟨n0, e0⟩ := x
      have hszrest : sizeOf rest ≤ N := by
        have h := List.cons.sizeOf_spec (n0, e0) rest
        omega
      cases e0 with
      | file m0 c0 =>
        have heq : propagateSubs p ((n0, FsEntry.file m0 c0) :: rest) r []
            = propagateSubs p rest r [] := by
          simp only [propagateSubs]
        constructor
        · intro hvc hvp a ha
          rw [heq] at ha
          rw [validL_cons] at hvc
          exact (ihrest p r hszrest).1 hvc.2.2 hvp a ha
        · intro r1 acts hok hvc hvr
          rw [heq] at hok
          rw [validL_cons] at hvc
          exact (ihrest p r hszrest).2 r1 acts hok hvc.2.2 hvr
      | dir cs2 =>
        cases r with
        | file m c =>
          have heq : propagateSubs p ((n0, FsEntry.dir cs2) :: rest)
              (.file m c) [] = .err .notADirectory [] := by
            simp only [propagateSubs]
          constructor
          · intro _ _ a ha
            rw [heq] at ha
            simp [Res.actions] at ha
          · intro r1 acts hok _ _
            rw [heq] at hok
            cases hok
        | dir rcs =>
          have hlt : sizeOf cs2 < N := by
            have h1 := List.cons.sizeOf_spec (n0, FsEntry.dir cs2) rest
            have h2 := Prod.mk.sizeOf_spec n0 (FsEntry.dir cs2)
            have h3 : sizeOf (FsEntry.dir cs2) = 1 + sizeOf cs2 := by simp
            omega
          cases hpd : propagateDir (p ++ [n0]) cs2 (findChild rcs n0) with
          | ok sub acts2 =>
            have heq : propagateSubs p ((n0, FsEntry.dir cs2) :: rest)
                (.dir rcs) []
                = propagateSubs p rest (.dir (setChild rcs n0 sub)) acts2 := by
              simp only [propagateSubs, hpd, List.nil_append]
            constructor
            · intro hvc hvp a ha
              rw [validL_cons] at hvc
              have hvc2 : validNamesL cs2 = true := by
                have h := hvc.2.1
                rwa [validNames_dir] at h
              have hp2 : pathValid (p ++ [n0]) = true :=
                pathValid_append.mpr ⟨hvp, hvc.1⟩
              rw [heq, propagateSubs_acc] at ha
              cases hin : propagateSubs p rest (.dir (setChild rcs n0 sub)) [] with
              | ok y a3 =>
                rw [hin] at ha
                simp only [Res.actions] at ha
                rcases List.mem_append.mp ha with h1 | h1
                · exact ((IH (sizeOf cs2) hlt).1 cs2 (p ++ [n0])
                    (findChild rcs n0) (Nat.le_refl _)).1 hvc2 hp2 a
                    (by rw [hpd]; exact h1)
                · exact (ihrest p (.dir (setChild rcs n0 sub)) hszrest).1
                    hvc.2.2 hvp a (by rw [hin]; exact h1)
              | err e a3 =>
                rw [hin] at ha
                simp only [Res.actions] at ha
                rcases List.mem_append.mp ha with h1 | h1
                · exact ((IH (sizeOf cs2) hlt).1 cs2 (p ++ [n0])
                    (findChild rcs n0) (Nat.le_refl _)).1 hvc2 hp2 a
                    (by rw [hpd]; exact h1)
                · exact (ihrest p (.dir (setChild rcs n0 sub)) hszrest).1
                    hvc.2.2 hvp a (by rw [hin]; exact h1)
            · intro r1 acts hok hvc hvr
              rw [validL_cons] at hvc
              have hvc2 : validNamesL cs2 = true := by
                have h := hvc.2.1
                rwa [validNames_dir] at h
              have hrv : validNamesL rcs = true := by
                rwa [validNames_dir] at hvr
              have hsubv : validNames sub = true :=
                ((IH (sizeOf cs2) hlt).1 cs2 (p ++ [n0]) (findChild rcs n0)
                  (Nat.le_refl _)).2 sub acts2 hpd hvc2 (validO_findChild hrv)
              have hset : validNames (.dir (setChild rcs n0 sub)) = true := by
                rw [validNames_dir]
                exact validL_setChild hrv hvc.1 hsubv
              rw [heq, propagateSubs_acc] at hok
              cases hin : propagateSubs p rest (.dir (setChild rcs n0 sub)) [] with
              | ok y a3 =>
                rw [hin] at hok
                injection hok with h1 h2
                have := (ihrest p (.dir (setChild rcs n0 sub)) hszrest).2
                  y a3 hin hvc.2.2 hset
                rw [← h1]
                exact this
              | err e a3 =>
                rw [hin] at hok
                cases hok
          | err e acts2 =>
            have heq : propagateSubs p ((n0, FsEntry.dir cs2) :: rest)
                (.dir rcs) [] = .err e acts2 := by
              simp only [propagateSubs, hpd, List.nil_append]
            constructor
            · intro hvc hvp a ha
              rw [validL_cons] at hvc
              have hvc2 : validNamesL cs2 = true := by
                have h := hvc.2.1
                rwa [validNames_dir] at h
              have hp2 : pathValid (p ++ [n0]) = true :=
                pathValid_append.mpr ⟨hvp, hvc.1⟩
              rw [heq] at ha
              simp only [Res.actions] at ha
              exact ((IH (sizeOf cs2) hlt).1 cs2 (p ++ [n0])
                (findChild rcs n0) (Nat.le_refl _)).1 hvc2 hp2 a
                (by rw [hpd]; exact ha)
            · intro r1 acts hok _ _
              rw [heq] at hok
              cases hok
  refine ⟨?_, hsubs⟩
  intro cs p ro hsz
  have hfsnames : validNamesL cs = true → ∀ x ∈ filesOf cs, validName x.1 = true := by
    intro hvc x hx
    obtain ⟨n, sm, sc⟩ := x
    exact (valid_of_mem hvc (filesOf_mem.mp hx)).1
  cases ro with
  | none =>
    cases hsf : syncFiles p (filesOf cs) [] [Action.createdDir p] with
    | ok rcs1 acts1 =>
      have heq : propagateDir p cs none = propagateSubs p cs (.dir rcs1) acts1 := by
        simp only [propagateDir, hsf]
      constructor
      · intro hvc hvp a ha
        rw [heq, propagateSubs_acc] at ha
        have hacts1 : ∀ b ∈ acts1, pathValid (actPath b) = true := by
          intro b hb
          refine syncFiles_names (filesOf cs) [] [Action.createdDir p] ?_
            (hfsnames hvc) hvp b (by rw [hsf]; exact hb)
          intro c hc
          rw [List.mem_singleton] at hc
          subst hc
          exact hvp
        cases hin : propagateSubs p cs (.dir rcs1) [] with
        | ok y a3 =>
          rw [hin] at ha
          simp only [Res.actions] at ha
          rcases List.mem_append.mp ha with h1 | h1
          · exact hacts1 a h1
          · exact (hsubs cs p (.dir rcs1) hsz).1 hvc hvp a (by rw [hin]; exact h1)
        | err e a3 =>
          rw [hin] at ha
          simp only [Res.actions] at ha
          rcases List.mem_append.mp ha with h1 | h1
          · exact hacts1 a h1
          · exact (hsubs cs p (.dir rcs1) hsz).1 hvc hvp a (by rw [hin]; exact h1)
      · intro r1 acts hok hvc _
        have hv1 : validNamesL rcs1 = true :=
          syncFiles_valid (filesOf cs) [] [Action.createdDir p] rcs1 acts1 hsf
            (hfsnames hvc) validNamesL_nil
        rw [heq, propagateSubs_acc] at hok
        cases hin : propagateSubs p cs (.dir rcs1) [] with
        | ok y a3 =>
          rw [hin] at hok
          injection hok with h1 h2
          have := (hsubs cs p (.dir rcs1) hsz).2 y a3 hin hvc
            (by rw [validNames_dir]; exact hv1)
          rw [← h1]
          exact this
        | err e a3 =>
          rw [hin] at hok
          cases hok
    | err e acts1 =>
      have heq : propagateDir p cs none = .err e acts1 := by
        simp only [propagateDir, hsf]
      constructor
      · intro hvc hvp a ha
        rw [heq] at ha
        simp only [Res.actions] at ha
        refine syncFiles_names (filesOf cs) [] [Action.createdDir p] ?_
          (hfsnames hvc) hvp a (by rw [hsf]; exact ha)
        intro c hc
        rw [List.mem_singleton] at hc
        subst hc
        exact hvp
      · intro r1 acts hok _ _
        rw [heq] at hok
        cases hok
  | some e0 =>
    cases e0 with
    | file m c =>
      cases hfo : filesOf cs with
      | nil =>
        have heq : propagateDir p cs (some (.file m c))
            = propagateSubs p cs (.file m c) [] := by
          simp only [propagateDir, hfo]
        constructor
        · intro hvc hvp a ha
          rw [heq] at ha
          exact (hsubs cs p (.file m c) hsz).1 hvc hvp a ha
        · intro r1 acts hok hvc _
          rw [heq] at hok
          exact (hsubs cs p (.file m c) hsz).2 r1 acts hok hvc
            (validNames_file _ _)
      | cons y ys =>
        have heq : propagateDir p cs (some (.file m c))
            = .err .notADirectory [] := by
          simp only [propagateDir, hfo]
        constructor
        · intro _ _ a ha
          rw [heq] at ha
          simp [Res.actions] at ha
        · intro r1 acts hok _ _
          rw [heq] at hok
          cases hok
    | dir rcs =>
      cases hsf : syncFiles p (filesOf cs) rcs [] with
      | ok rcs1 acts1 =>
        have heq : propagateDir p cs (some (.dir rcs))
            = propagateSubs p cs (.dir rcs1) acts1 := by
          simp only [propagateDir, hsf]
        constructor
        · intro hvc hvp a ha
          rw [heq, propagateSubs_acc] at ha
          have hacts1 : ∀ b ∈ acts1, pathValid (actPath b) = true := by
            intro b hb
            refine syncFiles_names (filesOf cs) rcs [] ?_
              (hfsnames hvc) hvp b (by rw [hsf]; exact hb)
            intro c hc
            simp at hc
          cases hin : propagateSubs p cs (.dir rcs1) [] with
          | ok y a3 =>
            rw [hin] at ha
            simp only [Res.actions] at ha
            rcases List.mem_append.mp ha with h1 | h1
            · exact hacts1 a h1
            · exact (hsubs cs p (.dir rcs1) hsz).1 hvc hvp a (by rw [hin]; exact h1)
          | err e a3 =>
            rw [hin] at ha
            simp only [Res.actions] at ha
            rcases List.mem_append.mp ha with h1 | h1
            · exact hacts1 a h1
            · exact (hsubs cs p (.dir rcs1) hsz).1 hvc hvp a (by rw [hin]; exact h1)
        · intro r1 acts hok hvc hvo
          have hrv : validNamesL rcs = true := by
            rw [validO_some_dir] at hvo
            exact hvo
          have hv1 : validNamesL rcs1 = true :=
            syncFiles_valid (filesOf cs) rcs [] rcs1 acts1 hsf
              (hfsnames hvc) hrv
          rw [heq, propagateSubs_acc] at hok
          cases hin : propagateSubs p cs (.dir rcs1) [] with
          | ok y a3 =>
            rw [hin] at hok
            injection hok with h1 h2
            have := (hsubs cs p (.dir rcs1) hsz).2 y a3 hin hvc
              (by rw [validNames_dir]; exact hv1)
            rw [← h1]
            exact this
          | err e a3 =>
            rw [hin] at hok
            cases hok
      | err e acts1 =>
        have heq : propagateDir p cs (some (.dir rcs)) = .err e acts1 := by
          simp only [propagateDir, hsf]
        constructor
        · intro hvc hvp a ha
          rw [heq] at ha
          simp only [Res.actions] at ha
          refine syncFiles_names (filesOf cs) rcs [] ?_
            (hfsnames hvc) hvp a (by rw [hsf]; exact ha)
          intro c hc
          simp at hc
        · intro r1 acts hok _ _
          rw [heq] at hok
          cases hok

theorem prune_names : ∀ N : Nat,
    ∀ (rcs : List (String × FsEntry)) (s : FsEntry) (p : List String),
    sizeOf rcs ≤ N → validNamesL rcs = true → pathValid p = true →
    ∀ a ∈ (pruneTree s p rcs).2, pathValid (actPath a) = true := by
  intro N
  induction N using Nat.strong_induction_on with
  | _ N IH =>
  intro rcs s p hsz hv hp a ha
  simp only [pruneTree, pruneSubs_eq] at ha
  rcases List.mem_append.mp ha with h12 | h3
  · rcases List.mem_append.mp h12 with h1 | h2
    · obtain ⟨x, hx, hmem⟩ := mem_pruneSubsActs h1
      have hxm : (x.1, FsEntry.dir x.2) ∈ rcs := dirsOf_mem.mp (by
        rw [show x = (x.1, x.2) from rfl] at hx
        exact hx)
      have hvx := valid_of_mem hv hxm
      have hvx2 : validNamesL x.2 = true := by
        have h := hvx.2
        rwa [validNames_dir] at h
      have hlt : sizeOf x.2 < N := by
        have h1 := List.sizeOf_lt_of_mem hxm
        have h2 := Prod.mk.sizeOf_spec x.1 (FsEntry.dir x.2)
        have h3 : sizeOf (FsEntry.dir x.2) = 1 + sizeOf x.2 := by simp
        omega
      exact IH (sizeOf x.2) hlt x.2 s (p ++ [x.1]) (Nat.le_refl _) hvx2
        (pathValid_append.mpr ⟨hp, hvx.1⟩) a hmem
    · obtain ⟨x, hx, hfx⟩ := List.mem_filterMap.mp h2
      obtain ⟨m, e⟩ := x
      cases e with
      | dir ds => simp at hfx
      | file fm fc =>
        cases hex : (lookup s (p ++ [m])).isSome with
        | true => simp [hex] at hfx
        | false =>
          simp [hex] at hfx
          rw [← hfx]
          exact pathValid_append.mpr ⟨hp, (valid_of_mem hv hx).1⟩
  · obtain ⟨x, hx, hfx⟩ := List.mem_filterMap.mp h3
    obtain ⟨m, e⟩ := x
    cases e with
    | file fm fc => simp at hfx
    | dir ds =>
      cases hex : (lookup s (p ++ [m])).isSome with
      | true => simp [hex] at hfx
      | false =>
        simp [hex] at hfx
        rw [← hfx]
        exact pathValid_append.mpr ⟨hp, (valid_of_mem hv hx).1⟩

/-- C5 counterexample: when the replica root is nested inside the source
root (here source `/s`, replica `/s/r`), a completed pass creates a file at
the absolute path `/s/r/a`, which lies under the source root — so it is not
true of every input state that a pass never creates anything under
`source`. -/
theorem c5_counterexample : ¬ ClaimC5 := by
  intro h
  have h2 := h ("/s").data ("/s/r").data (.dir [("a", FsEntry.file 5 "x")])
    (.dir []) (.dir [("a", FsEntry.file 5 "x")]) [Action.createdFile ["a"]]
    (by simp [replicate_source, propagatePhase, prunePhase, propagateDir,
      propagateSubs, pruneTree, pruneSubs, syncFiles, syncFile,
      filesOf, findChild, setChild, lookup])
    (Action.createdFile ["a"]) (by simp)
  exact absurd h2 (by decide)

/-- C5 amended: provided the two roots are disjoint directories — neither
lies inside the other, they differ, and neither root string is empty or
separator-terminated — every action of a completed pass on well-formed
trees with plausible filenames targets an absolute path strictly inside
the replica root and never one inside the source root: the pass then
creates, modifies and deletes only under `replica`.  (With a
separator-terminated source root the `str.replace` rewrite of line 58 drops
the separator the join would keep and the pass escapes the replica root,
and with nested roots it writes under the source root — hence the root
hypotheses.) -/
theorem c5_no_source_mutation (srcRoot repRoot : List Char)
    (cs rcs : List (String × FsEntry)) (r1 : FsEntry) (acts : List Action)
    (hwfs : wfNamesL cs = true) (hwfr : wfNamesL rcs = true)
    (hvs : validNamesL cs = true) (hvr : validNamesL rcs = true)
    (hs1 : lastIsSlash srcRoot = false) (hs2 : srcRoot ≠ [])
    (hr1 : lastIsSlash repRoot = false) (hr2 : repRoot ≠ [])
    (h1 : underRoot srcRoot repRoot = false)
    (h2 : underRoot repRoot srcRoot = false)
    (hne : srcRoot ≠ repRoot)
    (hok : replicate_source (.dir cs) (.dir rcs) = .ok r1 acts) :
    ∀ a ∈ acts,
      underRoot repRoot (actAbsPath srcRoot repRoot a) = true
      ∧ underRoot srcRoot (actAbsPath srcRoot repRoot a) = false := by
  obtain ⟨rcsm, res, acts1, acts2, hpd, hpt, hr1x, hacts, hpost, hwfm, hpw⟩ :=
    pass_shape hwfs hwfr hok
  subst hacts
  have hvmid : validNamesL rcsm = true := by
    have h := ((names_master (sizeOf cs)).1 cs [] (some (.dir rcs))
      (Nat.le_refl _)).2 (.dir rcsm) acts1 hpd hvs
      (by rw [validO_some_dir]; exact hvr)
    rwa [validNames_dir] at h
  intro a ha
  have hprops : actPath a ≠ [] ∧ pathValid (actPath a) = true := by
    rcases List.mem_append.mp ha with ha1 | ha2
    · constructor
      · have hreg := ((propagate_master (sizeOf cs)).1 cs [] (some (.dir rcs))
            (Nat.le_refl _)).1 a (by rw [hpd]; exact ha1)
        exact hreg.2.2 rfl
      · exact ((names_master (sizeOf cs)).1 cs [] (some (.dir rcs))
          (Nat.le_refl _)).1 hvs rfl a (by rw [hpd]; exact ha1)
    · constructor
      · have hreg := (prune_master (sizeOf rcsm) rcsm (.dir cs) []
            (Nat.le_refl _)).1 a (by rw [hpt]; exact ha2)
        obtain ⟨-, n, t, hat⟩ := hreg
        rw [hat]
        simp
      · exact prune_names (sizeOf rcsm) rcsm (.dir cs) [] (Nat.le_refl _)
          hvmid rfl a (by rw [hpt]; exact ha2)
  rw [actAbsPath_join hs1 hs2 hr1 hr2 hprops.2 hprops.1]
  exact ⟨underRoot_join hr1 hprops.1,
    notUnder_of_disjoint srcRoot repRoot (actPath a) hs1 hr1 h1 h2 hne⟩

/-- C5 amended witness: with disjoint separator-free roots `/s` and `/r`,
the single created file's absolute path `/r/a` is inside the replica root
and not inside the source root. -/
theorem c5_witness :
    underRoot ("/r").data
        (actAbsPath ("/s").data ("/r").data (Action.createdFile ["a"])) = true
    ∧ underRoot ("/s").data
        (actAbsPath ("/s").data ("/r").data (Action.createdFile ["a"]))
      = false :=
  c5_no_source_mutation ("/s").data ("/r").data
    [("a", FsEntry.file 5 "x")] [] (.dir [("a", FsEntry.file 5 "x")])
    [Action.createdFile ["a"]]
    (by simp [wfNamesL, wfNames, namesFresh])
    (by simp [wfNamesL])
    (by simp [validNamesL, validNames, validName])
    (by simp [validNamesL])
    (by decide) (by decide) (by decide) (by decide)
    (by decide) (by decide) (by decide)
    (by simp [replicate_source, propagatePhase, prunePhase, propagateDir,
      propagateSubs, pruneTree, pruneSubs, syncFiles, syncFile,
      filesOf, findChild, setChild, lookup])
    (Action.createdFile ["a"]) (by simp)

end FolderSync
